import Mathlib

/-!
TRaft: a shallow embedding of the replica core.

The embedding follows `server.go` (AddLog, Vote, Replicate, the
`update-leaderStat` action) and `logforward.go` (hdlLogForward).  Go `int64`
values are Lean integers, and the sum AddLog computes for the seq of the new
record wraps around as `int64` addition does; `[]uint64` words are lists of
naturals, a Go panic is an `Except.error`.  The types `LeaderId`, `TailBitmap`, `Record` and `Cmd` and
their methods are not part of the source files at hand; they are modelled from
the specification's data model.
-/

namespace Traft

/-! ## LeaderId -/

/-- Modelled from the spec: `cmpI64` is used by `CmpAccepted` in
`replicastatus.go` but declared elsewhere; it is the three-way comparison of two
`int64`. -/
def cmpI64 (a b : Int) : Int :=
  if a < b then -1 else if a > b then 1 else 0

/-- Modelled from the spec: `LeaderId = (Term: int64, Id: int64)`. -/
structure LeaderId where
  Term : Int
  Id : Int
  deriving DecidableEq, Repr

/-- Modelled from the spec: `LeaderId.Cmp` compares first by `Term`, then by
`Id`; negative, zero or positive. -/
def LeaderId.Cmp (a b : LeaderId) : Int :=
  if cmpI64 a.Term b.Term ≠ 0 then cmpI64 a.Term b.Term else cmpI64 a.Id b.Id

/-- The strict lexicographic `(Term, Id)` order, written out. -/
def LeaderId.lt (a b : LeaderId) : Prop :=
  a.Term < b.Term ∨ (a.Term = b.Term ∧ a.Id < b.Id)

/-- The lexicographic `(Term, Id)` order, written out. -/
def LeaderId.le (a b : LeaderId) : Prop :=
  a.Term < b.Term ∨ (a.Term = b.Term ∧ a.Id ≤ b.Id)

instance (a b : LeaderId) : Decidable (LeaderId.lt a b) := by
  unfold LeaderId.lt; infer_instance

instance (a b : LeaderId) : Decidable (LeaderId.le a b) := by
  unfold LeaderId.le; infer_instance

/-! ## TailBitmap -/

/-- Modelled from the spec: `TailBitmap = (Offset: int64, Words: [u64])`, the
set `{i | i < Offset} ∪ {i ≥ Offset | bit (i-Offset)%64 of Words[(i-Offset)/64]}`.
The data model states that `Offset` is always a multiple of 64; the structure
carries that invariant. -/
structure TailBitmap where
  Offset : Int
  Words : List Nat
  aligned : Offset % 64 = 0
  deriving DecidableEq

/-- Modelled from the spec: `NewTailBitmap(offset)`.  `replicastatus.go` and the
AddLog test show the constructor called with arbitrary offsets: the offset is
rounded down to a multiple of 64 (`offset &^ 63`) and the remaining low
`offset & 63` positions are set in the first word. -/
def NewTailBitmap (offset : Int) : TailBitmap :=
  { Offset := offset - offset % 64
    Words := if offset % 64 = 0 then [] else [2 ^ (offset % 64).toNat - 1]
    aligned := by omega }

/-- Modelled from the spec: `Get(i)` is 1 when `i` is a member and 0 otherwise. -/
def TailBitmap.Get (tb : TailBitmap) (i : Int) : Nat :=
  if i < tb.Offset then 1
  else if (tb.Words.getD ((i - tb.Offset) / 64).toNat 0).testBit ((i - tb.Offset) % 64).toNat
  then 1 else 0

/-- Modelled from the spec: `Set(i)` adds `i`; positions below `Offset` are
already members. -/
def TailBitmap.Set (tb : TailBitmap) (i : Int) : TailBitmap :=
  if i < tb.Offset then tb
  else
    let w := ((i - tb.Offset) / 64).toNat
    let b := ((i - tb.Offset) % 64).toNat
    let ws := tb.Words ++ List.replicate (w + 1 - tb.Words.length) 0
    { tb with Words := ws.set w (ws.getD w 0 ||| 2 ^ b) }

/-- Element-wise OR of two word lists, the longer tail kept. -/
def orWords : List Nat → List Nat → List Nat
  | [], ys => ys
  | xs, [] => xs
  | x :: xs, y :: ys => (x ||| y) :: orWords xs ys

/-- Modelled from the spec: `Union(b)`: "if `b.Offset > self.Offset`, raise
`self.Offset` to `b.Offset` first by dropping and OR-ing words as appropriate;
then OR the remaining words element-wise, extending `Words` as needed". -/
def TailBitmap.Union (a b : TailBitmap) : TailBitmap :=
  if b.Offset > a.Offset then
    { Offset := b.Offset
      Words := orWords (a.Words.drop ((b.Offset - a.Offset) / 64).toNat) b.Words
      aligned := b.aligned }
  else
    { Offset := a.Offset
      Words := orWords a.Words (b.Words.drop ((a.Offset - b.Offset) / 64).toNat)
      aligned := a.aligned }

/-- Number of significant bits of a word, by halving at most `fuel` times. -/
def bitLen : Nat → Nat → Nat
  | 0, _ => 0
  | fuel + 1, w => if w = 0 then 0 else bitLen fuel (w / 2) + 1

/-- One past the highest set position of a word list, 0 when every word is 0. -/
def wordsLen : List Nat → Nat
  | [] => 0
  | w :: ws => if wordsLen ws ≠ 0 then 64 + wordsLen ws else bitLen 64 w

/-- Modelled from the spec: `Len()` is one past the highest member, or `Offset`
when the suffix is entirely zero. -/
def TailBitmap.Len (tb : TailBitmap) : Int :=
  tb.Offset + (wordsLen tb.Words : Int)

/-- Modelled from the spec: `NewTailBitmap(offset, set...)`, the positions in
`set` are absolute. -/
def NewTailBitmapSet (offset : Int) (set : List Int) : TailBitmap :=
  set.foldl TailBitmap.Set (NewTailBitmap offset)

/-- Membership in the set a tail bitmap stands for. -/
def TailBitmap.Mem (tb : TailBitmap) (i : Int) : Prop := tb.Get i ≠ 0

instance (tb : TailBitmap) (i : Int) : Decidable (tb.Mem i) := by
  unfold TailBitmap.Mem; infer_instance

/-! ## Record -/

/-- Modelled from the spec: the supplied command type `set(var, value)`. -/
structure Cmd where
  Op : String
  Key : String
  Vi64 : Int
  deriving DecidableEq

/-- Modelled from the spec: `Record = (Author, Seq, Cmd, Overrides, Depends)`.
`Author` and `Cmd` are pointers in Go and may be nil; a nil bitmap is the empty
bitmap with offset 0. -/
structure Record where
  Author : Option LeaderId
  Seq : Int
  Cmd : Option Cmd
  Overrides : TailBitmap
  Depends : TailBitmap
  deriving DecidableEq

/-- The Go value `&Record{}`. -/
def Record.zero : Record :=
  { Author := none, Seq := 0, Cmd := none
    Overrides := NewTailBitmap 0, Depends := NewTailBitmap 0 }

/-- Modelled from the spec: `Empty()` iff default-constructed (no author, no
cmd). -/
def Record.Empty (r : Record) : Bool :=
  r.Author.isNone && r.Cmd.isNone

/-- Modelled from the spec: `Equal` compares two records field by field
("byte-identical"). -/
def Record.Equal (a b : Record) : Bool := decide (a = b)

/-- Modelled from the spec: two `set(var, value)` commands interfere iff they
have the same variable name. -/
def Cmd.Interfering (a b : Cmd) : Bool := decide (a.Key = b.Key)

/-- Modelled from the spec: a record interferes with an earlier non-empty record
whose command interferes with its own. -/
def Record.Interfering (a b : Record) : Bool :=
  match a.Cmd, b.Cmd with
  | some x, some y => x.Interfering y
  | _, _ => false

/-- Modelled from the spec: `NewRecord(author, seq, cmd)`. -/
def NewRecord (author : LeaderId) (seq : Int) (cmd : Option Cmd) : Record :=
  { Author := some author, Seq := seq, Cmd := cmd
    Overrides := NewTailBitmap 0, Depends := NewTailBitmap 0 }

/-! ## Replica state -/

/-- Modelled from the spec: `ReplicaStatus`. -/
structure ReplicaStatus where
  VotedFor : LeaderId
  VoteExpireAt : Int
  Committer : LeaderId
  Accepted : TailBitmap
  Committed : TailBitmap
  deriving DecidableEq

/-- The replica core state.  `Status` is the entry `tr.Status[tr.Id]`, the only
entry of the status map that AddLog, Vote, Replicate, hdlLogForward and the
action loop read or write. -/
structure TRaft where
  Id : Int
  Status : ReplicaStatus
  Logs : List Record
  LogOffset : Int
  deriving DecidableEq

/-- The ways the code aborts the process: the explicit `panic("wtf")`, Go's
index-out-of-range runtime panic and the dereference of a nil pointer. -/
inductive Fatal where
  | wtf
  | indexOutOfRange
  | nilPointer
  deriving DecidableEq, Repr

deriving instance DecidableEq for Except

/-- Go slice indexing `logs[idx]` with an `int64` index. -/
def indexLogs (logs : List Record) (idx : Int) : Option Record :=
  if idx < 0 then none else logs.get? idx.toNat

/-! ## Vote -/

/-- The pair `(Committer, Accepted)` read through the `logStat` interface. -/
structure LogStatus where
  Committer : LeaderId
  Accepted : TailBitmap
  deriving DecidableEq

/-- Modelled from the spec: `CmpLogStatus(a, b)` compares `a.Committer` to
`b.Committer`; if equal, compares `a.Accepted.Len()` to `b.Accepted.Len()`. -/
def CmpLogStatus (a b : LogStatus) : Int :=
  if a.Committer.Cmp b.Committer ≠ 0 then a.Committer.Cmp b.Committer
  else cmpI64 a.Accepted.Len b.Accepted.Len

structure VoteReq where
  Candidate : LeaderId
  Committer : LeaderId
  Accepted : TailBitmap
  deriving DecidableEq

structure VoteReply where
  VotedFor : LeaderId
  Committer : LeaderId
  Accepted : TailBitmap
  Logs : List Record
  deriving DecidableEq

def VoteReq.logStat (r : VoteReq) : LogStatus := ⟨r.Committer, r.Accepted⟩

def VoteReply.logStat (r : VoteReply) : LogStatus := ⟨r.Committer, r.Accepted⟩

def ReplicaStatus.logStat (r : ReplicaStatus) : LogStatus := ⟨r.Committer, r.Accepted⟩

/-- The shipping loop of `Vote` (server.go 495-499): `n` iterations are left,
`i` is the loop variable, `logs` the slice built so far. -/
def shipLoop (tr : TRaft) (req : VoteReq) : Nat → Int → List Record → Except Fatal (List Record)
  | 0, _, logs => .ok logs
  | n + 1, i, logs =>
    if tr.Status.Accepted.Get i ≠ 0 ∧ req.Accepted.Get i = 0 then
      match indexLogs tr.Logs (i - tr.LogOffset) with
      | none => .error Fatal.indexOutOfRange
      | some r => shipLoop tr req n (i + 1) (logs ++ [r])
    else shipLoop tr req n (i + 1) logs

/-- The handler `Vote` (server.go 457-504). -/
def Vote (tr : TRaft) (req : VoteReq) : Except Fatal (TRaft × VoteReply) :=
  let me := tr.Status
  let repl : VoteReply :=
    { VotedFor := me.VotedFor, Committer := me.Committer, Accepted := me.Accepted, Logs := [] }
  if CmpLogStatus req.logStat me.logStat < 0 then .ok (tr, repl)
  else if req.Candidate.Cmp me.VotedFor < 0 then .ok (tr, repl)
  else
    let start := me.Accepted.Offset
    let stop := me.Accepted.Len
    match shipLoop tr req (stop - start).toNat start [] with
    | .error e => .error e
    | .ok logs =>
      .ok ({ tr with Status := { me with VotedFor := req.Candidate } },
           { repl with VotedFor := req.Candidate, Logs := logs })

/-! ## LogForward, follower side -/

structure LogForwardReq where
  Committer : LeaderId
  Logs : List Record
  deriving DecidableEq

/-- The reply of `hdlLogForward`; the rejecting reply leaves `Accepted` and
`Committed` nil. -/
structure LogForwardReply where
  OK : Bool
  VotedFor : LeaderId
  Accepted : Option TailBitmap
  Committed : Option TailBitmap
  deriving DecidableEq

/-- The truncation loop of `hdlLogForward` (logforward.go 127-137): every
non-empty record whose `Seq` is not in `acc` is replaced by `&Record{}`.  The
loop walks the slots from high to low and touches each slot once, reading only
`acc`. -/
def truncateLogs (acc : TailBitmap) (logs : List Record) : List Record :=
  logs.map (fun r => if r.Empty then r else if acc.Get r.Seq = 0 then Record.zero else r)

/-- The inner loop `for int(idx) >= len(tr.Logs) { append(&Record{}) }`. -/
def extendLogs (logs : List Record) (idx : Nat) : List Record :=
  logs ++ List.replicate (idx + 1 - logs.length) Record.zero

/-- One iteration of the "add new logs" loop of `hdlLogForward`
(logforward.go 143-157) on the pair `(tr.Logs, me.Accepted)`. -/
def forwardOne (off : Int) (st : List Record × TailBitmap) (r : Record) :
    Except Fatal (List Record × TailBitmap) :=
  let idx := r.Seq - off
  if idx < 0 then .error Fatal.indexOutOfRange
  else
    let logs := extendLogs st.1 idx.toNat
    let cur := logs.getD idx.toNat Record.zero
    if !cur.Empty && !cur.Equal r then .error Fatal.wtf
    else .ok (logs.set idx.toNat r, st.2.Union r.Overrides)

/-- The "add new logs" loop over `req.Logs`. -/
def forwardAll (off : Int) : List Record × TailBitmap → List Record →
    Except Fatal (List Record × TailBitmap)
  | st, [] => .ok st
  | st, r :: rs =>
    match forwardOne off st r with
    | .error e => .error e
    | .ok st1 => forwardAll off st1 rs

/-- The loop "remove empty logs at top" (logforward.go 161-168). -/
def trimTop (logs : List Record) : List Record :=
  logs.rdropWhile Record.Empty

/-- The block "newer committer" of `hdlLogForward` (logforward.go 117-138): the
pair `(tr.Logs, me.Accepted)` the "add new logs" loop starts from. -/
def discardUncommitted (tr : TRaft) (req : LogForwardReq) : List Record × TailBitmap :=
  if req.Committer.Cmp tr.Status.Committer > 0 then
    (truncateLogs tr.Status.Committed tr.Logs, tr.Status.Committed)
  else (tr.Logs, tr.Status.Accepted)

/-- The handler `hdlLogForward` (logforward.go 99-178); `now` is the reading of
`uSecondI64()`. -/
def hdlLogForward (tr : TRaft) (now : Int) (req : LogForwardReq) :
    Except Fatal (TRaft × LogForwardReply) :=
  let me := tr.Status
  if req.Committer.Cmp me.VotedFor ≠ 0 ∨ now > me.VoteExpireAt then
    .ok (tr, { OK := false, VotedFor := me.VotedFor, Accepted := none, Committed := none })
  else
    match forwardAll tr.LogOffset (discardUncommitted tr req) req.Logs with
    | .error e => .error e
    | .ok st1 =>
      .ok ({ tr with
              Logs := trimTop st1.1
              Status := { me with Accepted := st1.2, Committer := req.Committer } },
           { OK := true, VotedFor := me.VotedFor
             Accepted := some st1.2, Committed := some me.Committed })

/-! ## Replicate -/

structure ReplicateReq where
  Committer : LeaderId
  Logs : List Record
  deriving DecidableEq

structure ReplicateReply where
  VotedFor : LeaderId
  Accepted : Option TailBitmap
  Committed : Option TailBitmap
  deriving DecidableEq

/-- One iteration of the log loop of `Replicate` (server.go 551-564). -/
def replicateOne (off : Int) (st : List Record × TailBitmap) (r : Record) :
    Except Fatal (List Record × TailBitmap) :=
  let idx := r.Seq - off
  if idx < 0 then .error Fatal.indexOutOfRange
  else
    let logs := extendLogs st.1 idx.toNat
    .ok (logs.set idx.toNat r, st.2.Union r.Overrides)

/-- The log loop of `Replicate` over `req.Logs`. -/
def replicateAll (off : Int) : List Record × TailBitmap → List Record →
    Except Fatal (List Record × TailBitmap)
  | st, [] => .ok st
  | st, r :: rs =>
    match replicateOne off st r with
    | .error e => .error e
    | .ok st1 => replicateAll off st1 rs

/-- The handler `Replicate` (server.go 506-570). -/
def Replicate (tr : TRaft) (req : ReplicateReq) : Except Fatal (TRaft × ReplicateReply) :=
  let me := tr.Status
  if me.VotedFor.Cmp me.Committer < 0 then .error Fatal.wtf
  else if req.Committer.Cmp me.VotedFor < 0 then
    .ok (tr, { VotedFor := me.VotedFor, Accepted := none, Committed := none })
  else
    let votedFor := if req.Committer.Cmp me.VotedFor > 0 then req.Committer else me.VotedFor
    let committer := if req.Committer.Cmp me.Committer > 0 then req.Committer else me.Committer
    match replicateAll tr.LogOffset (tr.Logs, me.Accepted) req.Logs with
    | .error e => .error e
    | .ok st1 =>
      .ok ({ tr with
              Logs := st1.1
              Status := { me with VotedFor := votedFor, Committer := committer,
                                  Accepted := st1.2 } },
           { VotedFor := me.VotedFor, Accepted := some st1.2, Committed := some me.Committed })

/-! ## AddLog -/

/-- The scan of `AddLog` (server.go 431-443) from the newest record to the
oldest: the overrides of the new record before the final union. -/
def scanOverrides (r : Record) (lsn : Int) : List Record → TailBitmap
  | [] => NewTailBitmap 0
  | prev :: older =>
    if r.Interfering prev then prev.Overrides.Set lsn else scanOverrides r lsn older

/-- The value of an `int64` expression whose exact value is `x`: Go's integer
arithmetic wraps around modulo 2^64 into [-2^63, 2^63). -/
def wrapInt64 (x : Int) : Int :=
  (x + 9223372036854775808) % 18446744073709551616 - 9223372036854775808

/-- The method `AddLog` (server.go 414-455).  The sum
`tr.LogOffset + int64(len(tr.Logs))` is an `int64` addition. -/
def AddLog (tr : TRaft) (cmd : Option Cmd) : Except Fatal (TRaft × Record) :=
  let me := tr.Status
  if me.VotedFor.Id ≠ tr.Id then .error Fatal.wtf
  else
    let lsn := wrapInt64 (tr.LogOffset + (tr.Logs.length : Int))
    let r := NewRecord me.VotedFor lsn cmd
    let ov := scanOverrides r lsn tr.Logs.reverse
    let r1 : Record :=
      { r with
        Overrides := ov.Union (NewTailBitmap (tr.LogOffset - tr.LogOffset % 64))
        Depends := NewTailBitmap tr.LogOffset }
    .ok ({ tr with Logs := tr.Logs ++ [r1] }, r1)

/-! ## The action loop -/

/-- The pair written by the `update-leaderStat` action. -/
structure LeaderStatus where
  VotedFor : LeaderId
  VoteExpireAt : Int
  deriving DecidableEq

/-- The action `update-leaderStat` of `Loop` (server.go 192-196). -/
def updateLeaderStat (tr : TRaft) (leadst : LeaderStatus) : TRaft :=
  { tr with Status := { tr.Status with VotedFor := leadst.VotedFor,
                                       VoteExpireAt := leadst.VoteExpireAt } }

/-! ## Specification-level predicates -/

/-- The strict order on log statuses in the words of the spec: `Committer`
first, then `Accepted.Len()`. -/
def LogStatus.lt (a b : LogStatus) : Prop :=
  a.Committer.lt b.Committer ∨ (a.Committer = b.Committer ∧ a.Accepted.Len < b.Accepted.Len)

instance (a b : LogStatus) : Decidable (LogStatus.lt a b) := by
  unfold LogStatus.lt; infer_instance

/-- The request passes both checks of `Vote`: the voter's log status is not
strictly greater than the request's and the candidate is not below the voter's
`VotedFor`. -/
def Granted (tr : TRaft) (req : VoteReq) : Prop :=
  ¬ LogStatus.lt req.logStat tr.Status.logStat ∧ ¬ LeaderId.lt req.Candidate tr.Status.VotedFor

instance (tr : TRaft) (req : VoteReq) : Decidable (Granted tr req) := by
  unfold Granted; infer_instance

/-- Seq `i` lies inside the `Logs` window of the replica. -/
def InWindow (tr : TRaft) (i : Int) : Prop :=
  tr.LogOffset ≤ i ∧ i < tr.LogOffset + (tr.Logs.length : Int)

instance (tr : TRaft) (i : Int) : Decidable (InWindow tr i) := by
  unfold InWindow; infer_instance

/-- The record stored for seq `i`, `Logs[i - LogOffset]`. -/
def recordAt (tr : TRaft) (i : Int) : Record :=
  tr.Logs.getD (i - tr.LogOffset).toNat Record.zero

/-- The seqs to ship in the words of the spec: every `i` in
`[Accepted.Offset, Accepted.Len())`, ascending, that the voter has accepted and
the request has not. -/
def shippedSeqs (tr : TRaft) (req : VoteReq) : List Int :=
  ((List.range (tr.Status.Accepted.Len - tr.Status.Accepted.Offset).toNat).map
      (fun (k : Nat) => tr.Status.Accepted.Offset + (k : Int))).filter
    (fun i => decide (tr.Status.Accepted.Get i ≠ 0 ∧ req.Accepted.Get i = 0))

/-- The slot of seq `r.Seq` in `logs` holds a non-empty record that is not
`Equal` to `r`. -/
def Conflict (logs : List Record) (off : Int) (r : Record) : Prop :=
  ∃ cur, logs.get? (r.Seq - off).toNat = some cur ∧ cur.Empty = false ∧ cur.Equal r = false

/-- `Committed ⊆ Accepted` as sets. -/
def CommittedSubAccepted (st : ReplicaStatus) : Prop :=
  ∀ i : Int, st.Committed.Mem i → st.Accepted.Mem i

/-- The seqs the shipping loop ships when it runs `n` iterations from `i`. -/
def loopSeqs (tr : TRaft) (req : VoteReq) (n : Nat) (i : Int) : List Int :=
  ((List.range n).map (fun (k : Nat) => i + (k : Int))).filter
    (fun j => decide (tr.Status.Accepted.Get j ≠ 0 ∧ req.Accepted.Get j = 0))

/-! ## Concrete states used as witnesses

They follow the fixtures of `vote_test.go`: `initTraft` builds the records
`set x=lsn` with `NewRecord`. -/

/-- The record `NewRecord(author, lsn, NewCmdI64("set", "x", lsn))` of
`buildPseudoLogs`. -/
def pseudoRecord (author : LeaderId) (lsn : Int) : Record :=
  NewRecord author lsn (some ⟨"set", "x", lsn⟩)

/-- The voter of the first case of `TestTRaft_Vote`: it voted for 0#1, its
committer is 0#1 and it holds the logs 5 and 6 written by 1#1. -/
def voterA : TRaft :=
  { Id := 1
    Status := { VotedFor := ⟨0, 1⟩, VoteExpireAt := 0, Committer := ⟨0, 1⟩
                Accepted := NewTailBitmapSet 0 [5, 6], Committed := NewTailBitmap 0 }
    Logs := [pseudoRecord ⟨1, 1⟩ 5, pseudoRecord ⟨1, 1⟩ 6]
    LogOffset := 5 }

/-- The request of the first case of `TestTRaft_Vote`: candidate 2#2 with
committer 1#1 and the accepted log 5. -/
def reqA : VoteReq :=
  { Candidate := ⟨2, 2⟩, Committer := ⟨1, 1⟩, Accepted := NewTailBitmapSet 0 [5] }

/-- The voter of the third case of `TestTRaft_Vote`, with committer 1#1. -/
def voterB : TRaft :=
  { voterA with Status := { voterA.Status with Committer := ⟨1, 1⟩ } }

/-- The request of the third case of `TestTRaft_Vote`: committer 0#1, logs 5
and 6. -/
def reqB : VoteReq :=
  { Candidate := ⟨2, 2⟩, Committer := ⟨0, 1⟩, Accepted := NewTailBitmapSet 0 [5, 6] }

/-- The voter of the third case of `TestTRaft_Vote` after it has voted for the
candidate 2#2 of `reqB`. -/
def voterC : TRaft :=
  { voterB with Status := { voterB.Status with VotedFor := ⟨2, 2⟩ } }

/-- A leader 1#1 with an empty log. -/
def leaderD : TRaft :=
  { Id := 1
    Status := { VotedFor := ⟨1, 1⟩, VoteExpireAt := 2000000, Committer := ⟨1, 1⟩
                Accepted := NewTailBitmap 0, Committed := NewTailBitmap 0 }
    Logs := []
    LogOffset := 0 }

/-- The first record of the leader 1#1: `set x=1` at seq 0, with no earlier
interfering record. -/
def recordD : Record :=
  { Author := some ⟨1, 1⟩, Seq := 0, Cmd := some ⟨"set", "x", 1⟩
    Overrides := NewTailBitmap 0, Depends := NewTailBitmap 0 }

/-- A follower with an empty log that has voted for 1#1 and whose lease runs
until 2000000. -/
def followerD : TRaft :=
  { Id := 2
    Status := { VotedFor := ⟨1, 1⟩, VoteExpireAt := 2000000, Committer := ⟨0, 0⟩
                Accepted := NewTailBitmap 0, Committed := NewTailBitmap 0 }
    Logs := []
    LogOffset := 0 }

/-- The request by which the leader 1#1 forwards its first record. -/
def reqD : LogForwardReq := { Committer := ⟨1, 1⟩, Logs := [recordD] }

/-- The record `set x=2` at seq 0 written by 1#1. -/
def recordE : Record :=
  { recordD with Cmd := some ⟨"set", "x", 2⟩ }

/-- A follower of 1#1 that already holds `recordE` at seq 0, accepted under the
committer 1#1. -/
def followerE : TRaft :=
  { followerD with
    Logs := [recordE]
    Status := { followerD.Status with Committer := ⟨1, 1⟩ } }

/-! ## A cluster of replicas -/

/-- The constant `leaderLease := int64(time.Second * 1)` of `VoteLoop`
(server.go 232). -/
def leaderLease : Int := 1000000000

/-- A cluster: the reading of the clock and the state of every replica. -/
structure Cluster where
  now : Int
  replicas : List TRaft
  deriving DecidableEq

/-- A replica as the tests start it: empty log, it has voted for `0#Id`. -/
def freshReplica (id : Int) : TRaft :=
  { Id := id
    Status := { VotedFor := ⟨0, id⟩, VoteExpireAt := 0, Committer := ⟨0, 0⟩
                Accepted := NewTailBitmap 0, Committed := NewTailBitmap 0 }
    Logs := []
    LogOffset := 0 }

/-- The candidate `cand` of replica `k` holds a quorum: the other replicas whose
`VotedFor` is `cand`, with the candidate itself, number more than half. -/
def HasQuorum (c : Cluster) (self : TRaft) (cand : LeaderId) : Prop :=
  2 * ((c.replicas.filter
      (fun s => decide (s.Id ≠ self.Id ∧ s.Status.VotedFor = cand))).length + 1)
    > c.replicas.length

instance (c : Cluster) (self : TRaft) (cand : LeaderId) : Decidable (HasQuorum c self cand) := by
  unfold HasQuorum; infer_instance

/-- One step of the cluster: the clock advances; a leader (a replica whose
`VotedFor.Id` is its own `Id`) runs AddLog; a replica handles the Vote request
of a candidate, built from the candidate's own log status; a candidate holding a
quorum writes its election win back through `update-leaderStat`; a replica
handles a LogForward request of a leader, made of records taken from the
leader's `Logs`. -/
inductive Step : Cluster → Cluster → Prop
  | tick (c c1 : Cluster) (d : Int) (hd : 0 ≤ d)
      (hc : c1 = { c with now := c.now + d }) : Step c c1
  | addLog (c c1 : Cluster) (k : Nat) (cmd : Option Cmd) (tr tr1 : TRaft) (r : Record)
      (hk : c.replicas.get? k = some tr)
      (h : AddLog tr cmd = .ok (tr1, r))
      (hc : c1 = { c with replicas := c.replicas.set k tr1 }) : Step c c1
  | vote (c c1 : Cluster) (k j : Nat) (cand : LeaderId) (voter candidate tr1 : TRaft)
      (repl : VoteReply)
      (hk : c.replicas.get? k = some voter)
      (hj : c.replicas.get? j = some candidate)
      (hid : cand.Id = candidate.Id)
      (h : Vote voter { Candidate := cand, Committer := candidate.Status.Committer,
                        Accepted := candidate.Status.Accepted } = .ok (tr1, repl))
      (hc : c1 = { c with replicas := c.replicas.set k tr1 }) : Step c c1
  | win (c c1 : Cluster) (k : Nat) (cand : LeaderId) (tr : TRaft)
      (hk : c.replicas.get? k = some tr)
      (hid : cand.Id = tr.Id)
      (hq : HasQuorum c tr cand)
      (hc : c1 = { c with
                   replicas := c.replicas.set k
                     (updateLeaderStat tr ⟨cand, c.now + leaderLease⟩) }) : Step c c1
  | forward (c c1 : Cluster) (k l : Nat) (rs : List Record) (follower leader tr1 : TRaft)
      (repl : LogForwardReply)
      (hk : c.replicas.get? k = some follower)
      (hl : c.replicas.get? l = some leader)
      (hkl : k ≠ l)
      (hld : leader.Status.VotedFor.Id = leader.Id)
      (hrs : ∀ r ∈ rs, r ∈ leader.Logs)
      (h : hdlLogForward follower c.now { Committer := leader.Status.VotedFor, Logs := rs }
            = .ok (tr1, repl))
      (hc : c1 = { c with replicas := c.replicas.set k tr1 }) : Step c c1

/-- The cluster states reachable from fresh replicas (empty logs). -/
inductive Reachable : Cluster → Prop
  | init (now : Int) (ids : List Int) (hn : ids.Nodup) :
      Reachable { now := now, replicas := ids.map freshReplica }
  | step (c c1 : Cluster) (hr : Reachable c) (hs : Step c c1) : Reachable c1

/-- Log agreement across replicas: two replicas that both have seq `i` in
`Accepted` and both hold a slot for it hold `Equal` records there. -/
def LogAgreement (c : Cluster) : Prop :=
  ∀ r ∈ c.replicas, ∀ s ∈ c.replicas, ∀ (i : Int) (a b : Record),
    r.Status.Accepted.Mem i → s.Status.Accepted.Mem i →
    indexLogs r.Logs (i - r.LogOffset) = some a →
    indexLogs s.Logs (i - s.LogOffset) = some b → a.Equal b = true

/-- The three records the leader 3#1 creates with AddLog: `set x=1` at seq 0,
`set x=2` at seq 1 overriding nothing it records but itself, `set x=3` at seq 2
overriding seqs 1 and 2. -/
def recordX0 : Record :=
  { Author := some ⟨3, 1⟩, Seq := 0, Cmd := some ⟨"set", "x", 1⟩
    Overrides := NewTailBitmap 0, Depends := NewTailBitmap 0 }

def recordX1 : Record :=
  { Author := some ⟨3, 1⟩, Seq := 1, Cmd := some ⟨"set", "x", 2⟩
    Overrides := { Offset := 0, Words := [2], aligned := by decide }
    Depends := NewTailBitmap 0 }

def recordX2 : Record :=
  { Author := some ⟨3, 1⟩, Seq := 2, Cmd := some ⟨"set", "x", 3⟩
    Overrides := { Offset := 0, Words := [6], aligned := by decide }
    Depends := NewTailBitmap 0 }

/-- A replica of the run below: its `VotedFor`, lease, committer, accepted words
and logs. -/
def replicaX (id : Int) (votedFor : LeaderId) (expire : Int) (committer : LeaderId)
    (acc : List Nat) (logs : List Record) : TRaft :=
  { Id := id
    Status := { VotedFor := votedFor, VoteExpireAt := expire, Committer := committer
                Accepted := { Offset := 0, Words := acc, aligned := by decide }
                Committed := NewTailBitmap 0 }
    Logs := logs
    LogOffset := 0 }

/-- The cluster at the end of the run: replica 1 leads as 3#1 and holds three
records; replica 2 accepted the third record only, replica 3 the second only. -/
def clusterX : Cluster :=
  { now := 0
    replicas :=
      [replicaX 1 ⟨3, 1⟩ leaderLease ⟨0, 0⟩ [] [recordX0, recordX1, recordX2],
       replicaX 2 ⟨3, 1⟩ leaderLease ⟨3, 1⟩ [6] [Record.zero, Record.zero, recordX2],
       replicaX 3 ⟨3, 1⟩ leaderLease ⟨3, 1⟩ [2] [Record.zero, recordX1]] }

/-! ## Sequences of operations on one replica -/

/-- A call of one of the four state-changing operations of a replica, with its
request (and clock reading for hdlLogForward). -/
inductive Op where
  | vote (req : VoteReq)
  | logForward (now : Int) (req : LogForwardReq)
  | replicate (req : ReplicateReq)
  | addLog (cmd : Option Cmd)

/-- The state an operation leaves, or the panic that ends the process. -/
def applyOp (tr : TRaft) : Op → Except Fatal TRaft
  | .vote req => (Vote tr req).map Prod.fst
  | .logForward now req => (hdlLogForward tr now req).map Prod.fst
  | .replicate req => (Replicate tr req).map Prod.fst
  | .addLog cmd => (AddLog tr cmd).map Prod.fst

/-- The state after a sequence of operations, handled one at a time. -/
def runOps : TRaft → List Op → Except Fatal TRaft
  | tr, [] => .ok tr
  | tr, op :: ops =>
    match applyOp tr op with
    | .error e => .error e
    | .ok tr1 => runOps tr1 ops

/-- Invariant 3 of the spec: every accepted seq inside the `Logs` window has a
non-empty record with that `Seq` at `Logs[i - LogOffset]`. -/
def AcceptedHaveRecords (tr : TRaft) : Prop :=
  ∀ i : Int, tr.LogOffset ≤ i → i < tr.LogOffset + (tr.Logs.length : Int) →
    tr.Status.Accepted.Get i ≠ 0 →
    ∃ x, tr.Logs[(i - tr.LogOffset).toNat]? = some x ∧ x.Empty = false ∧ x.Seq = i

/-- No record of `logs` meets a conflicting slot when the records are stored one
after the other on top of `st`. -/
def NoConflict (off : Int) (st : List Record × TailBitmap) (logs : List Record) : Prop :=
  ¬ ∃ pre r post st1, logs = pre ++ r :: post ∧ forwardAll off st pre = .ok st1 ∧
      Conflict st1.1 off r

/-- Replica 2 of the run to `clusterX` before the leader's record reaches it: it
has voted for 3#1, its lease runs, its log is empty. -/
def followerX : TRaft := replicaX 2 ⟨3, 1⟩ leaderLease ⟨0, 0⟩ [] []

/-- The request by which the leader 3#1 forwards its third record alone. -/
def reqX : LogForwardReq := { Committer := ⟨3, 1⟩, Logs := [recordX2] }

/-! ## Cluster configuration -/

/-- Modelled from the spec: a member `{ Id, Addr, Position }`. -/
structure ReplicaInfo where
  Id : Int
  Addr : String
  Position : Int
  deriving DecidableEq

/-- Modelled from the spec: the fixed set of members.  `Members` is a map from
member id to member in Go; here it is the list of its values. -/
structure ClusterConfig where
  Members : List ReplicaInfo
  deriving DecidableEq

/-- The map lookup `config.Members[id]`, nil when the id is no member. -/
def ClusterConfig.member (config : ClusterConfig) (id : Int) : Option ReplicaInfo :=
  config.Members.find? (fun m => decide (m.Id = id))

/-- The Go expression `1 << uint(position)` on a `uint64`: a shift count of 64
or more, which a negative position becomes under `uint`, gives 0. -/
def positionBit (position : Int) : Nat :=
  if 0 ≤ position ∧ position < 64 then 2 ^ position.toNat else 0

/-- Number of set bits of a `uint64`. -/
def popcount (mask : Nat) : Nat :=
  (List.range 64).countP (fun j => mask.testBit j)

/-- Modelled from the spec: `IsQuorum(mask) := popcount(mask) > N/2`. -/
def ClusterConfig.IsQuorum (config : ClusterConfig) (mask : Nat) : Bool :=
  decide (popcount mask > config.Members.length / 2)

/-- The error values `ErrStaleLog`, `ErrStaleTerm`, `ErrTimeout` (server.go 20-24)
and `ErrLeaderLost`; an error wrapped by `errors.Wrapf` is its cause. -/
inductive Err where
  | ErrStaleLog
  | ErrStaleTerm
  | ErrTimeout
  | ErrLeaderLost
  deriving DecidableEq, Repr

/-! ## VoteOnce and VoteLoop -/

/-- A reply as the collecting loop of `VoteOnce` receives it (`voteRes`). -/
structure voteRes where
  frm : ReplicaInfo
  reply : VoteReply
  deriving DecidableEq

/-- The variables of the collecting loop of `VoteOnce`. -/
structure VoteOnceVars where
  received : Nat
  higherTerm : Int
  logErr : Option Err
  deriving DecidableEq

/-- The collecting loop of `VoteOnce` (server.go 365-411) and the code after it.
The first argument is `waitingFor`; the list holds the replies in the order the
channel delivers them, and when it runs out while the loop still waits, the
timer fires. -/
def voteOnceLoop (candidate : LeaderId) (logStatus : LogStatus) (config : ClusterConfig) :
    Nat → VoteOnceVars → List voteRes → Bool × Option Err × Int
  | 0, vars, _ =>
    match vars.logErr with
    | some e => (false, some e, vars.higherTerm)
    | none => (false, some Err.ErrStaleTerm, vars.higherTerm)
  | _ + 1, vars, [] => (false, some Err.ErrTimeout, vars.higherTerm)
  | w + 1, vars, res :: rest =>
    if res.reply.VotedFor = candidate then
      if config.IsQuorum (vars.received ||| positionBit res.frm.Position) then (true, none, -1)
      else
        voteOnceLoop candidate logStatus config w
          { vars with received := vars.received ||| positionBit res.frm.Position } rest
    else
      voteOnceLoop candidate logStatus config w
        { vars with
          higherTerm :=
            if res.reply.VotedFor.Term > candidate.Term then
              max vars.higherTerm res.reply.VotedFor.Term
            else vars.higherTerm
          logErr :=
            if CmpLogStatus res.reply.logStat logStatus > 0 then some Err.ErrStaleLog
            else vars.logErr } rest

/-- The function `VoteOnce` (server.go 311-411) on the run in which the other
members' replies arrive as `replies`.  A candidate that is no member makes
`config.Members[id]` nil, whose dereference panics. -/
def VoteOnce (candidate : LeaderId) (logStatus : LogStatus) (config : ClusterConfig)
    (replies : List voteRes) : Except Fatal (Bool × Option Err × Int) :=
  match config.member candidate.Id with
  | none => .error Fatal.nilPointer
  | some me =>
    .ok (voteOnceLoop candidate logStatus config (config.Members.length - 1)
          { received := positionBit me.Position, higherTerm := -1, logErr := none } replies)

/-- Modelled from the spec: the action `logStat` reads `Committer` and `Accepted`
of the replica itself. -/
def ExportLogStatus (st : ReplicaStatus) : LogStatus := ⟨st.Committer, st.Accepted⟩

/-- Modelled from the spec: the action `leaderStat` reads `VotedFor` and
`VoteExpireAt` of the replica itself. -/
def ExportLeaderStatus (st : ReplicaStatus) : LeaderStatus := ⟨st.VotedFor, st.VoteExpireAt⟩

/-- One pass of the body of `VoteLoop` with the lease expired (server.go
261-303): `leadst` is the loop's copy of the leader status, `replies` what
`VoteOnce` receives, `now` the reading of `uSecond()` after the vote.  It gives
the replica state and the loop's `leadst` for the next pass. -/
def voteLoopElect (tr : TRaft) (leadst : LeaderStatus) (config : ClusterConfig)
    (replies : List voteRes) (now : Int) : Except Fatal (TRaft × LeaderStatus) :=
  match VoteOnce leadst.VotedFor (ExportLogStatus tr.Status) config replies with
  | .error e => .error e
  | .ok (voted, err, higher) =>
    if voted then
      .ok (updateLeaderStat tr { leadst with VoteExpireAt := now + leaderLease },
           { leadst with VoteExpireAt := now + leaderLease })
    else
      match err with
      | some Err.ErrStaleTerm =>
        .ok (tr, { leadst with VotedFor := { leadst.VotedFor with Term := higher + 1 } })
      | _ => .ok (tr, leadst)

/-! ## LogForward, leader side -/

/-- What a follower's goroutine sends to the collecting loop of `forwardLog`:
the member and its reply, or no reply when the RPC failed (`err != nil`). -/
structure forwardRes where
  frm : ReplicaInfo
  reply : Option LogForwardReply
  deriving DecidableEq

/-- What `forwardLog` did: the `err` of every `logForwardRst` the callback was
invoked with, in order, and every commit `(committer, lsns)` submitted through
the `func` action. -/
structure ForwardRun where
  callbacks : List (Option Err)
  commits : List (LeaderId × Int × Int)
  deriving DecidableEq

/-- The collecting loop of `forwardLog` (logforward.go 56-96).  The first
argument is `waiting`, the second `received`; when the list of results runs out
while the loop still waits, the deadline passes.  `commitOk` tells whether the
`func` action running `leaderUpdateCommitted` reports no error. -/
def forwardLoop (config : ClusterConfig) (committer : LeaderId) (lsns : Int × Int)
    (commitOk : Bool) : Nat → Nat → List forwardRes → ForwardRun
  | 0, _, _ => { callbacks := [], commits := [] }
  | _ + 1, _, [] => { callbacks := [some Err.ErrTimeout], commits := [] }
  | w + 1, received, res :: rest =>
    match res.reply with
    | none => forwardLoop config committer lsns commitOk w received rest
    | some reply =>
      if reply.OK then
        if config.IsQuorum (received ||| positionBit res.frm.Position) then
          { callbacks := [if commitOk then none else some Err.ErrLeaderLost]
            commits := [(committer, lsns)] }
        else
          forwardLoop config committer lsns commitOk w
            (received ||| positionBit res.frm.Position) rest
      else forwardLoop config committer lsns commitOk w received rest

/-- The method `forwardLog` (logforward.go 18-97) of the replica `id`, on the run
in which the followers' results arrive as `results`. -/
def forwardLog (id : Int) (committer : LeaderId) (config : ClusterConfig) (logs : List Record)
    (commitOk : Bool) (results : List forwardRes) : Except Fatal ForwardRun :=
  match logs.head?, logs.getLast? with
  | some first, some last =>
    match config.member id with
    | none => .error Fatal.nilPointer
    | some me =>
      .ok (forwardLoop config committer (first.Seq, last.Seq + 1) commitOk
            (config.Members.length - 1) (positionBit me.Position) results)
  | _, _ => .error Fatal.indexOutOfRange

/-! ## Quorums in the words of the spec -/

/-- The positions in the list number more than half of the members. -/
def MoreThanHalf (config : ClusterConfig) (positions : List Int) : Prop :=
  2 * positions.toFinset.card > config.Members.length

instance (config : ClusterConfig) (positions : List Int) :
    Decidable (MoreThanHalf config positions) := by
  unfold MoreThanHalf; infer_instance

/-- The positions of the members whose reply grants the vote to `candidate`. -/
def grantPositions (candidate : LeaderId) (replies : List voteRes) : List Int :=
  (replies.filter (fun res => decide (res.reply.VotedFor = candidate))).map
    (fun res => res.frm.Position)

/-- A result that acknowledges: a reply, without RPC error, with `OK=true`. -/
def forwardRes.acks (res : forwardRes) : Bool :=
  match res.reply with
  | some reply => reply.OK
  | none => false

/-- The positions of the followers that answered `OK=true`. -/
def ackPositions (results : List forwardRes) : List Int :=
  (results.filter forwardRes.acks).map (fun res => res.frm.Position)

/-- A cluster of three members 1, 2, 3 at the positions 0, 1, 2. -/
def config3 : ClusterConfig :=
  { Members := [⟨1, "a1", 0⟩, ⟨2, "a2", 1⟩, ⟨3, "a3", 2⟩] }

/-- The mask has exactly the bits of the positions in the list. -/
def MaskOf (mask : Nat) (positions : List Int) : Prop :=
  ∀ j : Nat, mask.testBit j = true ↔ (j : Int) ∈ positions

/-- Every member sits at a bit position of the `uint64` quorum mask. -/
def ClusterConfig.PositionsFit (config : ClusterConfig) : Prop :=
  ∀ m ∈ config.Members, 0 ≤ m.Position ∧ m.Position < 64

instance (config : ClusterConfig) : Decidable config.PositionsFit := by
  unfold ClusterConfig.PositionsFit; infer_instance

/-- The `VotedFor.Term` of the non-granting replies whose term exceeds the
candidate's. -/
def higherTerms (candidate : LeaderId) (replies : List voteRes) : List Int :=
  (replies.filter (fun res =>
      decide (res.reply.VotedFor ≠ candidate ∧ res.reply.VotedFor.Term > candidate.Term))).map
    (fun res => res.reply.VotedFor.Term)

/-- Some non-granting reply carries a log status strictly greater than the
candidate's. -/
def SomeStaleLog (candidate : LeaderId) (logStatus : LogStatus) (replies : List voteRes) : Prop :=
  ∃ res ∈ replies, res.reply.VotedFor ≠ candidate ∧ LogStatus.lt logStatus res.reply.logStat

/-- Some reply of the run completes a quorum of grants: it grants, and the
positions of the granting members of the run up to it, with the candidate's own
position, number more than half of the members. -/
def GrantQuorumAt (candidate : LeaderId) (config : ClusterConfig) (me : ReplicaInfo)
    (replies : List voteRes) : Prop :=
  ∃ pre res post, replies = pre ++ res :: post ∧ res.reply.VotedFor = candidate ∧
    MoreThanHalf config (me.Position :: grantPositions candidate (pre ++ [res]))

/-- The value `higherTerm` has after the loop went through the replies. -/
def higherTermFold (candidate : LeaderId) : Int → List voteRes → Int
  | h, [] => h
  | h, res :: rest =>
    higherTermFold candidate
      (if res.reply.VotedFor ≠ candidate ∧ res.reply.VotedFor.Term > candidate.Term then
        max h res.reply.VotedFor.Term else h) rest

/-- The reply of a fresh voter `id` to the candidate `cand` of replica 1, whose
log is empty: what `Vote` returns on `freshReplica id`. -/
def freshReply (id : Int) (cand : LeaderId) : VoteReply :=
  match Vote (freshReplica id) { Candidate := cand, Committer := ⟨0, 0⟩,
                                 Accepted := NewTailBitmap 0 } with
  | .ok (_, repl) => repl
  | .error _ => { VotedFor := ⟨0, id⟩, Committer := ⟨0, 0⟩, Accepted := NewTailBitmap 0, Logs := [] }

/-- The run of `TestTRaft_VoteOnce`: the replies of the fresh voters 2 and 3 to
the candidate `cand` of replica 1. -/
def freshReplies (cand : LeaderId) : List voteRes :=
  [⟨⟨2, "a2", 1⟩, freshReply 2 cand⟩, ⟨⟨3, "a3", 2⟩, freshReply 3 cand⟩]

/-- Some result of the run completes a quorum of acknowledgements: it answers
`OK=true`, and the positions of the followers that answered `OK=true` up to it,
with the leader's own position, number more than half of the members. -/
def AckQuorumAt (config : ClusterConfig) (me : ReplicaInfo) (results : List forwardRes) : Prop :=
  ∃ pre res post, results = pre ++ res :: post ∧ res.acks = true ∧
    MoreThanHalf config (me.Position :: ackPositions (pre ++ [res]))

/-- The candidate of the election below: replica 2 with candidate id 2#2,
committer 1#1 and the log 5, as the request `reqA` describes it. -/
def candidateA : TRaft :=
  { Id := 2
    Status := { VotedFor := ⟨2, 2⟩, VoteExpireAt := 0, Committer := ⟨1, 1⟩
                Accepted := NewTailBitmapSet 0 [5], Committed := NewTailBitmap 0 }
    Logs := [pseudoRecord ⟨1, 1⟩ 5]
    LogOffset := 5 }

/-- The reply of the voter `voterA` to the request `reqA`: the vote is granted
and the record at seq 6 is shipped. -/
def replyA : VoteReply :=
  { VotedFor := ⟨2, 2⟩, Committer := ⟨0, 1⟩, Accepted := NewTailBitmapSet 0 [5, 6]
    Logs := [pseudoRecord ⟨1, 1⟩ 6] }

/-- The reply OK=true of a follower that accepted `reqD`. -/
def ackD : LogForwardReply :=
  { OK := true, VotedFor := ⟨1, 1⟩, Accepted := some (NewTailBitmap 0)
    Committed := some (NewTailBitmap 0) }

/-! ## States for the claims on hdlLogForward -/

/-- A request of the leader 1#1 that carries the hole `&Record{}` of the slot 0
before the record `recordD` of seq 0. -/
def reqZ : LogForwardReq := { Committer := ⟨1, 1⟩, Logs := [Record.zero, recordD] }

/-- The follower `followerD` after it has accepted `recordD` from 1#1. -/
def followerD1 : TRaft :=
  { followerD with
    Logs := [recordD]
    Status := { followerD.Status with Committer := ⟨1, 1⟩ } }

/-- A follower of 3#1 that holds the record of seq 2 and has it in Accepted and
Committed; seq 1, which the record overrides, is not in Accepted. -/
def followerG : TRaft :=
  { Id := 2
    Status := { VotedFor := ⟨3, 1⟩, VoteExpireAt := leaderLease, Committer := ⟨3, 1⟩
                Accepted := { Offset := 0, Words := [4], aligned := by decide }
                Committed := { Offset := 0, Words := [4], aligned := by decide } }
    Logs := [Record.zero, Record.zero, recordX2]
    LogOffset := 0 }

/-- The follower `followerG` after it has handled `reqX`: seq 1 is accepted. -/
def followerG1 : TRaft :=
  { followerG with
    Status := { followerG.Status with
                Accepted := { Offset := 0, Words := [6], aligned := by decide } } }

/-- The follower `followerD1` with an empty slot appended to its Logs. -/
def followerH : TRaft := { followerD1 with Logs := [recordD, Record.zero] }

/-- The record `set y=1` at seq 1 written by 1#1. -/
def recordK : Record :=
  { Author := some ⟨1, 1⟩, Seq := 1, Cmd := some ⟨"set", "y", 1⟩
    Overrides := NewTailBitmap 0, Depends := NewTailBitmap 0 }

/-- A follower that has voted for 3#1 and holds two records of the committer
1#1: seq 0, committed, and seq 1, accepted only. -/
def followerK : TRaft :=
  { Id := 2
    Status := { VotedFor := ⟨3, 1⟩, VoteExpireAt := leaderLease, Committer := ⟨1, 1⟩
                Accepted := { Offset := 0, Words := [3], aligned := by decide }
                Committed := { Offset := 0, Words := [1], aligned := by decide } }
    Logs := [recordD, recordK]
    LogOffset := 0 }

/-- The follower `followerK` after it has accepted `reqX` of the newer committer
3#1: the record of seq 1 is gone, the record of seq 2 is stored. -/
def followerK1 : TRaft :=
  { followerK with
    Logs := [recordD, Record.zero, recordX2]
    Status := { followerK.Status with
                Committer := ⟨3, 1⟩
                Accepted := { Offset := 0, Words := [7], aligned := by decide } } }

/-- The reply of `followerK` to `reqX`. -/
def replyK : LogForwardReply :=
  { OK := true, VotedFor := ⟨3, 1⟩
    Accepted := some { Offset := 0, Words := [7], aligned := by decide }
    Committed := some { Offset := 0, Words := [1], aligned := by decide } }

/-! ## States for the claims on re-voting, the lease and the shipping index -/

/-- The voter `voterA` after it has granted `reqA`: it has voted for 2#2. -/
def voterA1 : TRaft :=
  { voterA with Status := { voterA.Status with VotedFor := ⟨2, 2⟩ } }

/-- A voter whose log was compacted up to seq 5: it has accepted the seqs 0 to 6
and holds the records 5 and 6, `LogOffset` is 5. -/
def voterF : TRaft :=
  { voterA with Status := { voterA.Status with Accepted := NewTailBitmap 7 } }

/-! ## Leaders for the claims on AddLog -/

/-- A leader 1#1 whose log starts at seq 5 and holds the records 5 and 6, as
`initTraft` builds them. -/
def leaderL : TRaft :=
  { Id := 1
    Status := { VotedFor := ⟨1, 1⟩, VoteExpireAt := 2000000, Committer := ⟨1, 1⟩
                Accepted := NewTailBitmapSet 0 [5, 6], Committed := NewTailBitmap 0 }
    Logs := [pseudoRecord ⟨1, 1⟩ 5, pseudoRecord ⟨1, 1⟩ 6]
    LogOffset := 5 }

/-- A leader 1#1 whose log starts at the largest `int64`, 2^63 - 1, and holds the
record of that seq. -/
def leaderMax : TRaft :=
  { Id := 1
    Status := { VotedFor := ⟨1, 1⟩, VoteExpireAt := 2000000, Committer := ⟨1, 1⟩
                Accepted := NewTailBitmap 0, Committed := NewTailBitmap 0 }
    Logs := [pseudoRecord ⟨1, 1⟩ 9223372036854775807]
    LogOffset := 9223372036854775807 }

/-! ## Bitmaps that absorb a union -/

/-- The words `xs` hold every bit of the words `ys` and are not shorter. -/
def CoversWords (xs ys : List Nat) : Prop :=
  ys.length ≤ xs.length ∧ ∀ j, xs.getD j 0 ||| ys.getD j 0 = xs.getD j 0

/-- The union with `b` leaves the bitmap `a` as it is, words included: `b` does
not start above `a`, and the words of `a` hold the words of `b` from the offset
of `a` on. -/
def TailBitmap.Absorbs (a b : TailBitmap) : Prop :=
  b.Offset ≤ a.Offset ∧ CoversWords a.Words (b.Words.drop ((a.Offset - b.Offset) / 64).toNat)

/-! ## The slot a record is written to, in the words of the spec -/

/-- The record the slot of seq `seq` holds once the records `pre` have been
stored one after the other: the last record of `pre` with that Seq, or `cur`,
the record the slot held before, when `pre` has none. -/
def heldWhen (cur : Record) (seq : Int) : List Record → Record
  | [] => cur
  | p :: rest => heldWhen (if p.Seq = seq then p else cur) seq rest

/-- At the moment the record `r` is processed, after the records `pre`, its slot
holds a non-empty record that is not `Equal` to `r`; `logs` are the Logs the
loop started from and an absent slot counts as empty. -/
def ConflictAt (logs : List Record) (off : Int) (pre : List Record) (r : Record) : Prop :=
  (heldWhen (logs.getD (r.Seq - off).toNat Record.zero) r.Seq pre).Empty = false ∧
  (heldWhen (logs.getD (r.Seq - off).toNat Record.zero) r.Seq pre).Equal r = false

/-- The request by which the leader 1#1 forwards the record `recordK` of seq 1. -/
def reqK : LogForwardReq := { Committer := ⟨1, 1⟩, Logs := [recordK] }

/-- The follower `followerD1` after it has accepted `reqK`. -/
def followerD2 : TRaft := { followerD1 with Logs := [recordD, recordK] }

/-! ## Further follower states -/

/-- Replica 3 of the run to `clusterX` after it has accepted the record of seq 1:
it holds that record and has seq 1 in Accepted, under the committer 3#1. -/
def followerY : TRaft :=
  replicaX 3 ⟨3, 1⟩ leaderLease ⟨3, 1⟩ [2] [Record.zero, recordX1]

/-- The follower `followerX` after it has accepted `reqX`. -/
def followerX1 : TRaft :=
  replicaX 2 ⟨3, 1⟩ leaderLease ⟨3, 1⟩ [6] [Record.zero, Record.zero, recordX2]

/-- The reply of `followerX` to `reqX`. -/
def replyX : LogForwardReply :=
  { OK := true, VotedFor := ⟨3, 1⟩
    Accepted := some { Offset := 0, Words := [6], aligned := by decide }
    Committed := some (NewTailBitmap 0) }

/-! ## Lemmas on the orders -/

theorem cmpI64_neg_iff (a b : Int) : cmpI64 a b < 0 ↔ a < b := by
  unfold cmpI64; split_ifs <;> omega

theorem cmpI64_zero_iff (a b : Int) : cmpI64 a b = 0 ↔ a = b := by
  unfold cmpI64
  split_ifs with h1 h2 <;> constructor <;> intro h <;> first | contradiction | omega

theorem cmpI64_pos_iff (a b : Int) : cmpI64 a b > 0 ↔ b < a := by
  unfold cmpI64; split_ifs <;> omega

theorem LeaderId.Cmp_neg_iff (a b : LeaderId) : a.Cmp b < 0 ↔ a.lt b := by
  unfold LeaderId.Cmp LeaderId.lt
  split_ifs with h
  · rw [cmpI64_neg_iff]
    rw [Ne, cmpI64_zero_iff] at h
    constructor
    · intro h1; exact Or.inl h1
    · rintro (h1 | ⟨h1, _⟩)
      · exact h1
      · exact absurd h1 h
  · rw [cmpI64_neg_iff]
    rw [Ne, not_not, cmpI64_zero_iff] at h
    constructor
    · intro h1; exact Or.inr ⟨h, h1⟩
    · rintro (h1 | ⟨_, h1⟩)
      · omega
      · exact h1

theorem LeaderId.Cmp_zero_iff (a b : LeaderId) : a.Cmp b = 0 ↔ a = b := by
  unfold LeaderId.Cmp
  cases a with
  | mk ta ia =>
  cases b with
  | mk bt bi =>
  simp only [LeaderId.mk.injEq]
  split_ifs with h
  · rw [Ne, cmpI64_zero_iff] at h
    rw [cmpI64_zero_iff]
    constructor
    · intro h1; exact absurd h1 h
    · rintro ⟨h1, _⟩; exact h1
  · rw [Ne, not_not, cmpI64_zero_iff] at h
    rw [cmpI64_zero_iff]
    constructor
    · intro h1; exact ⟨h, h1⟩
    · rintro ⟨_, h1⟩; exact h1

theorem LeaderId.Cmp_pos_iff (a b : LeaderId) : a.Cmp b > 0 ↔ b.lt a := by
  unfold LeaderId.Cmp LeaderId.lt
  split_ifs with h
  · rw [cmpI64_pos_iff]
    rw [Ne, cmpI64_zero_iff] at h
    constructor
    · intro h1; exact Or.inl h1
    · rintro (h1 | ⟨h1, _⟩)
      · exact h1
      · exact absurd h1.symm h
  · rw [cmpI64_pos_iff]
    rw [Ne, not_not, cmpI64_zero_iff] at h
    constructor
    · intro h1; exact Or.inr ⟨h.symm, h1⟩
    · rintro (h1 | ⟨_, h1⟩)
      · omega
      · exact h1

theorem LeaderId.le_iff_not_lt (a b : LeaderId) : a.le b ↔ ¬ b.lt a := by
  unfold LeaderId.le LeaderId.lt
  constructor
  · rintro (h | ⟨h1, h2⟩) <;> omega
  · intro h
    by_cases h1 : a.Term < b.Term
    · exact Or.inl h1
    · right
      constructor <;> by_contra hc <;> apply h <;> omega

theorem LeaderId.le_iff_lt_or_eq (a b : LeaderId) : a.le b ↔ a.lt b ∨ a = b := by
  cases a with
  | mk ta ia =>
  cases b with
  | mk bt bi =>
  unfold LeaderId.le LeaderId.lt
  simp only [LeaderId.mk.injEq]
  constructor
  · rintro (h | ⟨h1, h2⟩)
    · exact Or.inl (Or.inl h)
    · rcases lt_or_eq_of_le h2 with h3 | h3
      · exact Or.inl (Or.inr ⟨h1, h3⟩)
      · exact Or.inr ⟨h1, h3⟩
  · rintro ((h | ⟨h1, h2⟩) | ⟨h1, h2⟩)
    · exact Or.inl h
    · exact Or.inr ⟨h1, le_of_lt h2⟩
    · exact Or.inr ⟨h1, le_of_eq h2⟩

theorem LeaderId.le_refl (a : LeaderId) : a.le a := Or.inr ⟨rfl, le_rfl⟩

theorem LeaderId.le_trans {a b c : LeaderId} (h1 : a.le b) (h2 : b.le c) : a.le c := by
  unfold LeaderId.le at *
  rcases h1 with h1 | ⟨h1, h1b⟩ <;> rcases h2 with h2 | ⟨h2, h2b⟩
  · left; omega
  · left; omega
  · left; omega
  · right; constructor <;> omega

theorem CmpLogStatus_neg_iff (a b : LogStatus) : CmpLogStatus a b < 0 ↔ a.lt b := by
  unfold CmpLogStatus LogStatus.lt
  split_ifs with h
  · rw [LeaderId.Cmp_neg_iff]
    rw [Ne, LeaderId.Cmp_zero_iff] at h
    constructor
    · intro h1; exact Or.inl h1
    · rintro (h1 | ⟨h1, _⟩)
      · exact h1
      · exact absurd h1 h
  · rw [cmpI64_neg_iff]
    rw [Ne, not_not, LeaderId.Cmp_zero_iff] at h
    constructor
    · intro h1; exact Or.inr ⟨h, h1⟩
    · rintro (h1 | ⟨_, h1⟩)
      · rw [h] at h1
        unfold LeaderId.lt at h1
        omega
      · exact h1

theorem CmpLogStatus_pos_iff (a b : LogStatus) : CmpLogStatus a b > 0 ↔ b.lt a := by
  unfold CmpLogStatus LogStatus.lt
  split_ifs with h
  · rw [LeaderId.Cmp_pos_iff]
    rw [Ne, LeaderId.Cmp_zero_iff] at h
    constructor
    · intro h1; exact Or.inl h1
    · rintro (h1 | ⟨h1, _⟩)
      · exact h1
      · exact absurd h1.symm h
  · rw [cmpI64_pos_iff]
    rw [Ne, not_not, LeaderId.Cmp_zero_iff] at h
    constructor
    · intro h1; exact Or.inr ⟨h.symm, h1⟩
    · rintro (h1 | ⟨_, h1⟩)
      · rw [h] at h1
        unfold LeaderId.lt at h1
        omega
      · exact h1

/-! ## Vote -/

/-- Vote on a request that fails one of the two checks. -/
theorem Vote_of_not_granted (tr : TRaft) (req : VoteReq) (h : ¬ Granted tr req) :
    Vote tr req = .ok (tr, { VotedFor := tr.Status.VotedFor, Committer := tr.Status.Committer,
                             Accepted := tr.Status.Accepted, Logs := [] }) := by
  unfold Vote
  simp only [CmpLogStatus_neg_iff, LeaderId.Cmp_neg_iff]
  unfold Granted at h
  by_cases h1 : LogStatus.lt req.logStat tr.Status.logStat
  · simp [h1]
  · have h2 : LeaderId.lt req.Candidate tr.Status.VotedFor := by
      by_contra hc; exact h ⟨h1, hc⟩
    simp [h1, h2]

/-- Vote on a request that passes both checks runs the shipping loop. -/
theorem Vote_of_granted (tr : TRaft) (req : VoteReq) (h : Granted tr req) :
    Vote tr req =
      match shipLoop tr req (tr.Status.Accepted.Len - tr.Status.Accepted.Offset).toNat
          tr.Status.Accepted.Offset [] with
      | .error e => .error e
      | .ok logs =>
        .ok ({ tr with Status := { tr.Status with VotedFor := req.Candidate } },
             { VotedFor := req.Candidate, Committer := tr.Status.Committer,
               Accepted := tr.Status.Accepted, Logs := logs }) := by
  unfold Vote
  simp only [CmpLogStatus_neg_iff, LeaderId.Cmp_neg_iff]
  obtain ⟨h1, h2⟩ := h
  simp [h1, h2]

theorem loopSeqs_succ (tr : TRaft) (req : VoteReq) (n : Nat) (i : Int) :
    loopSeqs tr req (n + 1) i =
      (if tr.Status.Accepted.Get i ≠ 0 ∧ req.Accepted.Get i = 0 then [i] else [])
        ++ loopSeqs tr req n (i + 1) := by
  unfold loopSeqs
  rw [List.range_succ_eq_map, List.map_cons, List.map_map, List.filter_cons]
  have hf : ((fun k : Nat => i + (k : Int)) ∘ Nat.succ) = (fun k : Nat => i + 1 + (k : Int)) := by
    funext k; simp only [Function.comp, Nat.succ_eq_add_one, Nat.cast_add, Nat.cast_one]; ring
  rw [hf]
  simp only [Nat.cast_zero, add_zero]
  split_ifs with h1 h2 h3 <;> simp_all

theorem indexLogs_of_inWindow (tr : TRaft) (i : Int) (h : InWindow tr i) :
    indexLogs tr.Logs (i - tr.LogOffset) = some (recordAt tr i) := by
  unfold InWindow at h
  unfold indexLogs recordAt
  have h1 : ¬ (i - tr.LogOffset < 0) := by omega
  have h2 : (i - tr.LogOffset).toNat < tr.Logs.length := by omega
  simp only [h1, if_false]
  rw [List.getD_eq_getElem?_getD, List.get?_eq_getElem?, List.getElem?_eq_getElem h2]
  rfl

theorem indexLogs_eq_none_iff (tr : TRaft) (i : Int) :
    indexLogs tr.Logs (i - tr.LogOffset) = none ↔ ¬ InWindow tr i := by
  unfold InWindow indexLogs
  split_ifs with h1
  · constructor
    · intro _; omega
    · intro _; rfl
  · rw [List.get?_eq_getElem?, List.getElem?_eq_none_iff]
    constructor <;> intro h <;> omega

theorem shipLoop_ok (tr : TRaft) (req : VoteReq) :
    ∀ (n : Nat) (i : Int) (acc : List Record),
      (∀ j ∈ loopSeqs tr req n i, InWindow tr j) →
      shipLoop tr req n i acc = .ok (acc ++ (loopSeqs tr req n i).map (recordAt tr)) := by
  intro n
  induction n with
  | zero => intro i acc _; simp [shipLoop, loopSeqs]
  | succ n ih =>
    intro i acc hw
    rw [loopSeqs_succ] at hw ⊢
    unfold shipLoop
    by_cases hc : tr.Status.Accepted.Get i ≠ 0 ∧ req.Accepted.Get i = 0
    · rw [if_pos hc] at hw ⊢
      rw [if_pos hc]
      have hi : InWindow tr i := hw i (by simp)
      rw [indexLogs_of_inWindow tr i hi]
      simp only
      rw [ih (i + 1) _ (fun j hj => hw j (by simp [hj]))]
      simp
    · rw [if_neg hc] at hw ⊢
      rw [if_neg hc]
      rw [ih (i + 1) _ (fun j hj => hw j (by simpa using hj))]
      simp

theorem shipLoop_error (tr : TRaft) (req : VoteReq) :
    ∀ (n : Nat) (i : Int) (acc : List Record),
      (∃ j ∈ loopSeqs tr req n i, ¬ InWindow tr j) →
      shipLoop tr req n i acc = .error Fatal.indexOutOfRange := by
  intro n
  induction n with
  | zero => intro i acc h; simp [loopSeqs] at h
  | succ n ih =>
    intro i acc hw
    rw [loopSeqs_succ] at hw
    unfold shipLoop
    by_cases hc : tr.Status.Accepted.Get i ≠ 0 ∧ req.Accepted.Get i = 0
    · rw [if_pos hc] at hw
      rw [if_pos hc]
      by_cases hi : InWindow tr i
      · rw [indexLogs_of_inWindow tr i hi]
        simp only
        apply ih
        obtain ⟨j, hj, hnj⟩ := hw
        simp only [List.singleton_append, List.mem_cons] at hj
        rcases hj with rfl | hj
        · exact absurd hi hnj
        · exact ⟨j, hj, hnj⟩
      · rw [(indexLogs_eq_none_iff tr i).2 hi]
    · rw [if_neg hc] at hw
      rw [if_neg hc]
      apply ih
      simpa using hw

theorem shippedSeqs_eq (tr : TRaft) (req : VoteReq) :
    shippedSeqs tr req =
      loopSeqs tr req (tr.Status.Accepted.Len - tr.Status.Accepted.Offset).toNat
        tr.Status.Accepted.Offset := rfl

theorem mem_shippedSeqs (tr : TRaft) (req : VoteReq) (i : Int) :
    i ∈ shippedSeqs tr req ↔
      tr.Status.Accepted.Offset ≤ i ∧ i < tr.Status.Accepted.Len ∧
        tr.Status.Accepted.Get i ≠ 0 ∧ req.Accepted.Get i = 0 := by
  unfold shippedSeqs
  simp only [List.mem_filter, List.mem_map, List.mem_range, decide_eq_true_eq]
  constructor
  · rintro ⟨⟨k, hk, rfl⟩, h2⟩
    refine ⟨by omega, by omega, h2⟩
  · rintro ⟨h1, h2, h3⟩
    refine ⟨⟨(i - tr.Status.Accepted.Offset).toNat, by omega, by omega⟩, h3⟩

theorem shippedSeqs_sorted (tr : TRaft) (req : VoteReq) :
    (shippedSeqs tr req).Pairwise (fun a b => a < b) := by
  unfold shippedSeqs
  apply List.Pairwise.filter
  rw [List.pairwise_map]
  exact (List.pairwise_lt_range _).imp (fun h => by omega)

/-! ## TailBitmap as a set -/

theorem TailBitmap.mem_iff (tb : TailBitmap) (i : Int) :
    tb.Mem i ↔ i < tb.Offset ∨
      (tb.Words.getD ((i - tb.Offset) / 64).toNat 0).testBit ((i - tb.Offset) % 64).toNat = true := by
  unfold TailBitmap.Mem TailBitmap.Get
  by_cases h : i < tb.Offset
  · simp [h]
  · by_cases h2 : (tb.Words.getD ((i - tb.Offset) / 64).toNat 0).testBit
        ((i - tb.Offset) % 64).toNat = true
    · simp [h, h2]
    · simp [h, h2]

theorem TailBitmap.get_eq_zero_iff (tb : TailBitmap) (i : Int) : tb.Get i = 0 ↔ ¬ tb.Mem i := by
  unfold TailBitmap.Mem; simp

theorem orWords_getD (xs ys : List Nat) (k : Nat) :
    (orWords xs ys).getD k 0 = xs.getD k 0 ||| ys.getD k 0 := by
  induction xs generalizing ys k with
  | nil => simp [orWords]
  | cons x xs ih =>
    cases ys with
    | nil => simp [orWords]
    | cons y ys =>
      cases k with
      | zero => simp [orWords]
      | succ k => simpa [orWords] using ih ys k

theorem getD_drop (xs : List Nat) (d k : Nat) : (xs.drop d).getD k 0 = xs.getD (d + k) 0 := by
  simp [List.getD_eq_getElem?_getD, List.getElem?_drop]

/-- `Union` is the union of the two sets. -/
theorem TailBitmap.mem_Union (a b : TailBitmap) (i : Int) :
    (a.Union b).Mem i ↔ a.Mem i ∨ b.Mem i := by
  have ha := a.aligned
  have hb := b.aligned
  rw [TailBitmap.mem_iff, TailBitmap.mem_iff a, TailBitmap.mem_iff b]
  unfold TailBitmap.Union
  split_ifs with h
  · simp only
    by_cases hi : i < b.Offset
    · simp [hi]
    · have e1 : ((i - a.Offset) / 64).toNat
          = ((b.Offset - a.Offset) / 64).toNat + ((i - b.Offset) / 64).toNat := by omega
      have e2 : ((i - a.Offset) % 64) = ((i - b.Offset) % 64) := by omega
      have hia : ¬ i < a.Offset := by omega
      rw [orWords_getD, getD_drop, Nat.testBit_lor, ← e1, e2]
      simp [hi, hia]
  · simp only
    by_cases hi : i < a.Offset
    · simp [hi]
    · by_cases hib : i < b.Offset
      · omega
      · have e1 : ((i - b.Offset) / 64).toNat
            = ((a.Offset - b.Offset) / 64).toNat + ((i - a.Offset) / 64).toNat := by omega
        have e2 : ((i - b.Offset) % 64) = ((i - a.Offset) % 64) := by omega
        rw [orWords_getD, getD_drop, Nat.testBit_lor, ← e1, e2]
        simp [hi, hib]

/-! ## The "add new logs" loops only grow `Accepted` -/

theorem forwardOne_acc {off : Int} {st st1 : List Record × TailBitmap} {r : Record}
    (h : forwardOne off st r = .ok st1) : st1.2 = st.2.Union r.Overrides := by
  unfold forwardOne at h
  simp only at h
  split_ifs at h
  injection h with h
  rw [← h]

theorem forwardAll_mem {off : Int} :
    ∀ (logs : List Record) (st st1 : List Record × TailBitmap),
      forwardAll off st logs = .ok st1 →
      ∀ i, st1.2.Mem i ↔ st.2.Mem i ∨ ∃ r ∈ logs, r.Overrides.Mem i := by
  intro logs
  induction logs with
  | nil =>
    intro st st1 h i
    simp only [forwardAll] at h
    injection h with h
    simp [h]
  | cons r rs ih =>
    intro st st1 h i
    simp only [forwardAll] at h
    cases h1 : forwardOne off st r with
    | error e => rw [h1] at h; simp at h
    | ok st2 =>
      rw [h1] at h
      simp only at h
      rw [ih st2 st1 h i, forwardOne_acc h1, TailBitmap.mem_Union]
      simp only [List.mem_cons, exists_eq_or_imp]
      tauto

theorem replicateOne_acc {off : Int} {st st1 : List Record × TailBitmap} {r : Record}
    (h : replicateOne off st r = .ok st1) : st1.2 = st.2.Union r.Overrides := by
  unfold replicateOne at h
  simp only at h
  split_ifs at h
  injection h with h
  rw [← h]

theorem replicateAll_mem {off : Int} :
    ∀ (logs : List Record) (st st1 : List Record × TailBitmap),
      replicateAll off st logs = .ok st1 →
      ∀ i, st1.2.Mem i ↔ st.2.Mem i ∨ ∃ r ∈ logs, r.Overrides.Mem i := by
  intro logs
  induction logs with
  | nil =>
    intro st st1 h i
    simp only [replicateAll] at h
    injection h with h
    simp [h]
  | cons r rs ih =>
    intro st st1 h i
    simp only [replicateAll] at h
    cases h1 : replicateOne off st r with
    | error e => rw [h1] at h; simp at h
    | ok st2 =>
      rw [h1] at h
      simp only at h
      rw [ih st2 st1 h i, replicateOne_acc h1, TailBitmap.mem_Union]
      simp only [List.mem_cons, exists_eq_or_imp]
      tauto

/-! ## Claims on Vote -/

/-- C2: Vote rejection is atomic.  If the voter's log status (Committer, then
Accepted.Len()) is strictly greater than the request's, or the request's
Candidate is strictly less than the voter's VotedFor, Vote returns the voter's
VotedFor, Committer and Accepted from before the call with empty Logs, and the
replica state is unchanged. -/
theorem Vote_reject_atomic (tr : TRaft) (req : VoteReq)
    (h : LogStatus.lt req.logStat tr.Status.logStat ∨
         LeaderId.lt req.Candidate tr.Status.VotedFor) :
    Vote tr req = .ok (tr, { VotedFor := tr.Status.VotedFor, Committer := tr.Status.Committer,
                             Accepted := tr.Status.Accepted, Logs := [] }) := by
  apply Vote_of_not_granted
  unfold Granted
  tauto

theorem Vote_reject_atomic_witness :
    LogStatus.lt reqB.logStat voterB.Status.logStat ∧
    Vote voterB reqB = .ok (voterB, { VotedFor := ⟨0, 1⟩, Committer := ⟨1, 1⟩,
                                      Accepted := NewTailBitmapSet 0 [5, 6], Logs := [] }) :=
  ⟨by decide, Vote_reject_atomic voterB reqB (Or.inl (by decide))⟩

/-- Vote aborts exactly on a granted request with a seq to ship outside the
`Logs` window. -/
theorem Vote_returns_iff (tr : TRaft) (req : VoteReq) :
    (∃ out, Vote tr req = .ok out) ↔
      (Granted tr req → ∀ i ∈ shippedSeqs tr req, InWindow tr i) := by
  by_cases hg : Granted tr req
  · rw [Vote_of_granted tr req hg]
    by_cases hw : ∀ i ∈ shippedSeqs tr req, InWindow tr i
    · rw [shipLoop_ok tr req _ _ [] hw]
      simp only [exists_apply_eq_apply', true_iff]
      intro _; exact hw
    · have hw1 : ∃ j ∈ shippedSeqs tr req, ¬ InWindow tr j := by
        push_neg at hw; exact hw
      rw [shipLoop_error tr req _ _ [] hw1]
      simp only [exists_false, false_iff, reduceCtorEq]
      intro hc; exact hw (hc hg)
  · rw [Vote_of_not_granted tr req hg]
    simp only [exists_apply_eq_apply', true_iff]
    intro h; exact absurd h hg

/-- The result of Vote on a granted request, whenever it returns. -/
theorem Vote_granted_result (tr tr1 : TRaft) (req : VoteReq) (repl : VoteReply)
    (hg : Granted tr req) (h : Vote tr req = .ok (tr1, repl)) :
    tr1 = { tr with Status := { tr.Status with VotedFor := req.Candidate } } ∧
    repl = { VotedFor := req.Candidate, Committer := tr.Status.Committer,
             Accepted := tr.Status.Accepted, Logs := (shippedSeqs tr req).map (recordAt tr) } := by
  have hw : ∀ i ∈ shippedSeqs tr req, InWindow tr i :=
    (Vote_returns_iff tr req).1 ⟨_, h⟩ hg
  rw [Vote_of_granted tr req hg, shipLoop_ok tr req _ _ [] hw] at h
  simp only [List.nil_append, Except.ok.injEq, Prod.mk.injEq] at h
  exact ⟨h.1.symm, h.2.symm⟩

/-- The effect and the frame of Vote wherever it returns.  On a request that
passes both checks, with every seq to ship inside the Logs window, Vote returns,
sets the voter's VotedFor to Candidate and replies with VotedFor = Candidate and
the voter's own Committer and Accepted; and whenever Vote returns, granted or
not, it leaves VoteExpireAt, Committer, Accepted, Committed, Logs and LogOffset
unchanged. -/
theorem Vote_grant_effect_frame (tr : TRaft) (req : VoteReq) :
    (Granted tr req → (∀ i ∈ shippedSeqs tr req, InWindow tr i) →
      ∃ tr1 repl, Vote tr req = .ok (tr1, repl) ∧
        tr1.Status.VotedFor = req.Candidate ∧ repl.VotedFor = req.Candidate ∧
        repl.Committer = tr.Status.Committer ∧ repl.Accepted = tr.Status.Accepted) ∧
    (∀ tr1 repl, Vote tr req = .ok (tr1, repl) →
      (Granted tr req →
        tr1.Status.VotedFor = req.Candidate ∧ repl.VotedFor = req.Candidate ∧
        repl.Committer = tr.Status.Committer ∧ repl.Accepted = tr.Status.Accepted) ∧
      tr1.Status.VoteExpireAt = tr.Status.VoteExpireAt ∧
      tr1.Status.Committer = tr.Status.Committer ∧
      tr1.Status.Accepted = tr.Status.Accepted ∧
      tr1.Status.Committed = tr.Status.Committed ∧
      tr1.Logs = tr.Logs ∧ tr1.LogOffset = tr.LogOffset ∧ tr1.Id = tr.Id) := by
  constructor
  · intro hg hw
    obtain ⟨⟨tr1, repl⟩, h⟩ := (Vote_returns_iff tr req).2 (fun _ => hw)
    obtain ⟨h1, h2⟩ := Vote_granted_result tr tr1 req repl hg h
    refine ⟨tr1, repl, h, ?_⟩
    subst h1 h2
    exact ⟨rfl, rfl, rfl, rfl⟩
  · intro tr1 repl h
    by_cases hg : Granted tr req
    · obtain ⟨h1, h2⟩ := Vote_granted_result tr tr1 req repl hg h
      subst h1 h2
      exact ⟨fun _ => ⟨rfl, rfl, rfl, rfl⟩, rfl, rfl, rfl, rfl, rfl, rfl, rfl⟩
    · rw [Vote_of_not_granted tr req hg] at h
      simp only [Except.ok.injEq, Prod.mk.injEq] at h
      obtain ⟨h1, _⟩ := h
      subst h1
      exact ⟨fun hc => absurd hc hg, rfl, rfl, rfl, rfl, rfl, rfl, rfl⟩

theorem Vote_grant_effect_frame_witness :
    Granted voterA reqA ∧ (∀ i ∈ shippedSeqs voterA reqA, InWindow voterA i) ∧
    ∃ tr1 repl, Vote voterA reqA = .ok (tr1, repl) ∧
      tr1.Status.VotedFor = reqA.Candidate ∧ repl.VotedFor = reqA.Candidate ∧
      repl.Committer = voterA.Status.Committer ∧ repl.Accepted = voterA.Status.Accepted :=
  ⟨by decide, by decide,
    (Vote_grant_effect_frame voterA reqA).1 (by decide) (by decide)⟩

/-- The reply names the candidate exactly when the vote was granted or the voter
had already voted for that candidate. -/
theorem Vote_reply_votedFor_iff (tr tr1 : TRaft) (req : VoteReq) (repl : VoteReply)
    (h : Vote tr req = .ok (tr1, repl)) :
    repl.VotedFor = req.Candidate ↔ Granted tr req ∨ tr.Status.VotedFor = req.Candidate := by
  by_cases hg : Granted tr req
  · obtain ⟨_, h2⟩ := Vote_granted_result tr tr1 req repl hg h
    subst h2
    simp [hg]
  · rw [Vote_of_not_granted tr req hg] at h
    simp only [Except.ok.injEq, Prod.mk.injEq] at h
    obtain ⟨_, h2⟩ := h
    subst h2
    simp [hg]

/-- C4 (the code at the failing input): the voter `voterC` has voted for 2#2 and
its log status is strictly greater than that of the request `reqB` of candidate
2#2.  Vote rejects by the log-freshness check, leaves the state unchanged, and
the reply carries VotedFor = 2#2 = Candidate, which VoteOnce counts as a vote. -/
theorem Vote_rejection_not_visible :
    LogStatus.lt reqB.logStat voterC.Status.logStat ∧ ¬ Granted voterC reqB ∧
    Vote voterC reqB = .ok (voterC, { VotedFor := ⟨2, 2⟩, Committer := ⟨1, 1⟩,
                                      Accepted := NewTailBitmapSet 0 [5, 6], Logs := [] }) ∧
    (⟨2, 2⟩ : LeaderId) = reqB.Candidate := by
  decide

/-- C5: log shipping on grant.  When Vote grants and every seq to ship lies
inside the Logs window, reply.Logs is the list of Logs[i - LogOffset] over the
seqs i to ship; these are, in ascending order, exactly the i with
Accepted.Offset <= i < Accepted.Len() that the voter has accepted and the
request has not, so an empty record at such a position is shipped as it is and
no seq the candidate has accepted is shipped. -/
theorem Vote_ships_missing_logs (tr : TRaft) (req : VoteReq) (hg : Granted tr req)
    (hw : ∀ i ∈ shippedSeqs tr req, InWindow tr i) :
    (∃ tr1 repl, Vote tr req = .ok (tr1, repl) ∧
      repl.Logs = (shippedSeqs tr req).map (fun i => recordAt tr i)) ∧
    (∀ i ∈ shippedSeqs tr req,
      tr.Logs.get? (i - tr.LogOffset).toNat = some (recordAt tr i)) ∧
    (∀ i, i ∈ shippedSeqs tr req ↔
      tr.Status.Accepted.Offset ≤ i ∧ i < tr.Status.Accepted.Len ∧
        tr.Status.Accepted.Get i ≠ 0 ∧ req.Accepted.Get i = 0) ∧
    (shippedSeqs tr req).Pairwise (fun a b => a < b) := by
  refine ⟨?_, ?_, mem_shippedSeqs tr req, shippedSeqs_sorted tr req⟩
  · obtain ⟨⟨tr1, repl⟩, h⟩ := (Vote_returns_iff tr req).2 (fun _ => hw)
    obtain ⟨_, h2⟩ := Vote_granted_result tr tr1 req repl hg h
    exact ⟨tr1, repl, h, by rw [h2]⟩
  · intro i hi
    have h1 := indexLogs_of_inWindow tr i (hw i hi)
    unfold indexLogs at h1
    have h2 : ¬ (i - tr.LogOffset < 0) := by
      have := (hw i hi).1
      omega
    simpa [h2] using h1

theorem Vote_ships_missing_logs_witness :
    Granted voterA reqA ∧
    ∃ tr1 repl, Vote voterA reqA = .ok (tr1, repl) ∧
      repl.Logs = (shippedSeqs voterA reqA).map (fun i => recordAt voterA i) :=
  ⟨by decide, (Vote_ships_missing_logs voterA reqA (by decide) (by decide)).1⟩

/-! ## Claims on hdlLogForward -/

theorem hdlLogForward_of_rejected (tr : TRaft) (now : Int) (req : LogForwardReq)
    (h : req.Committer ≠ tr.Status.VotedFor ∨ now > tr.Status.VoteExpireAt) :
    hdlLogForward tr now req =
      .ok (tr, { OK := false, VotedFor := tr.Status.VotedFor,
                 Accepted := none, Committed := none }) := by
  unfold hdlLogForward
  simp only [ne_eq, LeaderId.Cmp_zero_iff]
  rw [if_pos h]

theorem hdlLogForward_of_accepted (tr : TRaft) (now : Int) (req : LogForwardReq)
    (h1 : req.Committer = tr.Status.VotedFor) (h2 : now ≤ tr.Status.VoteExpireAt) :
    hdlLogForward tr now req =
      match forwardAll tr.LogOffset (discardUncommitted tr req) req.Logs with
      | .error e => .error e
      | .ok st1 =>
        .ok ({ tr with
                Logs := trimTop st1.1
                Status := { tr.Status with Accepted := st1.2, Committer := req.Committer } },
             { OK := true, VotedFor := tr.Status.VotedFor
               Accepted := some st1.2, Committed := some tr.Status.Committed }) := by
  unfold hdlLogForward
  simp only [ne_eq, LeaderId.Cmp_zero_iff]
  have h : ¬ (req.Committer ≠ tr.Status.VotedFor ∨ now > tr.Status.VoteExpireAt) := by
    rintro (h | h)
    · exact h h1
    · omega
  rw [if_neg h]

/-- C6: hdlLogForward rejects if and only if req.Committer differs from the
follower's VotedFor or the clock reading now is greater than the follower's
VoteExpireAt; on rejection the reply is {OK=false, VotedFor = the follower's
VotedFor} and the whole replica state (Logs, LogOffset and every ReplicaStatus
field) is unchanged. -/
theorem hdlLogForward_reject_iff (tr : TRaft) (now : Int) (req : LogForwardReq) :
    ((req.Committer ≠ tr.Status.VotedFor ∨ now > tr.Status.VoteExpireAt) →
      hdlLogForward tr now req =
        .ok (tr, { OK := false, VotedFor := tr.Status.VotedFor,
                   Accepted := none, Committed := none })) ∧
    (∀ tr1 repl, hdlLogForward tr now req = .ok (tr1, repl) → repl.OK = false →
      (req.Committer ≠ tr.Status.VotedFor ∨ now > tr.Status.VoteExpireAt)) := by
  refine ⟨hdlLogForward_of_rejected tr now req, ?_⟩
  intro tr1 repl h hok
  by_contra hc
  have h1 : req.Committer = tr.Status.VotedFor := by
    by_contra h1; exact hc (Or.inl h1)
  have h2 : now ≤ tr.Status.VoteExpireAt := by
    by_contra h2; exact hc (Or.inr (by omega))
  rw [hdlLogForward_of_accepted tr now req h1 h2] at h
  cases hf : forwardAll tr.LogOffset (discardUncommitted tr req) req.Logs with
  | error e => rw [hf] at h; simp at h
  | ok st1 =>
    rw [hf] at h
    simp only [Except.ok.injEq, Prod.mk.injEq] at h
    obtain ⟨_, h4⟩ := h
    rw [← h4] at hok
    simp at hok

theorem hdlLogForward_reject_iff_witness :
    (2000001 : Int) > followerD.Status.VoteExpireAt ∧
    hdlLogForward followerD 2000001 reqD =
      .ok (followerD, { OK := false, VotedFor := ⟨1, 1⟩, Accepted := none, Committed := none }) ∧
    hdlLogForward followerD 1000000 reqD =
      .ok ({ followerD with
              Logs := [recordD]
              Status := { followerD.Status with Committer := ⟨1, 1⟩ } },
           { OK := true, VotedFor := ⟨1, 1⟩, Accepted := some (NewTailBitmap 0),
             Committed := some (NewTailBitmap 0) }) :=
  ⟨by decide, (hdlLogForward_reject_iff followerD 2000001 reqD).1 (Or.inr (by decide)),
    by decide⟩

/-- After an accepted request the follower's Accepted is, as a set, the Accepted
the loop started from together with the Overrides of the forwarded records. -/
theorem hdlLogForward_accepted_mem (tr tr1 : TRaft) (now : Int) (req : LogForwardReq)
    (repl : LogForwardReply) (h : hdlLogForward tr now req = .ok (tr1, repl))
    (hok : repl.OK = true) :
    repl.Accepted = some tr1.Status.Accepted ∧
    repl.Committed = some tr.Status.Committed ∧
    tr1.Status.Committed = tr.Status.Committed ∧
    tr1.Status.Committer = req.Committer ∧
    tr1.Status.VotedFor = tr.Status.VotedFor ∧
    req.Committer = tr.Status.VotedFor ∧
    ∀ i, tr1.Status.Accepted.Mem i ↔
      (discardUncommitted tr req).2.Mem i ∨ ∃ r ∈ req.Logs, r.Overrides.Mem i := by
  by_cases hc : req.Committer ≠ tr.Status.VotedFor ∨ now > tr.Status.VoteExpireAt
  · rw [hdlLogForward_of_rejected tr now req hc] at h
    simp only [Except.ok.injEq, Prod.mk.injEq] at h
    rw [← h.2] at hok
    simp at hok
  · have h1 : req.Committer = tr.Status.VotedFor := by
      by_contra h1; exact hc (Or.inl h1)
    have h2 : now ≤ tr.Status.VoteExpireAt := by
      by_contra h2; exact hc (Or.inr (by omega))
    rw [hdlLogForward_of_accepted tr now req h1 h2] at h
    cases hf : forwardAll tr.LogOffset (discardUncommitted tr req) req.Logs with
    | error e => rw [hf] at h; simp at h
    | ok st1 =>
      rw [hf] at h
      simp only [Except.ok.injEq, Prod.mk.injEq] at h
      obtain ⟨h3, h4⟩ := h
      subst h3 h4
      exact ⟨rfl, rfl, rfl, rfl, rfl, h1, forwardAll_mem req.Logs _ _ hf⟩

/-- C7 (counterexample): the leader 1#1 creates its first record
with AddLog; no earlier record interferes, so its Overrides is empty.  The
follower accepts the forwarded record with OK=true and stores it, and seq 0 is
in neither the follower's Accepted nor the Accepted of the reply. -/
theorem hdlLogForward_accepted_misses_seq :
    AddLog leaderD (some ⟨"set", "x", 1⟩) = .ok ({ leaderD with Logs := [recordD] }, recordD) ∧
    recordD.Empty = false ∧ recordD.Seq = 0 ∧
    hdlLogForward followerD 1000000 reqD =
      .ok ({ followerD with
              Logs := [recordD]
              Status := { followerD.Status with Committer := ⟨1, 1⟩ } },
           { OK := true, VotedFor := ⟨1, 1⟩, Accepted := some (NewTailBitmap 0),
             Committed := some (NewTailBitmap 0) }) ∧
    followerD.Status.Accepted = NewTailBitmap 0 ∧
    (NewTailBitmap 0).Get recordD.Seq = 0 := by
  decide

/-! ## hdlLogForward: the conflict check -/

theorem extendLogs_getD (logs : List Record) (idx : Nat) :
    (extendLogs logs idx).getD idx Record.zero = logs.getD idx Record.zero := by
  unfold extendLogs
  by_cases h : idx < logs.length
  · simp [List.getD_eq_getElem?_getD, List.getElem?_append_left h]
  · have h1 : logs.length ≤ idx := by omega
    rw [List.getD_eq_getElem?_getD, List.getD_eq_getElem?_getD,
      List.getElem?_append_right h1, List.getElem?_eq_none h1]
    have h2 : idx - logs.length < (List.replicate (idx + 1 - logs.length) Record.zero).length := by
      simp; omega
    rw [List.getElem?_eq_getElem h2]
    simp

theorem conflict_iff (logs : List Record) (off : Int) (r : Record) :
    Conflict logs off r ↔
      ((!(logs.getD (r.Seq - off).toNat Record.zero).Empty &&
        !(logs.getD (r.Seq - off).toNat Record.zero).Equal r) = true) := by
  unfold Conflict
  rw [List.getD_eq_getElem?_getD, List.get?_eq_getElem?]
  cases h : logs[(r.Seq - off).toNat]? with
  | none => simp [Record.zero, Record.Empty]
  | some cur => simp

/-- One iteration of the loop, for a record inside or above the window. -/
theorem forwardOne_eq (off : Int) (st : List Record × TailBitmap) (r : Record)
    (hseq : off ≤ r.Seq) :
    (Conflict st.1 off r → forwardOne off st r = .error Fatal.wtf) ∧
    (¬ Conflict st.1 off r → forwardOne off st r =
      .ok ((extendLogs st.1 (r.Seq - off).toNat).set (r.Seq - off).toNat r,
           st.2.Union r.Overrides)) := by
  have h0 : ¬ (r.Seq - off < 0) := by omega
  unfold forwardOne
  simp only [h0, if_false, extendLogs_getD]
  rw [conflict_iff]
  constructor
  · intro h; rw [if_pos h]
  · intro h; rw [if_neg h]

theorem forwardAll_error_iff (off : Int) :
    ∀ (logs : List Record) (st : List Record × TailBitmap),
      (∀ r ∈ logs, off ≤ r.Seq) →
      ((∃ e, forwardAll off st logs = .error e) ↔
        ∃ pre r post st1, logs = pre ++ r :: post ∧ forwardAll off st pre = .ok st1 ∧
          Conflict st1.1 off r) ∧
      (∀ e, forwardAll off st logs = .error e → e = Fatal.wtf) := by
  intro logs
  induction logs with
  | nil =>
    intro st _
    simp [forwardAll]
  | cons r rs ih =>
    intro st hseq
    have hr : off ≤ r.Seq := hseq r (by simp)
    have hrs : ∀ x ∈ rs, off ≤ x.Seq := fun x hx => hseq x (by simp [hx])
    by_cases hc : Conflict st.1 off r
    · have h1 := (forwardOne_eq off st r hr).1 hc
      simp only [forwardAll, h1]
      refine ⟨⟨fun _ => ⟨[], r, rs, st, rfl, rfl, hc⟩, fun _ => ⟨_, rfl⟩⟩, ?_⟩
      intro e he
      injection he with he
      exact he.symm
    · have h1 := (forwardOne_eq off st r hr).2 hc
      simp only [forwardAll, h1]
      obtain ⟨ih1, ih2⟩ := ih
        ((extendLogs st.1 (r.Seq - off).toNat).set (r.Seq - off).toNat r,
          st.2.Union r.Overrides) hrs
      refine ⟨?_, ih2⟩
      rw [ih1]
      constructor
      · rintro ⟨pre, x, post, st1, h2, h3, h4⟩
        refine ⟨r :: pre, x, post, st1, by rw [h2]; rfl, ?_, h4⟩
        simp only [forwardAll, h1]
        exact h3
      · rintro ⟨pre, x, post, st1, h2, h3, h4⟩
        cases pre with
        | nil =>
          simp only [List.nil_append, List.cons.injEq] at h2
          simp only [forwardAll, Except.ok.injEq] at h3
          rw [← h3, ← h2.1] at h4
          exact absurd h4 hc
        | cons p pre =>
          simp only [List.cons_append, List.cons.injEq] at h2
          obtain ⟨h2a, h2b⟩ := h2
          subst h2a
          simp only [forwardAll, h1] at h3
          exact ⟨pre, x, post, st1, h2b, h3, h4⟩

theorem forwardAll_ok_split (off : Int) :
    ∀ (pre : List Record) (r : Record) (post : List Record) (st st1 : List Record × TailBitmap),
      forwardAll off st (pre ++ r :: post) = .ok st1 →
      ∃ st2 st3, forwardAll off st pre = .ok st2 ∧ forwardOne off st2 r = .ok st3 ∧
        forwardAll off st3 post = .ok st1 := by
  intro pre
  induction pre with
  | nil =>
    intro r post st st1 h
    simp only [List.nil_append, forwardAll] at h
    cases h1 : forwardOne off st r with
    | error e => rw [h1] at h; simp at h
    | ok st3 =>
      rw [h1] at h
      exact ⟨st, st3, rfl, h1, h⟩
  | cons p pre ih =>
    intro r post st st1 h
    simp only [List.cons_append, forwardAll] at h
    cases h1 : forwardOne off st p with
    | error e => rw [h1] at h; simp at h
    | ok st3 =>
      rw [h1] at h
      obtain ⟨st2, st4, h2, h3, h4⟩ := ih r post st3 st1 h
      refine ⟨st2, st4, ?_, h3, h4⟩
      simp only [forwardAll, h1]
      exact h2

/-! ## Invariants of the replica status -/

theorem hdlLogForward_result (tr tr1 : TRaft) (now : Int) (req : LogForwardReq)
    (repl : LogForwardReply) (h : hdlLogForward tr now req = .ok (tr1, repl)) :
    (tr1 = tr ∧ repl.OK = false) ∨
    (req.Committer = tr.Status.VotedFor ∧ now ≤ tr.Status.VoteExpireAt ∧
      ∃ st1, forwardAll tr.LogOffset (discardUncommitted tr req) req.Logs = .ok st1 ∧
        tr1 = { tr with
                Logs := trimTop st1.1
                Status := { tr.Status with Accepted := st1.2, Committer := req.Committer } } ∧
        repl = { OK := true, VotedFor := tr.Status.VotedFor
                 Accepted := some st1.2, Committed := some tr.Status.Committed }) := by
  by_cases hc : req.Committer ≠ tr.Status.VotedFor ∨ now > tr.Status.VoteExpireAt
  · rw [hdlLogForward_of_rejected tr now req hc] at h
    simp only [Except.ok.injEq, Prod.mk.injEq] at h
    exact Or.inl ⟨h.1.symm, by rw [← h.2]⟩
  · have h1 : req.Committer = tr.Status.VotedFor := by
      by_contra h1; exact hc (Or.inl h1)
    have h2 : now ≤ tr.Status.VoteExpireAt := by
      by_contra h2; exact hc (Or.inr (by omega))
    rw [hdlLogForward_of_accepted tr now req h1 h2] at h
    cases hf : forwardAll tr.LogOffset (discardUncommitted tr req) req.Logs with
    | error e => rw [hf] at h; simp at h
    | ok st1 =>
      rw [hf] at h
      simp only [Except.ok.injEq, Prod.mk.injEq] at h
      exact Or.inr ⟨h1, h2, st1, rfl, h.1.symm, h.2.symm⟩

theorem Replicate_result (tr tr1 : TRaft) (req : ReplicateReq) (repl : ReplicateReply)
    (h : Replicate tr req = .ok (tr1, repl)) :
    tr1 = tr ∨
    (¬ LeaderId.lt req.Committer tr.Status.VotedFor ∧
      ∃ st1, replicateAll tr.LogOffset (tr.Logs, tr.Status.Accepted) req.Logs = .ok st1 ∧
        tr1 = { tr with
                Logs := st1.1
                Status := { tr.Status with
                  VotedFor := if req.Committer.Cmp tr.Status.VotedFor > 0 then req.Committer
                              else tr.Status.VotedFor
                  Committer := if req.Committer.Cmp tr.Status.Committer > 0 then req.Committer
                               else tr.Status.Committer
                  Accepted := st1.2 } }) := by
  unfold Replicate at h
  simp only at h
  by_cases h1 : tr.Status.VotedFor.Cmp tr.Status.Committer < 0
  · rw [if_pos h1] at h
    simp at h
  rw [if_neg h1] at h
  by_cases h2 : req.Committer.Cmp tr.Status.VotedFor < 0
  · rw [if_pos h2] at h
    simp only [Except.ok.injEq, Prod.mk.injEq] at h
    exact Or.inl h.1.symm
  · rw [if_neg h2] at h
    rw [LeaderId.Cmp_neg_iff] at h2
    cases hf : replicateAll tr.LogOffset (tr.Logs, tr.Status.Accepted) req.Logs with
    | error e => rw [hf] at h; simp at h
    | ok st1 =>
      rw [hf] at h
      simp only [Except.ok.injEq, Prod.mk.injEq] at h
      exact Or.inr ⟨h2, st1, rfl, h.1.symm⟩

theorem AddLog_result (tr tr1 : TRaft) (cmd : Option Cmd) (r : Record)
    (h : AddLog tr cmd = .ok (tr1, r)) :
    tr.Status.VotedFor.Id = tr.Id ∧ tr1 = { tr with Logs := tr.Logs ++ [r] } := by
  unfold AddLog at h
  simp only at h
  split_ifs at h with h1
  simp only [Except.ok.injEq, Prod.mk.injEq] at h
  obtain ⟨h2, h3⟩ := h
  rw [← h3]
  exact ⟨by simpa using h1, h2.symm⟩

theorem discardUncommitted_snd (tr : TRaft) (req : LogForwardReq) :
    (discardUncommitted tr req).2 = tr.Status.Committed ∨
    (discardUncommitted tr req).2 = tr.Status.Accepted := by
  unfold discardUncommitted
  split_ifs
  · exact Or.inl rfl
  · exact Or.inr rfl

/-- C9: Committed ⊆ Accepted is preserved.  If it holds for the replica's own
status before Vote, hdlLogForward, Replicate or AddLog, it holds in the state the
call leaves, for every request and clock value, also when hdlLogForward resets
Accepted to Committed on seeing a newer committer. -/
theorem Committed_sub_Accepted_preserved (tr : TRaft) (h : CommittedSubAccepted tr.Status) :
    (∀ req tr1 repl, Vote tr req = .ok (tr1, repl) → CommittedSubAccepted tr1.Status) ∧
    (∀ now req tr1 repl, hdlLogForward tr now req = .ok (tr1, repl) →
      CommittedSubAccepted tr1.Status) ∧
    (∀ req tr1 repl, Replicate tr req = .ok (tr1, repl) → CommittedSubAccepted tr1.Status) ∧
    (∀ cmd tr1 r, AddLog tr cmd = .ok (tr1, r) → CommittedSubAccepted tr1.Status) := by
  refine ⟨?_, ?_, ?_, ?_⟩
  · intro req tr1 repl hv
    by_cases hg : Granted tr req
    · obtain ⟨h1, _⟩ := Vote_granted_result tr tr1 req repl hg hv
      subst h1
      exact h
    · rw [Vote_of_not_granted tr req hg] at hv
      simp only [Except.ok.injEq, Prod.mk.injEq] at hv
      rw [← hv.1]; exact h
  · intro now req tr1 repl hv
    rcases hdlLogForward_result tr tr1 now req repl hv with ⟨h1, _⟩ | ⟨_, _, st1, hf, h1, _⟩
    · rw [h1]; exact h
    · subst h1
      intro i hi
      simp only at hi ⊢
      rw [forwardAll_mem req.Logs _ _ hf i]
      left
      rcases discardUncommitted_snd tr req with h2 | h2
      · rw [h2]; exact hi
      · rw [h2]; exact h i hi
  · intro req tr1 repl hv
    rcases Replicate_result tr tr1 req repl hv with h1 | ⟨_, st1, hf, h1⟩
    · rw [h1]; exact h
    · subst h1
      intro i hi
      simp only at hi ⊢
      rw [replicateAll_mem req.Logs _ _ hf i]
      exact Or.inl (h i hi)
  · intro cmd tr1 r hv
    obtain ⟨_, h1⟩ := AddLog_result tr tr1 cmd r hv
    subst h1
    exact h

theorem followerK_committedSubAccepted : CommittedSubAccepted followerK.Status := by
  intro i hi
  have h1 : followerK.Status.Accepted =
      followerK.Status.Committed.Union { Offset := 0, Words := [2], aligned := by decide } := by
    decide
  rw [h1, TailBitmap.mem_Union]
  exact Or.inl hi

theorem Committed_sub_Accepted_preserved_witness :
    CommittedSubAccepted followerK.Status ∧
    followerK.Status.Committed.Mem 0 ∧
    (followerK.Status.Accepted.Mem 1 ∧ ¬ followerK.Status.Committed.Mem 1) ∧
    LeaderId.lt followerK.Status.Committer reqX.Committer ∧
    hdlLogForward followerK 0 reqX = .ok (followerK1, replyK) ∧
    CommittedSubAccepted followerK1.Status :=
  ⟨followerK_committedSubAccepted, by decide, by decide, by decide, by decide,
   (Committed_sub_Accepted_preserved followerK followerK_committedSubAccepted).2.1
      0 reqX followerK1 replyK (by decide)⟩

/-- C10: VotedFor >= Committer is preserved.  If the replica's VotedFor is greater
than or equal to its Committer in the LeaderId order before Vote, hdlLogForward,
Replicate or AddLog, the same holds in the state the call leaves, for every
request and clock value. -/
theorem VotedFor_ge_Committer_preserved (tr : TRaft)
    (h : LeaderId.le tr.Status.Committer tr.Status.VotedFor) :
    (∀ req tr1 repl, Vote tr req = .ok (tr1, repl) →
      LeaderId.le tr1.Status.Committer tr1.Status.VotedFor) ∧
    (∀ now req tr1 repl, hdlLogForward tr now req = .ok (tr1, repl) →
      LeaderId.le tr1.Status.Committer tr1.Status.VotedFor) ∧
    (∀ req tr1 repl, Replicate tr req = .ok (tr1, repl) →
      LeaderId.le tr1.Status.Committer tr1.Status.VotedFor) ∧
    (∀ cmd tr1 r, AddLog tr cmd = .ok (tr1, r) →
      LeaderId.le tr1.Status.Committer tr1.Status.VotedFor) := by
  refine ⟨?_, ?_, ?_, ?_⟩
  · intro req tr1 repl hv
    by_cases hg : Granted tr req
    · obtain ⟨h1, _⟩ := Vote_granted_result tr tr1 req repl hg hv
      subst h1
      simp only
      exact LeaderId.le_trans h ((LeaderId.le_iff_not_lt _ _).2 hg.2)
    · rw [Vote_of_not_granted tr req hg] at hv
      simp only [Except.ok.injEq, Prod.mk.injEq] at hv
      rw [← hv.1]; exact h
  · intro now req tr1 repl hv
    rcases hdlLogForward_result tr tr1 now req repl hv with ⟨h1, _⟩ | ⟨h2, _, st1, _, h1, _⟩
    · rw [h1]; exact h
    · subst h1
      simp only
      rw [h2]
      exact LeaderId.le_refl _
  · intro req tr1 repl hv
    rcases Replicate_result tr tr1 req repl hv with h1 | ⟨h2, st1, _, h1⟩
    · rw [h1]; exact h
    · subst h1
      simp only [LeaderId.Cmp_pos_iff]
      have h3 : LeaderId.le tr.Status.VotedFor req.Committer :=
        (LeaderId.le_iff_not_lt _ _).2 h2
      by_cases h4 : LeaderId.lt tr.Status.VotedFor req.Committer
      · rw [if_pos h4]
        split_ifs with h5
        · exact LeaderId.le_refl _
        · exact LeaderId.le_trans h h3
      · rw [if_neg h4]
        split_ifs with h5
        · rcases (LeaderId.le_iff_lt_or_eq _ _).1 h3 with h6 | h6
          · exact absurd h6 h4
          · rw [← h6]; exact LeaderId.le_refl _
        · exact h
  · intro cmd tr1 r hv
    obtain ⟨_, h1⟩ := AddLog_result tr tr1 cmd r hv
    subst h1
    exact h

theorem VotedFor_ge_Committer_preserved_witness :
    LeaderId.le voterA.Status.Committer voterA.Status.VotedFor ∧
    LeaderId.le voterA.Status.Committer reqA.Candidate :=
  ⟨by decide,
   (VotedFor_ge_Committer_preserved voterA (by decide)).1 reqA
      { voterA with Status := { voterA.Status with VotedFor := reqA.Candidate } }
      { VotedFor := reqA.Candidate, Committer := voterA.Status.Committer,
        Accepted := voterA.Status.Accepted, Logs := [pseudoRecord ⟨1, 1⟩ 6] } (by decide)⟩

/-! ## hdlLogForward: what the logs hold afterwards -/

theorem extendLogs_length (logs : List Record) (idx : Nat) :
    idx < (extendLogs logs idx).length := by
  unfold extendLogs
  simp only [List.length_append, List.length_replicate]
  omega

theorem extendLogs_getElem? (logs : List Record) (idx j : Nat) (cur : Record)
    (h : logs[j]? = some cur) : (extendLogs logs idx)[j]? = some cur := by
  unfold extendLogs
  have hj : j < logs.length := by
    by_contra hc
    rw [List.getElem?_eq_none (by omega)] at h
    simp at h
  rw [List.getElem?_append_left hj]
  exact h

theorem forwardOne_seq_ge {off : Int} {st st1 : List Record × TailBitmap} {r : Record}
    (h : forwardOne off st r = .ok st1) : off ≤ r.Seq := by
  unfold forwardOne at h
  simp only at h
  by_contra hc
  rw [if_pos (by omega)] at h
  simp at h

/-- One iteration stores the record in its slot and leaves every non-empty record
where it was. -/
theorem forwardOne_keeps {off : Int} {st st1 : List Record × TailBitmap} {r : Record}
    (h : forwardOne off st r = .ok st1) :
    st1.1[(r.Seq - off).toNat]? = some r ∧
    ∀ (j : Nat) (cur : Record), st.1[j]? = some cur → cur.Empty = false →
      st1.1[j]? = some cur := by
  have hseq := forwardOne_seq_ge h
  have hnc : ¬ Conflict st.1 off r := by
    intro hc
    rw [(forwardOne_eq off st r hseq).1 hc] at h
    simp at h
  rw [(forwardOne_eq off st r hseq).2 hnc] at h
  simp only [Except.ok.injEq] at h
  rw [← h]
  simp only
  constructor
  · rw [List.getElem?_set, if_pos rfl, if_pos (extendLogs_length _ _)]
  · intro j cur hj he
    rw [List.getElem?_set]
    split_ifs with h1 h2
    · subst h1
      have hcur : cur.Equal r = true := by
        by_contra hne
        apply hnc
        exact ⟨cur, by rw [List.get?_eq_getElem?]; exact hj, he, by simpa using hne⟩
      unfold Record.Equal at hcur
      rw [decide_eq_true_eq] at hcur
      rw [hcur]
    · exact absurd (extendLogs_length _ _) h2
    · exact extendLogs_getElem? _ _ _ _ hj

theorem forwardAll_keeps (off : Int) :
    ∀ (logs : List Record) (st st1 : List Record × TailBitmap),
      forwardAll off st logs = .ok st1 →
      ∀ (j : Nat) (cur : Record), st.1[j]? = some cur → cur.Empty = false →
        st1.1[j]? = some cur := by
  intro logs
  induction logs with
  | nil =>
    intro st st1 h j cur hj _
    simp only [forwardAll, Except.ok.injEq] at h
    rw [← h]; exact hj
  | cons r rs ih =>
    intro st st1 h j cur hj he
    simp only [forwardAll] at h
    cases h1 : forwardOne off st r with
    | error e => rw [h1] at h; simp at h
    | ok st2 =>
      rw [h1] at h
      exact ih st2 st1 h j cur ((forwardOne_keeps h1).2 j cur hj he) he

/-- After the loop every non-empty record of the request sits in its slot. -/
theorem forwardAll_stores (off : Int) :
    ∀ (logs : List Record) (st st1 : List Record × TailBitmap),
      forwardAll off st logs = .ok st1 →
      ∀ r ∈ logs, r.Empty = false → off ≤ r.Seq ∧ st1.1[(r.Seq - off).toNat]? = some r := by
  intro logs
  induction logs with
  | nil => intro st st1 _ r hr; simp at hr
  | cons x xs ih =>
    intro st st1 h r hr he
    simp only [forwardAll] at h
    cases h1 : forwardOne off st x with
    | error e => rw [h1] at h; simp at h
    | ok st2 =>
      rw [h1] at h
      simp only [List.mem_cons] at hr
      rcases hr with hr | hr
      · subst hr
        exact ⟨forwardOne_seq_ge h1,
          forwardAll_keeps off xs st2 st1 h _ r (forwardOne_keeps h1).1 he⟩
      · exact ih st2 st1 h r hr he

theorem trimTop_keeps (logs : List Record) (j : Nat) (cur : Record)
    (h : logs[j]? = some cur) (he : cur.Empty = false) : (trimTop logs)[j]? = some cur := by
  unfold trimTop
  induction logs using List.reverseRecOn with
  | nil => simp at h
  | append_singleton l x ih =>
    by_cases hx : x.Empty = true
    · rw [List.rdropWhile_concat_pos _ _ _ hx]
      apply ih
      by_cases hj : j < l.length
      · rw [List.getElem?_append_left hj] at h
        exact h
      · rw [List.getElem?_append_right (by omega)] at h
        have h2 : j - l.length = 0 := by
          by_contra hc
          rw [List.getElem?_eq_none (by simp; omega)] at h
          simp at h
        rw [h2] at h
        simp only [List.getElem?_cons_zero, Option.some.injEq] at h
        rw [h] at hx
        rw [hx] at he
        simp at he
    · rw [List.rdropWhile_concat_neg _ _ _ hx]
      exact h

/-! ## hdlLogForward: where the records held afterwards come from -/

theorem extendLogs_origin (logs : List Record) (idx j : Nat) (x : Record)
    (h : (extendLogs logs idx)[j]? = some x) (he : x.Empty = false) : logs[j]? = some x := by
  unfold extendLogs at h
  by_cases hj : j < logs.length
  · rw [List.getElem?_append_left hj] at h
    exact h
  · rw [List.getElem?_append_right (by omega)] at h
    by_cases h2 : j - logs.length < (List.replicate (idx + 1 - logs.length) Record.zero).length
    · rw [List.getElem?_eq_getElem h2] at h
      simp only [List.getElem_replicate, Option.some.injEq] at h
      rw [← h] at he
      simp [Record.zero, Record.Empty] at he
    · rw [List.getElem?_eq_none (by omega)] at h
      simp at h

theorem forwardOne_origin {off : Int} {st st1 : List Record × TailBitmap} {r : Record}
    (h : forwardOne off st r = .ok st1) (j : Nat) (x : Record)
    (hx : st1.1[j]? = some x) (he : x.Empty = false) :
    st.1[j]? = some x ∨ (x = r ∧ j = (r.Seq - off).toNat) := by
  have hseq := forwardOne_seq_ge h
  have hnc : ¬ Conflict st.1 off r := by
    intro hc
    rw [(forwardOne_eq off st r hseq).1 hc] at h
    simp at h
  rw [(forwardOne_eq off st r hseq).2 hnc] at h
  simp only [Except.ok.injEq] at h
  rw [← h] at hx
  simp only at hx
  rw [List.getElem?_set] at hx
  split_ifs at hx with h1 h2
  · simp only [Option.some.injEq] at hx
    exact Or.inr ⟨hx.symm, h1.symm⟩
  · exact Or.inl (extendLogs_origin _ _ _ _ hx he)

theorem forwardAll_origin (off : Int) :
    ∀ (logs : List Record) (st st1 : List Record × TailBitmap),
      forwardAll off st logs = .ok st1 →
      ∀ (j : Nat) (x : Record), st1.1[j]? = some x → x.Empty = false →
        st.1[j]? = some x ∨ ∃ r ∈ logs, x = r ∧ off ≤ r.Seq ∧ j = (r.Seq - off).toNat := by
  intro logs
  induction logs with
  | nil =>
    intro st st1 h j x hx _
    simp only [forwardAll, Except.ok.injEq] at h
    rw [h]; exact Or.inl hx
  | cons r rs ih =>
    intro st st1 h j x hx he
    simp only [forwardAll] at h
    cases h1 : forwardOne off st r with
    | error e => rw [h1] at h; simp at h
    | ok st2 =>
      rw [h1] at h
      rcases ih st2 st1 h j x hx he with h2 | ⟨y, hy, h2⟩
      · rcases forwardOne_origin h1 j x h2 he with h3 | ⟨h3, h4⟩
        · exact Or.inl h3
        · exact Or.inr ⟨r, by simp, h3, forwardOne_seq_ge h1, h4⟩
      · exact Or.inr ⟨y, by simp [hy], h2⟩

theorem truncateLogs_origin (acc : TailBitmap) (logs : List Record) (j : Nat) (x : Record)
    (hx : (truncateLogs acc logs)[j]? = some x) (he : x.Empty = false) :
    logs[j]? = some x ∧ acc.Get x.Seq ≠ 0 := by
  unfold truncateLogs at hx
  rw [List.getElem?_map] at hx
  cases hy : logs[j]? with
  | none => rw [hy] at hx; simp at hx
  | some y =>
    rw [hy] at hx
    simp only [Option.map_some', Option.some.injEq] at hx
    split_ifs at hx with h1 h2
    · rw [← hx, h1] at he; simp at he
    · rw [← hx] at he; simp [Record.zero, Record.Empty] at he
    · rw [← hx]; exact ⟨rfl, h2⟩

theorem trimTop_origin (logs : List Record) (j : Nat) (x : Record)
    (hx : (trimTop logs)[j]? = some x) : logs[j]? = some x := by
  unfold trimTop at hx
  obtain ⟨t, ht⟩ := List.rdropWhile_prefix Record.Empty logs
  have hj : j < (List.rdropWhile Record.Empty logs).length := by
    by_contra hc
    rw [List.getElem?_eq_none (by omega)] at hx
    simp at hx
  rw [← ht, List.getElem?_append_left hj]
  exact hx

theorem discardUncommitted_origin (tr : TRaft) (req : LogForwardReq) (j : Nat) (x : Record)
    (hx : (discardUncommitted tr req).1[j]? = some x) (he : x.Empty = false) :
    tr.Logs[j]? = some x := by
  unfold discardUncommitted at hx
  split_ifs at hx
  · exact (truncateLogs_origin _ _ _ _ hx he).1
  · exact hx

/-! ## The cluster: log agreement -/

/-- The run that leads to `clusterX`: replicas 2 and 3 each win an election (which
starts their lease), both then vote for the candidate 3#1 of replica 1, replica 1
wins, adds three interfering records and forwards the third to replica 2 and the
second to replica 3. -/
theorem clusterX_reachable : Reachable clusterX := by
  have r0 : Reachable { now := 0, replicas := [1, 2, 3].map freshReplica } :=
    Reachable.init 0 [1, 2, 3] (by decide)
  have r1 := Reachable.step _
    { now := 0, replicas := [freshReplica 1, freshReplica 2,
        replicaX 3 ⟨1, 2⟩ 0 ⟨0, 0⟩ [] []] } r0
    (Step.vote _ _ 2 1 ⟨1, 2⟩ (freshReplica 3) (freshReplica 2)
      (replicaX 3 ⟨1, 2⟩ 0 ⟨0, 0⟩ [] [])
      { VotedFor := ⟨1, 2⟩, Committer := ⟨0, 0⟩, Accepted := NewTailBitmap 0, Logs := [] }
      (by decide) (by decide) (by decide) (by decide) (by decide))
  have r2 := Reachable.step _
    { now := 0, replicas := [freshReplica 1, replicaX 2 ⟨1, 2⟩ leaderLease ⟨0, 0⟩ [] [],
        replicaX 3 ⟨1, 2⟩ 0 ⟨0, 0⟩ [] []] } r1
    (Step.win _ _ 1 ⟨1, 2⟩ (freshReplica 2) (by decide) (by decide) (by decide) (by decide))
  have r3 := Reachable.step _
    { now := 0, replicas := [freshReplica 1, replicaX 2 ⟨2, 3⟩ leaderLease ⟨0, 0⟩ [] [],
        replicaX 3 ⟨1, 2⟩ 0 ⟨0, 0⟩ [] []] } r2
    (Step.vote _ _ 1 2 ⟨2, 3⟩ (replicaX 2 ⟨1, 2⟩ leaderLease ⟨0, 0⟩ [] [])
      (replicaX 3 ⟨1, 2⟩ 0 ⟨0, 0⟩ [] [])
      (replicaX 2 ⟨2, 3⟩ leaderLease ⟨0, 0⟩ [] [])
      { VotedFor := ⟨2, 3⟩, Committer := ⟨0, 0⟩, Accepted := NewTailBitmap 0, Logs := [] }
      (by decide) (by decide) (by decide) (by decide) (by decide))
  have r4 := Reachable.step _
    { now := 0, replicas := [freshReplica 1, replicaX 2 ⟨2, 3⟩ leaderLease ⟨0, 0⟩ [] [],
        replicaX 3 ⟨2, 3⟩ leaderLease ⟨0, 0⟩ [] []] } r3
    (Step.win _ _ 2 ⟨2, 3⟩ (replicaX 3 ⟨1, 2⟩ 0 ⟨0, 0⟩ [] [])
      (by decide) (by decide) (by decide) (by decide))
  have r5 := Reachable.step _
    { now := 0, replicas := [freshReplica 1, replicaX 2 ⟨3, 1⟩ leaderLease ⟨0, 0⟩ [] [],
        replicaX 3 ⟨2, 3⟩ leaderLease ⟨0, 0⟩ [] []] } r4
    (Step.vote _ _ 1 0 ⟨3, 1⟩ (replicaX 2 ⟨2, 3⟩ leaderLease ⟨0, 0⟩ [] [])
      (freshReplica 1)
      (replicaX 2 ⟨3, 1⟩ leaderLease ⟨0, 0⟩ [] [])
      { VotedFor := ⟨3, 1⟩, Committer := ⟨0, 0⟩, Accepted := NewTailBitmap 0, Logs := [] }
      (by decide) (by decide) (by decide) (by decide) (by decide))
  have r6 := Reachable.step _
    { now := 0, replicas := [freshReplica 1, replicaX 2 ⟨3, 1⟩ leaderLease ⟨0, 0⟩ [] [],
        replicaX 3 ⟨3, 1⟩ leaderLease ⟨0, 0⟩ [] []] } r5
    (Step.vote _ _ 2 0 ⟨3, 1⟩ (replicaX 3 ⟨2, 3⟩ leaderLease ⟨0, 0⟩ [] [])
      (freshReplica 1)
      (replicaX 3 ⟨3, 1⟩ leaderLease ⟨0, 0⟩ [] [])
      { VotedFor := ⟨3, 1⟩, Committer := ⟨0, 0⟩, Accepted := NewTailBitmap 0, Logs := [] }
      (by decide) (by decide) (by decide) (by decide) (by decide))
  have r7 := Reachable.step _
    { now := 0, replicas := [replicaX 1 ⟨3, 1⟩ leaderLease ⟨0, 0⟩ [] [],
        replicaX 2 ⟨3, 1⟩ leaderLease ⟨0, 0⟩ [] [],
        replicaX 3 ⟨3, 1⟩ leaderLease ⟨0, 0⟩ [] []] } r6
    (Step.win _ _ 0 ⟨3, 1⟩ (freshReplica 1) (by decide) (by decide) (by decide) (by decide))
  have r8 := Reachable.step _
    { now := 0, replicas := [replicaX 1 ⟨3, 1⟩ leaderLease ⟨0, 0⟩ [] [recordX0],
        replicaX 2 ⟨3, 1⟩ leaderLease ⟨0, 0⟩ [] [],
        replicaX 3 ⟨3, 1⟩ leaderLease ⟨0, 0⟩ [] []] } r7
    (Step.addLog _ _ 0 (some ⟨"set", "x", 1⟩) (replicaX 1 ⟨3, 1⟩ leaderLease ⟨0, 0⟩ [] [])
      (replicaX 1 ⟨3, 1⟩ leaderLease ⟨0, 0⟩ [] [recordX0]) recordX0
      (by decide) (by decide) (by decide))
  have r9 := Reachable.step _
    { now := 0, replicas := [replicaX 1 ⟨3, 1⟩ leaderLease ⟨0, 0⟩ [] [recordX0, recordX1],
        replicaX 2 ⟨3, 1⟩ leaderLease ⟨0, 0⟩ [] [],
        replicaX 3 ⟨3, 1⟩ leaderLease ⟨0, 0⟩ [] []] } r8
    (Step.addLog _ _ 0 (some ⟨"set", "x", 2⟩)
      (replicaX 1 ⟨3, 1⟩ leaderLease ⟨0, 0⟩ [] [recordX0])
      (replicaX 1 ⟨3, 1⟩ leaderLease ⟨0, 0⟩ [] [recordX0, recordX1]) recordX1
      (by decide) (by decide) (by decide))
  have r10 := Reachable.step _
    { now := 0, replicas :=
        [replicaX 1 ⟨3, 1⟩ leaderLease ⟨0, 0⟩ [] [recordX0, recordX1, recordX2],
         replicaX 2 ⟨3, 1⟩ leaderLease ⟨0, 0⟩ [] [],
         replicaX 3 ⟨3, 1⟩ leaderLease ⟨0, 0⟩ [] []] } r9
    (Step.addLog _ _ 0 (some ⟨"set", "x", 3⟩)
      (replicaX 1 ⟨3, 1⟩ leaderLease ⟨0, 0⟩ [] [recordX0, recordX1])
      (replicaX 1 ⟨3, 1⟩ leaderLease ⟨0, 0⟩ [] [recordX0, recordX1, recordX2]) recordX2
      (by decide) (by decide) (by decide))
  have r11 := Reachable.step _
    { now := 0, replicas :=
        [replicaX 1 ⟨3, 1⟩ leaderLease ⟨0, 0⟩ [] [recordX0, recordX1, recordX2],
         replicaX 2 ⟨3, 1⟩ leaderLease ⟨3, 1⟩ [6] [Record.zero, Record.zero, recordX2],
         replicaX 3 ⟨3, 1⟩ leaderLease ⟨0, 0⟩ [] []] } r10
    (Step.forward _ _ 1 0 [recordX2] (replicaX 2 ⟨3, 1⟩ leaderLease ⟨0, 0⟩ [] [])
      (replicaX 1 ⟨3, 1⟩ leaderLease ⟨0, 0⟩ [] [recordX0, recordX1, recordX2])
      (replicaX 2 ⟨3, 1⟩ leaderLease ⟨3, 1⟩ [6] [Record.zero, Record.zero, recordX2])
      { OK := true, VotedFor := ⟨3, 1⟩
        Accepted := some { Offset := 0, Words := [6], aligned := by decide }
        Committed := some (NewTailBitmap 0) }
      (by decide) (by decide) (by decide) (by decide) (by decide) (by decide) (by decide))
  exact Reachable.step _ clusterX r11
    (Step.forward _ _ 2 0 [recordX1] (replicaX 3 ⟨3, 1⟩ leaderLease ⟨0, 0⟩ [] [])
      (replicaX 1 ⟨3, 1⟩ leaderLease ⟨0, 0⟩ [] [recordX0, recordX1, recordX2])
      (replicaX 3 ⟨3, 1⟩ leaderLease ⟨3, 1⟩ [2] [Record.zero, recordX1])
      { OK := true, VotedFor := ⟨3, 1⟩
        Accepted := some { Offset := 0, Words := [2], aligned := by decide }
        Committed := some (NewTailBitmap 0) }
      (by decide) (by decide) (by decide) (by decide) (by decide) (by decide) (by decide))

/-- C1 (counterexample): log agreement fails in a reachable cluster state.  In
`clusterX` replicas 2 and 3 both have seq 1 in Accepted, replica 2 through the
Overrides of the record at seq 2 and replica 3 through the record at seq 1;
replica 2 holds an empty record at Logs[1], replica 3 the record `set x=2`. -/
theorem log_agreement_fails : Reachable clusterX ∧ ¬ LogAgreement clusterX := by
  refine ⟨clusterX_reachable, ?_⟩
  intro h
  have h1 := h
    (replicaX 2 ⟨3, 1⟩ leaderLease ⟨3, 1⟩ [6] [Record.zero, Record.zero, recordX2]) (by decide)
    (replicaX 3 ⟨3, 1⟩ leaderLease ⟨3, 1⟩ [2] [Record.zero, recordX1]) (by decide)
    1 Record.zero recordX1 (by decide) (by decide) (by decide) (by decide)
  revert h1
  decide

/-- C1 (amended): agreement between a follower and the leader whose records it
accepts.  If every record of the request is a non-empty record r held by the
leader at Logs[r.Seq - LogOffset] and hdlLogForward replies OK=true, then
afterwards, for every record r of the request, the follower's
Logs[r.Seq - LogOffset] and the leader's Logs[r.Seq - LogOffset] hold Equal
records; and if before the call every non-empty record the follower held was the
leader's record at the same seq, the same is true of every non-empty record it
holds afterwards. -/
theorem hdlLogForward_agrees_with_leader (follower leader tr1 : TRaft) (now : Int)
    (req : LogForwardReq) (repl : LogForwardReply)
    (hsrc : ∀ r ∈ req.Logs,
      r.Empty = false ∧ indexLogs leader.Logs (r.Seq - leader.LogOffset) = some r)
    (h : hdlLogForward follower now req = .ok (tr1, repl)) (hok : repl.OK = true) :
    (∀ r ∈ req.Logs, ∃ a b,
      indexLogs tr1.Logs (r.Seq - tr1.LogOffset) = some a ∧
      indexLogs leader.Logs (r.Seq - leader.LogOffset) = some b ∧ a.Equal b = true) ∧
    ((∀ (j : Nat) (x : Record), follower.Logs[j]? = some x → x.Empty = false →
        indexLogs leader.Logs (follower.LogOffset + j - leader.LogOffset) = some x) →
      ∀ (j : Nat) (x : Record), tr1.Logs[j]? = some x → x.Empty = false →
        indexLogs leader.Logs (tr1.LogOffset + j - leader.LogOffset) = some x) := by
  rcases hdlLogForward_result follower tr1 now req repl h with ⟨_, h1⟩ | ⟨_, _, st1, hf, h1, h2⟩
  · rw [h1] at hok
    simp at hok
  subst h1
  constructor
  · intro r hr
    obtain ⟨he, hl⟩ := hsrc r hr
    refine ⟨r, r, ?_, hl, by simp [Record.Equal]⟩
    obtain ⟨hseq, hs⟩ := forwardAll_stores follower.LogOffset req.Logs _ _ hf r hr he
    unfold indexLogs
    simp only
    rw [if_neg (by omega), List.get?_eq_getElem?]
    exact trimTop_keeps _ _ _ hs he
  · intro hagree j x hx he
    simp only at hx ⊢
    have hx1 := trimTop_origin _ _ _ hx
    rcases forwardAll_origin follower.LogOffset req.Logs _ _ hf j x hx1 he with
      h3 | ⟨r, hr, h3, h4, h5⟩
    · exact hagree j x (discardUncommitted_origin follower req j x h3 he) he
    · subst h3
      have h6 : follower.LogOffset + (j : Int) = x.Seq := by omega
      rw [h6]
      exact (hsrc x hr).2

theorem hdlLogForward_agrees_with_leader_witness :
    ∃ a b,
      indexLogs [Record.zero, Record.zero, recordX2] (recordX2.Seq - 0) = some a ∧
      indexLogs [recordX0, recordX1, recordX2] (recordX2.Seq - 0) = some b ∧
      a.Equal b = true :=
  (hdlLogForward_agrees_with_leader
    (replicaX 2 ⟨3, 1⟩ leaderLease ⟨0, 0⟩ [] [])
    (replicaX 1 ⟨3, 1⟩ leaderLease ⟨0, 0⟩ [] [recordX0, recordX1, recordX2])
    (replicaX 2 ⟨3, 1⟩ leaderLease ⟨3, 1⟩ [6] [Record.zero, Record.zero, recordX2])
    0 { Committer := ⟨3, 1⟩, Logs := [recordX2] }
    { OK := true, VotedFor := ⟨3, 1⟩
      Accepted := some { Offset := 0, Words := [6], aligned := by decide }
      Committed := some (NewTailBitmap 0) }
    (by decide) (by decide) (by decide)).1 recordX2 (by decide)

/-! ## VotedFor never decreases -/

theorem applyOp_votedFor_le (tr tr1 : TRaft) (op : Op) (h : applyOp tr op = .ok tr1) :
    LeaderId.le tr.Status.VotedFor tr1.Status.VotedFor := by
  cases op with
  | vote req =>
    simp only [applyOp] at h
    cases hv : Vote tr req with
    | error e => rw [hv] at h; simp [Except.map] at h
    | ok out =>
      obtain ⟨tr2, repl⟩ := out
      rw [hv] at h
      simp only [Except.map, Except.ok.injEq] at h
      subst h
      by_cases hg : Granted tr req
      · obtain ⟨h1, _⟩ := Vote_granted_result tr tr2 req repl hg hv
        subst h1
        exact (LeaderId.le_iff_not_lt _ _).2 hg.2
      · rw [Vote_of_not_granted tr req hg] at hv
        simp only [Except.ok.injEq, Prod.mk.injEq] at hv
        rw [← hv.1]; exact LeaderId.le_refl _
  | logForward now req =>
    simp only [applyOp] at h
    cases hv : hdlLogForward tr now req with
    | error e => rw [hv] at h; simp [Except.map] at h
    | ok out =>
      obtain ⟨tr2, repl⟩ := out
      rw [hv] at h
      simp only [Except.map, Except.ok.injEq] at h
      subst h
      rcases hdlLogForward_result tr tr2 now req repl hv with ⟨h1, _⟩ | ⟨_, _, st1, _, h1, _⟩
      · rw [h1]; exact LeaderId.le_refl _
      · subst h1; exact LeaderId.le_refl _
  | replicate req =>
    simp only [applyOp] at h
    cases hv : Replicate tr req with
    | error e => rw [hv] at h; simp [Except.map] at h
    | ok out =>
      obtain ⟨tr2, repl⟩ := out
      rw [hv] at h
      simp only [Except.map, Except.ok.injEq] at h
      subst h
      rcases Replicate_result tr tr2 req repl hv with h1 | ⟨_, st1, _, h1⟩
      · rw [h1]; exact LeaderId.le_refl _
      · subst h1
        simp only [LeaderId.Cmp_pos_iff]
        split_ifs with h4
        · exact (LeaderId.le_iff_lt_or_eq _ _).2 (Or.inl h4)
        · exact LeaderId.le_refl _
  | addLog cmd =>
    simp only [applyOp] at h
    cases hv : AddLog tr cmd with
    | error e => rw [hv] at h; simp [Except.map] at h
    | ok out =>
      obtain ⟨tr2, r⟩ := out
      rw [hv] at h
      simp only [Except.map, Except.ok.injEq] at h
      subst h
      obtain ⟨_, h1⟩ := AddLog_result tr tr2 cmd r hv
      subst h1; exact LeaderId.le_refl _

theorem LeaderId.term_le_of_le {a b : LeaderId} (h : a.le b) : a.Term ≤ b.Term := by
  unfold LeaderId.le at h
  rcases h with h | ⟨h, _⟩ <;> omega

theorem runOps_votedFor_le :
    ∀ (ops : List Op) (tr tr1 : TRaft), runOps tr ops = .ok tr1 →
      LeaderId.le tr.Status.VotedFor tr1.Status.VotedFor := by
  intro ops
  induction ops with
  | nil =>
    intro tr tr1 h
    simp only [runOps, Except.ok.injEq] at h
    rw [h]; exact LeaderId.le_refl _
  | cons op ops ih =>
    intro tr tr1 h
    simp only [runOps] at h
    cases h1 : applyOp tr op with
    | error e => rw [h1] at h; simp at h
    | ok tr2 =>
      rw [h1] at h
      exact LeaderId.le_trans (applyOp_votedFor_le tr tr2 op h1) (ih tr2 tr1 h)

/-- C11: VotedFor never decreases.  Each of Vote, hdlLogForward, Replicate and
AddLog leaves the replica's VotedFor greater than or equal to its previous value
in the lexicographic (Term, Id) order, and over any sequence of these operations
VotedFor, and so VotedFor.Term, does not decrease. -/
theorem VotedFor_never_decreases (tr : TRaft) :
    (∀ req tr1 repl, Vote tr req = .ok (tr1, repl) →
      LeaderId.le tr.Status.VotedFor tr1.Status.VotedFor) ∧
    (∀ now req tr1 repl, hdlLogForward tr now req = .ok (tr1, repl) →
      LeaderId.le tr.Status.VotedFor tr1.Status.VotedFor) ∧
    (∀ req tr1 repl, Replicate tr req = .ok (tr1, repl) →
      LeaderId.le tr.Status.VotedFor tr1.Status.VotedFor) ∧
    (∀ cmd tr1 r, AddLog tr cmd = .ok (tr1, r) →
      LeaderId.le tr.Status.VotedFor tr1.Status.VotedFor) ∧
    (∀ ops tr1, runOps tr ops = .ok tr1 →
      LeaderId.le tr.Status.VotedFor tr1.Status.VotedFor ∧
      tr.Status.VotedFor.Term ≤ tr1.Status.VotedFor.Term) := by
  refine ⟨?_, ?_, ?_, ?_, ?_⟩
  · intro req tr1 repl h
    exact applyOp_votedFor_le tr tr1 (.vote req) (by simp [applyOp, h, Except.map])
  · intro now req tr1 repl h
    exact applyOp_votedFor_le tr tr1 (.logForward now req) (by simp [applyOp, h, Except.map])
  · intro req tr1 repl h
    exact applyOp_votedFor_le tr tr1 (.replicate req) (by simp [applyOp, h, Except.map])
  · intro cmd tr1 r h
    exact applyOp_votedFor_le tr tr1 (.addLog cmd) (by simp [applyOp, h, Except.map])
  · intro ops tr1 h
    have h1 := runOps_votedFor_le ops tr tr1 h
    exact ⟨h1, LeaderId.term_le_of_le h1⟩

theorem VotedFor_never_decreases_witness :
    LeaderId.le voterA.Status.VotedFor reqA.Candidate ∧
    voterA.Status.VotedFor.Term ≤ reqA.Candidate.Term :=
  (VotedFor_never_decreases voterA).2.2.2.2
    [Op.vote reqA, Op.replicate { Committer := ⟨2, 2⟩, Logs := [] }]
    { voterA with
      Status := { voterA.Status with VotedFor := reqA.Candidate, Committer := ⟨2, 2⟩ } }
    (by decide)

/-! ## TailBitmap: `NewTailBitmap` and `Set` as sets -/

/-- `NewTailBitmap(offset)` is the set of the positions below `offset`. -/
theorem mem_NewTailBitmap (off i : Int) : (NewTailBitmap off).Mem i ↔ i < off := by
  rw [TailBitmap.mem_iff]
  unfold NewTailBitmap
  simp only
  by_cases h0 : off % 64 = 0
  · simp only [h0, if_true, List.getD_eq_getElem?_getD, List.getElem?_nil, Option.getD_none,
      Nat.zero_testBit, Bool.false_eq_true, or_false, sub_zero]
  · simp only [h0, if_false]
    by_cases hi : i < off - off % 64
    · simp only [hi, true_or, true_iff]; omega
    · simp only [hi, false_or]
      by_cases hw : ((i - (off - off % 64)) / 64).toNat = 0
      · rw [hw]
        simp only [List.getD_eq_getElem?_getD, List.getElem?_cons_zero, Option.getD_some,
          Nat.testBit_two_pow_sub_one, decide_eq_true_eq]
        omega
      · have hw1 : ((i - (off - off % 64)) / 64).toNat ≠ 0 := hw
        obtain ⟨k, hk⟩ := Nat.exists_eq_succ_of_ne_zero hw1
        rw [hk]
        simp only [List.getD_eq_getElem?_getD, List.getElem?_cons_succ, List.getElem?_nil,
          Option.getD_none, Nat.zero_testBit, Bool.false_eq_true, false_iff]
        omega

theorem getD_append_replicate_zero (ws : List Nat) (n k : Nat) :
    (ws ++ List.replicate n 0).getD k 0 = ws.getD k 0 := by
  simp only [List.getD_eq_getElem?_getD]
  by_cases hk : k < ws.length
  · rw [List.getElem?_append_left hk]
  · rw [List.getElem?_append_right (by omega), List.getElem?_eq_none (l := ws) (by omega),
      List.getElem?_replicate]
    split_ifs <;> rfl

theorem getD_set_zero (ws : List Nat) (w k v : Nat) (hw : w < ws.length) :
    (ws.set w v).getD k 0 = if w = k then v else ws.getD k 0 := by
  simp only [List.getD_eq_getElem?_getD, List.getElem?_set]
  split_ifs with h1
  · rfl
  · rfl

/-- `Set(i)` adds the position `i`. -/
theorem TailBitmap.mem_Set (tb : TailBitmap) (i j : Int) :
    (tb.Set i).Mem j ↔ tb.Mem j ∨ j = i := by
  have ha := tb.aligned
  unfold TailBitmap.Set
  by_cases hi : i < tb.Offset
  · rw [if_pos hi]
    constructor
    · intro h; exact Or.inl h
    · rintro (h | h)
      · exact h
      · rw [TailBitmap.mem_iff]; left; omega
  · rw [if_neg hi]
    rw [TailBitmap.mem_iff, TailBitmap.mem_iff]
    simp only
    by_cases hj : j < tb.Offset
    · simp [hj]
    · simp only [hj, false_or]
      have hlen : ((i - tb.Offset) / 64).toNat <
          (tb.Words ++ List.replicate
            (((i - tb.Offset) / 64).toNat + 1 - tb.Words.length) 0).length := by
        simp only [List.length_append, List.length_replicate]; omega
      rw [getD_set_zero _ _ _ _ hlen]
      by_cases hw : ((i - tb.Offset) / 64).toNat = ((j - tb.Offset) / 64).toNat
      · rw [if_pos hw, Nat.testBit_or, hw, getD_append_replicate_zero, Nat.testBit_two_pow]
        simp only [Bool.or_eq_true, decide_eq_true_eq]
        constructor
        · rintro (h | h)
          · exact Or.inl h
          · right; omega
        · rintro (h | h)
          · exact Or.inl h
          · right; rw [h]
      · rw [if_neg hw, getD_append_replicate_zero]
        constructor
        · intro h; exact Or.inl h
        · rintro (h | h)
          · exact h
          · rw [h] at hw; exact absurd rfl hw

/-! ## AddLog -/

theorem scanOverrides_none (r : Record) (lsn : Int) (logs : List Record)
    (h : ∀ x ∈ logs, r.Interfering x = false) : scanOverrides r lsn logs = NewTailBitmap 0 := by
  induction logs with
  | nil => rfl
  | cons x xs ih =>
    unfold scanOverrides
    rw [h x (by simp)]
    simp only [Bool.false_eq_true, if_false]
    exact ih (fun y hy => h y (by simp [hy]))

theorem scanOverrides_first (r : Record) (lsn : Int) (newer older : List Record)
    (prev : Record) (h : ∀ x ∈ newer, r.Interfering x = false)
    (hp : r.Interfering prev = true) :
    scanOverrides r lsn (newer ++ prev :: older) = prev.Overrides.Set lsn := by
  induction newer with
  | nil => simp [scanOverrides, hp]
  | cons x xs ih =>
    simp only [List.cons_append]
    unfold scanOverrides
    rw [h x (by simp)]
    simp only [Bool.false_eq_true, if_false]
    exact ih (fun y hy => h y (by simp [hy]))

theorem Record.interfering_of_cmd (a b x : Record) (h : a.Cmd = b.Cmd) :
    a.Interfering x = b.Interfering x := by
  unfold Record.Interfering
  rw [h]

theorem wrapInt64_of_inRange (x : Int) (h1 : -9223372036854775808 ≤ x)
    (h2 : x ≤ 9223372036854775807) : wrapInt64 x = x := by
  unfold wrapInt64
  omega

/-- The value AddLog returns on a leader. -/
theorem AddLog_of_leader (tr : TRaft) (cmd : Option Cmd) (h : tr.Status.VotedFor.Id = tr.Id) :
    AddLog tr cmd =
      .ok ({ tr with Logs := tr.Logs ++
              [{ Author := some tr.Status.VotedFor
                 Seq := wrapInt64 (tr.LogOffset + (tr.Logs.length : Int))
                 Cmd := cmd
                 Overrides :=
                   (scanOverrides
                      (NewRecord tr.Status.VotedFor
                        (wrapInt64 (tr.LogOffset + (tr.Logs.length : Int))) cmd)
                      (wrapInt64 (tr.LogOffset + (tr.Logs.length : Int))) tr.Logs.reverse).Union
                    (NewTailBitmap (tr.LogOffset - tr.LogOffset % 64))
                 Depends := NewTailBitmap tr.LogOffset }] },
           { Author := some tr.Status.VotedFor
             Seq := wrapInt64 (tr.LogOffset + (tr.Logs.length : Int))
             Cmd := cmd
             Overrides :=
               (scanOverrides
                  (NewRecord tr.Status.VotedFor
                    (wrapInt64 (tr.LogOffset + (tr.Logs.length : Int))) cmd)
                  (wrapInt64 (tr.LogOffset + (tr.Logs.length : Int))) tr.Logs.reverse).Union
                (NewTailBitmap (tr.LogOffset - tr.LogOffset % 64))
             Depends := NewTailBitmap tr.LogOffset }) := by
  unfold AddLog
  simp only [ne_eq, h, not_true_eq_false, if_false, NewRecord]

/-- C19 (counterexample): the leader `leaderMax` holds one record and its
LogOffset is 2^63 - 1, so LogOffset + len(Logs) is 2^63.  AddLog computes the sum
in int64: the record it returns and appends has Seq = -2^63, which is not
LogOffset + len(Logs). -/
theorem AddLog_seq_wraps :
    leaderMax.Status.VotedFor.Id = leaderMax.Id ∧
    leaderMax.LogOffset + (leaderMax.Logs.length : Int) = 9223372036854775808 ∧
    ∃ tr1 r, AddLog leaderMax (some ⟨"set", "x", 1⟩) = .ok (tr1, r) ∧
      tr1.Logs = leaderMax.Logs ++ [r] ∧
      r.Seq = -9223372036854775808 ∧
      r.Seq ≠ leaderMax.LogOffset + (leaderMax.Logs.length : Int) :=
  ⟨by decide, by decide, _, _, AddLog_of_leader leaderMax _ (by decide), rfl, by decide,
    by decide⟩

/-- C19 (amended): AddLog appends one well-formed record.  If the replica's
VotedFor.Id equals its own Id, AddLog(cmd) returns a record with
Author = VotedFor, Seq = the int64 sum of LogOffset and len(Logs), which is
LogOffset + len(Logs) whenever that sum is at most 2^63 - 1, Cmd = cmd and
Depends equal as a set to {i | i < LogOffset}, and the new state is the old one
with exactly that record appended to Logs (earlier entries, LogOffset and all
ReplicaStatus fields unchanged); if VotedFor.Id differs from its Id, AddLog
terminates fatally and no state results. -/
theorem AddLog_appends_record (tr : TRaft) (cmd : Option Cmd) :
    (tr.Status.VotedFor.Id = tr.Id →
      ∃ r, AddLog tr cmd = .ok ({ tr with Logs := tr.Logs ++ [r] }, r) ∧
        r.Author = some tr.Status.VotedFor ∧
        r.Seq = wrapInt64 (tr.LogOffset + (tr.Logs.length : Int)) ∧
        (-9223372036854775808 ≤ tr.LogOffset →
          tr.LogOffset + (tr.Logs.length : Int) ≤ 9223372036854775807 →
          r.Seq = tr.LogOffset + (tr.Logs.length : Int)) ∧
        r.Cmd = cmd ∧
        ∀ i : Int, r.Depends.Mem i ↔ i < tr.LogOffset) ∧
    (tr.Status.VotedFor.Id ≠ tr.Id → AddLog tr cmd = .error Fatal.wtf) := by
  constructor
  · intro h
    refine ⟨_, AddLog_of_leader tr cmd h, rfl, rfl, ?_, rfl, fun i => mem_NewTailBitmap _ i⟩
    intro h1 h2
    exact wrapInt64_of_inRange _ (by omega) h2
  · intro h
    unfold AddLog
    simp only [ne_eq, h, not_false_eq_true, if_true]

theorem AddLog_appends_record_witness :
    leaderL.Status.VotedFor.Id = leaderL.Id ∧
    ∃ r, AddLog leaderL (some ⟨"set", "x", 7⟩) =
        .ok ({ leaderL with Logs := leaderL.Logs ++ [r] }, r) ∧
      r.Author = some ⟨1, 1⟩ ∧ r.Seq = 7 ∧ r.Cmd = some ⟨"set", "x", 7⟩ ∧
      (r.Depends.Mem 4 ∧ ¬ r.Depends.Mem 5) :=
  match (AddLog_appends_record leaderL (some ⟨"set", "x", 7⟩)).1 (by decide) with
  | ⟨r, h1, h2, _, h4, h5, h6⟩ =>
    ⟨by decide, r, h1, h2, h4 (by decide) (by decide), h5,
      (h6 4).2 (by decide), fun hc => absurd ((h6 5).1 hc) (by decide)⟩

theorem scanOverrides_mem_lsn (r : Record) (lsn : Int) (logs : List Record)
    (h : ∃ x ∈ logs, r.Interfering x = true) : (scanOverrides r lsn logs).Mem lsn := by
  induction logs with
  | nil => simp at h
  | cons x xs ih =>
    unfold scanOverrides
    by_cases hx : r.Interfering x = true
    · rw [if_pos hx, TailBitmap.mem_Set]
      exact Or.inr rfl
    · rw [if_neg hx]
      apply ih
      obtain ⟨y, hy, hy2⟩ := h
      simp only [List.mem_cons] at hy
      rcases hy with rfl | hy
      · exact absurd hy2 hx
      · exact ⟨y, hy, hy2⟩

theorem Record.not_empty_of_interfering (a x : Record) (h : a.Interfering x = true) :
    x.Empty = false := by
  unfold Record.Interfering at h
  unfold Record.Empty
  cases hc : x.Cmd with
  | none => rw [hc] at h; cases a.Cmd <;> simp at h
  | some c => simp

/-- The new record's Overrides contains `lsn` exactly when a record interferes,
or `lsn` is negative or below the rounded-down offset. -/
theorem scanOverrides_union_mem_lsn (r : Record) (lsn : Int) (logs : List Record)
    (bound : Int) :
    ((scanOverrides r lsn logs.reverse).Union (NewTailBitmap bound)).Mem lsn ↔
      (∃ x ∈ logs, r.Interfering x = true) ∨ lsn < 0 ∨ lsn < bound := by
  rw [TailBitmap.mem_Union, mem_NewTailBitmap]
  by_cases hex : ∃ x ∈ logs, r.Interfering x = true
  · have hm : (scanOverrides r lsn logs.reverse).Mem lsn := by
      apply scanOverrides_mem_lsn
      obtain ⟨x, hx, hxi⟩ := hex
      exact ⟨x, List.mem_reverse.2 hx, hxi⟩
    constructor
    · intro _; exact Or.inl hex
    · intro _; exact Or.inl hm
  · have hnone : ∀ x ∈ logs.reverse, r.Interfering x = false := by
      intro x hx
      have := fun hc => hex ⟨x, List.mem_reverse.1 hx, hc⟩
      simpa using this
    rw [scanOverrides_none r lsn _ hnone, mem_NewTailBitmap]
    constructor
    · rintro (h1 | h1)
      · exact Or.inr (Or.inl h1)
      · exact Or.inr (Or.inr h1)
    · rintro (h1 | h1 | h1)
      · exact absurd h1 hex
      · exact Or.inl h1
      · exact Or.inr h1

/-- C20: AddLog's Overrides.  For every leader state and cmd, with lsn the int64
sum LogOffset + len(Logs) that AddLog computes (the sum itself whenever it is at
most 2^63 - 1) and P = {i | i < LogOffset rounded down to a multiple of 64}: if
some record in Logs interferes with cmd and prev is the newest such record (the
one with the highest Seq when the records sit at their seqs), the returned
record's Overrides equals, as a set, Overrides(prev) ∪ {lsn} ∪ P; if none
interferes, Overrides equals P as a set of non-negative integers.  Hence, for
LogOffset >= 0 and a sum of at most 2^63 - 1, Overrides contains
LogOffset + len(Logs) if and only if an earlier interfering record existed; for
every input it contains lsn if and only if an earlier interfering record existed
or lsn is negative or in P. -/
theorem AddLog_overrides (tr : TRaft) (cmd : Option Cmd) (h : tr.Status.VotedFor.Id = tr.Id) :
    ∃ tr1 r, AddLog tr cmd = .ok (tr1, r) ∧ r.Cmd = cmd ∧
      (∀ pre prev post, tr.Logs = pre ++ prev :: post → r.Interfering prev = true →
        (∀ x ∈ post, r.Interfering x = false) →
        (∀ i : Int, r.Overrides.Mem i ↔
          prev.Overrides.Mem i ∨ i = wrapInt64 (tr.LogOffset + (tr.Logs.length : Int)) ∨
            i < tr.LogOffset - tr.LogOffset % 64) ∧
        ((∀ (j : Nat) (x : Record), tr.Logs[j]? = some x → x.Empty = false →
            x.Seq = tr.LogOffset + (j : Int)) →
          ∀ x ∈ tr.Logs, r.Interfering x = true → x.Seq ≤ prev.Seq)) ∧
      ((∀ x ∈ tr.Logs, r.Interfering x = false) →
        ∀ i : Int, 0 ≤ i → (r.Overrides.Mem i ↔ i < tr.LogOffset - tr.LogOffset % 64)) ∧
      (0 ≤ tr.LogOffset → tr.LogOffset + (tr.Logs.length : Int) ≤ 9223372036854775807 →
        (r.Overrides.Mem (tr.LogOffset + (tr.Logs.length : Int)) ↔
          ∃ x ∈ tr.Logs, r.Interfering x = true)) ∧
      r.Seq = wrapInt64 (tr.LogOffset + (tr.Logs.length : Int)) ∧
      (-9223372036854775808 ≤ tr.LogOffset →
        tr.LogOffset + (tr.Logs.length : Int) ≤ 9223372036854775807 →
        wrapInt64 (tr.LogOffset + (tr.Logs.length : Int))
          = tr.LogOffset + (tr.Logs.length : Int)) ∧
      (r.Overrides.Mem r.Seq ↔
        (∃ x ∈ tr.Logs, r.Interfering x = true) ∨ r.Seq < 0 ∨
          r.Seq < tr.LogOffset - tr.LogOffset % 64) := by
  have hi : ∀ x, Record.Interfering
      (NewRecord tr.Status.VotedFor
        (wrapInt64 (tr.LogOffset + (tr.Logs.length : Int))) cmd) x =
      Record.Interfering
        { Author := some tr.Status.VotedFor
          Seq := wrapInt64 (tr.LogOffset + (tr.Logs.length : Int))
          Cmd := cmd
          Overrides :=
            (scanOverrides
              (NewRecord tr.Status.VotedFor
                (wrapInt64 (tr.LogOffset + (tr.Logs.length : Int))) cmd)
              (wrapInt64 (tr.LogOffset + (tr.Logs.length : Int))) tr.Logs.reverse).Union
              (NewTailBitmap (tr.LogOffset - tr.LogOffset % 64))
          Depends := NewTailBitmap tr.LogOffset } x :=
    fun x => Record.interfering_of_cmd _ _ x rfl
  have hlsn := scanOverrides_union_mem_lsn
    (NewRecord tr.Status.VotedFor (wrapInt64 (tr.LogOffset + (tr.Logs.length : Int))) cmd)
    (wrapInt64 (tr.LogOffset + (tr.Logs.length : Int))) tr.Logs
    (tr.LogOffset - tr.LogOffset % 64)
  simp only [hi] at hlsn
  refine ⟨_, _, AddLog_of_leader tr cmd h, rfl, ?_, ?_, ?_, rfl, ?_, hlsn⟩
  · intro pre prev post hl hp hpost
    constructor
    · intro i
      simp only
      have hrev : tr.Logs.reverse = post.reverse ++ prev :: pre.reverse := by
        rw [hl]; simp
      rw [TailBitmap.mem_Union, mem_NewTailBitmap, hrev,
        scanOverrides_first _ _ _ _ _
          (fun x hx => by rw [hi]; exact hpost x (List.mem_reverse.1 hx))
          (by rw [hi]; exact hp),
        TailBitmap.mem_Set]
      tauto
    · intro hwf x hx hxi
      rw [hl] at hx
      simp only [List.mem_append, List.mem_cons] at hx
      have hprev : prev.Seq = tr.LogOffset + (pre.length : Int) := by
        apply hwf pre.length prev
        · rw [hl, List.getElem?_append_right (Nat.le_refl _), Nat.sub_self,
            List.getElem?_cons_zero]
        · exact Record.not_empty_of_interfering _ _ hp
      rcases hx with hx | hx | hx
      · obtain ⟨j, hj, hjx⟩ := List.getElem_of_mem hx
        have hxs : x.Seq = tr.LogOffset + (j : Int) := by
          apply hwf j x
          · rw [hl, List.getElem?_append_left hj, List.getElem?_eq_getElem hj, hjx]
          · exact Record.not_empty_of_interfering _ _ hxi
        omega
      · rw [hx]
      · rw [hpost x hx] at hxi
        simp at hxi
  · intro hnone i hi0
    simp only
    rw [TailBitmap.mem_Union, mem_NewTailBitmap,
      scanOverrides_none _ _ _
        (fun x hx => by rw [hi]; exact hnone x (List.mem_reverse.1 hx)),
      mem_NewTailBitmap]
    constructor
    · rintro (h1 | h1)
      · omega
      · exact h1
    · intro h1; exact Or.inr h1
  · intro hoff hmax
    have hw := wrapInt64_of_inRange (tr.LogOffset + (tr.Logs.length : Int)) (by omega) hmax
    rw [hw] at hlsn ⊢
    constructor
    · intro hm
      rcases hlsn.1 hm with h1 | h1 | h1
      · exact h1
      · omega
      · omega
    · intro h1
      exact hlsn.2 (Or.inl h1)
  · intro h1 h2
    exact wrapInt64_of_inRange _ (by omega) h2

theorem AddLog_overrides_witness :
    ∃ tr1 r, AddLog (replicaX 1 ⟨3, 1⟩ leaderLease ⟨0, 0⟩ [] [recordX0])
        (some ⟨"set", "x", 2⟩) = .ok (tr1, r) ∧ r.Cmd = some ⟨"set", "x", 2⟩ ∧
      (r.Overrides.Mem 1 ↔ ∃ x ∈ [recordX0], r.Interfering x = true) :=
  match AddLog_overrides (replicaX 1 ⟨3, 1⟩ leaderLease ⟨0, 0⟩ [] [recordX0])
      (some ⟨"set", "x", 2⟩) (by decide) with
  | ⟨tr1, r, h1, h2, _, _, h5, _⟩ => ⟨tr1, r, h1, h2, h5 (by decide) (by decide)⟩

/-! ## hdlLogForward and the records of accepted seqs -/

theorem truncateLogs_keeps (acc : TailBitmap) (logs : List Record) (j : Nat) (x : Record)
    (hx : logs[j]? = some x) (ha : acc.Get x.Seq ≠ 0) :
    (truncateLogs acc logs)[j]? = some x := by
  unfold truncateLogs
  rw [List.getElem?_map, hx]
  simp only [Option.map_some', Option.some.injEq]
  by_cases h1 : x.Empty = true
  · rw [if_pos h1]
  · rw [if_neg h1, if_neg ha]

theorem forwardAll_ok_of_noConflict (off : Int) (st : List Record × TailBitmap)
    (logs : List Record) (hseq : ∀ r ∈ logs, off ≤ r.Seq) (hnc : NoConflict off st logs) :
    ∃ st1, forwardAll off st logs = .ok st1 := by
  cases hf : forwardAll off st logs with
  | ok st1 => exact ⟨st1, rfl⟩
  | error e =>
    exfalso
    apply hnc
    exact ((forwardAll_error_iff off logs st hseq).1).1 ⟨e, hf⟩

theorem followerX_acceptedHaveRecords : AcceptedHaveRecords followerX := by
  intro i h1 h2 _
  have h3 : followerX.Logs.length = 0 := by decide
  rw [h3] at h2
  simp only [Nat.cast_zero, add_zero] at h2
  omega

theorem reqX_noConflict :
    NoConflict followerX.LogOffset (discardUncommitted followerX reqX) reqX.Logs := by
  intro hc
  have hseq : ∀ r ∈ reqX.Logs, followerX.LogOffset ≤ r.Seq := by decide
  obtain ⟨e, he⟩ := ((forwardAll_error_iff followerX.LogOffset reqX.Logs
    (discardUncommitted followerX reqX) hseq).1).2 hc
  have hok : forwardAll followerX.LogOffset (discardUncommitted followerX reqX) reqX.Logs =
      .ok ([Record.zero, Record.zero, recordX2],
           { Offset := 0, Words := [6], aligned := by decide }) := by decide
  rw [hok] at he
  simp at he

/-- C12 (counterexample): the follower `followerX` has an empty log, so every
accepted seq inside its window has a record.  It accepts the request `reqX`,
whose only record is non-empty, has Seq 2 >= LogOffset and meets no conflicting
slot.  Afterwards seq 1 is in Accepted (through the Overrides of the record) and
inside the window, and Logs[1] is empty. -/
theorem accepted_seq_without_record :
    AcceptedHaveRecords followerX ∧
    (∀ r ∈ reqX.Logs, r.Empty = false ∧ followerX.LogOffset ≤ r.Seq) ∧
    NoConflict followerX.LogOffset (discardUncommitted followerX reqX) reqX.Logs ∧
    hdlLogForward followerX 0 reqX =
      .ok (replicaX 2 ⟨3, 1⟩ leaderLease ⟨3, 1⟩ [6] [Record.zero, Record.zero, recordX2],
           { OK := true, VotedFor := ⟨3, 1⟩
             Accepted := some { Offset := 0, Words := [6], aligned := by decide }
             Committed := some (NewTailBitmap 0) }) ∧
    ¬ AcceptedHaveRecords
      (replicaX 2 ⟨3, 1⟩ leaderLease ⟨3, 1⟩ [6] [Record.zero, Record.zero, recordX2]) := by
  refine ⟨followerX_acceptedHaveRecords, by decide, reqX_noConflict, by decide, ?_⟩
  intro h
  obtain ⟨x, hx, he, _⟩ := h 1 (by decide) (by decide) (by decide)
  have hx1 : x = Record.zero := by
    have : (replicaX 2 ⟨3, 1⟩ leaderLease ⟨3, 1⟩ [6]
        [Record.zero, Record.zero, recordX2]).Logs[((1 : Int) -
          (replicaX 2 ⟨3, 1⟩ leaderLease ⟨3, 1⟩ [6]
            [Record.zero, Record.zero, recordX2]).LogOffset).toNat]? = some Record.zero := by
      decide
    rw [this] at hx
    exact (Option.some.inj hx).symm
  rw [hx1] at he
  revert he
  decide

/-- C12 (amended): accepted seqs keep their records.  If before the call every
accepted seq inside the Logs window has a non-empty record with that Seq, then
for every accepted request whose records are non-empty, have Seq >= LogOffset
and sit at no conflicting slot, hdlLogForward replies OK=true and afterwards
Logs[i - LogOffset] holds a non-empty record with Seq = i for every i that is
the Seq of a request record, and for every i that was accepted and inside the
Logs window before the call (and is in Committed, when req.Committer is greater
than the follower's Committer). -/
theorem hdlLogForward_keeps_accepted_records (tr : TRaft) (now : Int) (req : LogForwardReq)
    (h1 : req.Committer = tr.Status.VotedFor) (h2 : now ≤ tr.Status.VoteExpireAt)
    (hne : ∀ r ∈ req.Logs, r.Empty = false) (hseq : ∀ r ∈ req.Logs, tr.LogOffset ≤ r.Seq)
    (hnc : NoConflict tr.LogOffset (discardUncommitted tr req) req.Logs)
    (hinv : AcceptedHaveRecords tr) :
    ∃ tr1 repl, hdlLogForward tr now req = .ok (tr1, repl) ∧ repl.OK = true ∧
      ∀ i : Int,
        ((∃ r ∈ req.Logs, r.Seq = i) ∨
         (InWindow tr i ∧ tr.Status.Accepted.Get i ≠ 0 ∧
           (LeaderId.lt tr.Status.Committer req.Committer → tr.Status.Committed.Get i ≠ 0))) →
        ∃ x, tr1.Logs[(i - tr1.LogOffset).toNat]? = some x ∧ x.Empty = false ∧ x.Seq = i := by
  obtain ⟨st1, hf⟩ := forwardAll_ok_of_noConflict tr.LogOffset _ req.Logs hseq hnc
  rw [hdlLogForward_of_accepted tr now req h1 h2, hf]
  refine ⟨_, _, rfl, rfl, ?_⟩
  intro i hi
  simp only
  rcases hi with ⟨r, hr, hri⟩ | ⟨hw, ha, hc⟩
  · obtain ⟨_, hs⟩ := forwardAll_stores tr.LogOffset req.Logs _ _ hf r hr (hne r hr)
    rw [← hri]
    exact ⟨r, trimTop_keeps _ _ _ hs (hne r hr), hne r hr, rfl⟩
  · obtain ⟨x, hx, he, hxs⟩ := hinv i hw.1 hw.2 ha
    refine ⟨x, ?_, he, hxs⟩
    apply trimTop_keeps _ _ _ _ he
    apply forwardAll_keeps tr.LogOffset req.Logs _ _ hf _ _ _ he
    unfold discardUncommitted
    split_ifs with hnew
    · simp only
      apply truncateLogs_keeps _ _ _ _ hx
      rw [hxs]
      exact hc ((LeaderId.Cmp_pos_iff _ _).1 hnew)
    · exact hx

theorem followerY_acceptedHaveRecords : AcceptedHaveRecords followerY := by
  intro i h1 h2 h3
  have h4 : followerY.LogOffset = 0 := rfl
  have h5 : followerY.Logs.length = 2 := rfl
  rw [h4] at h1 h2 ⊢
  rw [h5] at h2
  have h6 : i = 0 ∨ i = 1 := by omega
  rcases h6 with rfl | rfl
  · exact absurd (by decide) h3
  · exact ⟨recordX1, by decide, by decide, by decide⟩

theorem reqX_noConflict_followerY :
    NoConflict followerY.LogOffset (discardUncommitted followerY reqX) reqX.Logs := by
  intro hc
  have hseq : ∀ r ∈ reqX.Logs, followerY.LogOffset ≤ r.Seq := by decide
  obtain ⟨e, he⟩ := ((forwardAll_error_iff followerY.LogOffset reqX.Logs
    (discardUncommitted followerY reqX) hseq).1).2 hc
  have hok : forwardAll followerY.LogOffset (discardUncommitted followerY reqX) reqX.Logs =
      .ok ([Record.zero, recordX1, recordX2],
           { Offset := 0, Words := [6], aligned := by decide }) := by decide
  rw [hok] at he
  simp at he

theorem hdlLogForward_keeps_accepted_records_witness :
    AcceptedHaveRecords followerY ∧
    (InWindow followerY 1 ∧ followerY.Status.Accepted.Get 1 ≠ 0) ∧
    ∃ tr1 repl, hdlLogForward followerY 0 reqX = .ok (tr1, repl) ∧ repl.OK = true ∧
      (∃ x, tr1.Logs[((1 : Int) - tr1.LogOffset).toNat]? = some x ∧ x.Empty = false ∧
        x.Seq = 1) ∧
      (∃ x, tr1.Logs[((2 : Int) - tr1.LogOffset).toNat]? = some x ∧ x.Empty = false ∧
        x.Seq = 2) :=
  match hdlLogForward_keeps_accepted_records followerY 0 reqX (by decide) (by decide)
      (by decide) (by decide) reqX_noConflict_followerY followerY_acceptedHaveRecords with
  | ⟨tr1, repl, h1, h2, h3⟩ =>
    ⟨followerY_acceptedHaveRecords, by decide, tr1, repl, h1, h2,
      h3 1 (Or.inr ⟨by decide, by decide, fun hc => absurd hc (by decide)⟩),
      h3 2 (Or.inl ⟨recordX2, by decide, by decide⟩)⟩

/-! ## Quorum masks -/

theorem testBit_positionBit (p : Int) (hp : 0 ≤ p ∧ p < 64) (j : Nat) :
    (positionBit p).testBit j = true ↔ (j : Int) = p := by
  unfold positionBit
  rw [if_pos hp, Nat.testBit_two_pow]
  simp only [decide_eq_true_eq]
  omega

theorem maskOf_positionBit (p : Int) (hp : 0 ≤ p ∧ p < 64) : MaskOf (positionBit p) [p] := by
  intro j
  rw [testBit_positionBit p hp]
  simp

theorem maskOf_or (m : Nat) (ps : List Int) (p : Int) (hm : MaskOf m ps)
    (hp : 0 ≤ p ∧ p < 64) : MaskOf (m ||| positionBit p) (p :: ps) := by
  intro j
  rw [Nat.testBit_or, Bool.or_eq_true, hm j, testBit_positionBit p hp]
  simp only [List.mem_cons]
  tauto

theorem popcount_of_maskOf (m : Nat) (ps : List Int) (hm : MaskOf m ps)
    (hps : ∀ p ∈ ps, 0 ≤ p ∧ p < 64) : popcount m = ps.toFinset.card := by
  unfold popcount
  rw [List.countP_eq_length_filter,
    ← List.toFinset_card_of_nodup ((List.nodup_range 64).filter _),
    List.toFinset_filter]
  have himg : (List.range 64).toFinset.filter (fun j => m.testBit j = true) =
      ps.toFinset.image Int.toNat := by
    ext j
    simp only [Finset.mem_filter, List.mem_range, Finset.mem_image, List.mem_toFinset]
    constructor
    · rintro ⟨_, h2⟩
      exact ⟨(j : Int), (hm j).1 h2, by simp⟩
    · rintro ⟨p, hp, hpj⟩
      have := hps p hp
      refine ⟨by omega, (hm j).2 ?_⟩
      have : (j : Int) = p := by omega
      rw [this]; exact hp
  rw [himg]
  apply Finset.card_image_of_injOn
  intro a ha b hb hab
  simp only [Finset.coe_sort_coe, Finset.mem_coe, List.mem_toFinset] at ha hb
  have h1 := hps a ha
  have h2 := hps b hb
  omega

theorem isQuorum_iff (config : ClusterConfig) (m : Nat) (ps : List Int) (hm : MaskOf m ps)
    (hps : ∀ p ∈ ps, 0 ≤ p ∧ p < 64) :
    config.IsQuorum m = true ↔ MoreThanHalf config ps := by
  unfold ClusterConfig.IsQuorum MoreThanHalf
  rw [decide_eq_true_eq, popcount_of_maskOf m ps hm hps]
  omega

theorem moreThanHalf_congr (config : ClusterConfig) (ps qs : List Int)
    (h : ∀ p, p ∈ ps ↔ p ∈ qs) : MoreThanHalf config ps ↔ MoreThanHalf config qs := by
  unfold MoreThanHalf
  have : ps.toFinset = qs.toFinset := by
    ext p; simp [h p]
  rw [this]

theorem member_mem (config : ClusterConfig) (id : Int) (me : ReplicaInfo)
    (h : config.member id = some me) : me ∈ config.Members := by
  unfold ClusterConfig.member at h
  exact List.mem_of_find?_eq_some h

/-! ## VoteOnce -/

theorem grantPositions_cons (c : LeaderId) (res : voteRes) (l : List voteRes) :
    grantPositions c (res :: l) =
      if res.reply.VotedFor = c then res.frm.Position :: grantPositions c l
      else grantPositions c l := by
  unfold grantPositions
  by_cases h : res.reply.VotedFor = c
  · simp [List.filter_cons, h]
  · simp [List.filter_cons, h]

theorem voteOnceLoop_nil (c : LeaderId) (ls : LogStatus) (cfg : ClusterConfig) (w : Nat)
    (vars : VoteOnceVars) : (voteOnceLoop c ls cfg w vars []).1 = false := by
  cases w with
  | zero =>
    simp only [voteOnceLoop]
    cases vars.logErr <;> rfl
  | succ w => simp only [voteOnceLoop]

theorem voteOnceLoop_zero (c : LeaderId) (ls : LogStatus) (cfg : ClusterConfig)
    (vars : VoteOnceVars) (l : List voteRes) :
    voteOnceLoop c ls cfg 0 vars l =
      (false, some (vars.logErr.getD Err.ErrStaleTerm), vars.higherTerm) := by
  simp only [voteOnceLoop]
  cases vars.logErr <;> rfl

/-- A winning run returns `(true, nil, -1)`. -/
theorem voteOnceLoop_true (c : LeaderId) (ls : LogStatus) (cfg : ClusterConfig) :
    ∀ (l : List voteRes) (w : Nat) (vars : VoteOnceVars),
      (voteOnceLoop c ls cfg w vars l).1 = true →
      voteOnceLoop c ls cfg w vars l = (true, none, -1) := by
  intro l
  induction l with
  | nil =>
    intro w vars h
    rw [voteOnceLoop_nil] at h
    simp at h
  | cons res rest ih =>
    intro w vars h
    cases w with
    | zero => rw [voteOnceLoop_zero] at h; simp at h
    | succ w =>
      simp only [voteOnceLoop] at h ⊢
      by_cases hg : res.reply.VotedFor = c
      · rw [if_pos hg] at h ⊢
        by_cases hq : cfg.IsQuorum (vars.received ||| positionBit res.frm.Position) = true
        · rw [if_pos hq]
        · rw [if_neg hq] at h ⊢
          exact ih _ _ h
      · rw [if_neg hg] at h ⊢
        exact ih _ _ h

/-- Once a run has won, what arrives later is not looked at. -/
theorem voteOnceLoop_append (c : LeaderId) (ls : LogStatus) (cfg : ClusterConfig) :
    ∀ (l : List voteRes) (w : Nat) (vars : VoteOnceVars) (later : List voteRes),
      (voteOnceLoop c ls cfg w vars l).1 = true →
      voteOnceLoop c ls cfg w vars (l ++ later) = voteOnceLoop c ls cfg w vars l := by
  intro l
  induction l with
  | nil =>
    intro w vars later h
    rw [voteOnceLoop_nil] at h
    simp at h
  | cons res rest ih =>
    intro w vars later h
    cases w with
    | zero => rw [voteOnceLoop_zero] at h; simp at h
    | succ w =>
      simp only [List.cons_append, voteOnceLoop] at h ⊢
      by_cases hg : res.reply.VotedFor = c
      · simp only [if_pos hg] at h ⊢
        by_cases hq : cfg.IsQuorum (vars.received ||| positionBit res.frm.Position) = true
        · simp only [if_pos hq]
        · simp only [if_neg hq] at h ⊢
          exact ih _ _ later h
      · simp only [if_neg hg] at h ⊢
        exact ih _ _ later h

theorem voteOnceLoop_wins_iff (c : LeaderId) (ls : LogStatus) (cfg : ClusterConfig)
    (hfit : cfg.PositionsFit) :
    ∀ (l : List voteRes) (w : Nat) (vars : VoteOnceVars) (seen : List Int),
      MaskOf vars.received seen → (∀ p ∈ seen, 0 ≤ p ∧ p < 64) →
      (∀ res ∈ l, res.frm ∈ cfg.Members) → l.length ≤ w →
      ((voteOnceLoop c ls cfg w vars l).1 = true ↔
        ∃ pre res post, l = pre ++ res :: post ∧ res.reply.VotedFor = c ∧
          MoreThanHalf cfg (grantPositions c (pre ++ [res]) ++ seen)) := by
  intro l
  induction l with
  | nil =>
    intro w vars seen _ _ _ _
    rw [voteOnceLoop_nil]
    simp
  | cons res rest ih =>
    intro w vars seen hmask hseen hfrm hlen
    cases w with
    | zero => simp at hlen
    | succ w =>
      have hp : 0 ≤ res.frm.Position ∧ res.frm.Position < 64 :=
        hfit res.frm (hfrm res (by simp))
      have hfrm1 : ∀ x ∈ rest, x.frm ∈ cfg.Members := fun x hx => hfrm x (by simp [hx])
      have hlen1 : rest.length ≤ w := by simpa using hlen
      simp only [voteOnceLoop]
      by_cases hg : res.reply.VotedFor = c
      · rw [if_pos hg]
        have hm1 := maskOf_or _ _ _ hmask hp
        have hseen1 : ∀ p ∈ res.frm.Position :: seen, 0 ≤ p ∧ p < 64 := by
          intro p hpm
          simp only [List.mem_cons] at hpm
          rcases hpm with rfl | hpm
          · exact hp
          · exact hseen p hpm
        have hq1 := isQuorum_iff cfg _ _ hm1 hseen1
        by_cases hq : cfg.IsQuorum (vars.received ||| positionBit res.frm.Position) = true
        · rw [if_pos hq]
          simp only [true_iff]
          refine ⟨[], res, rest, rfl, hg, ?_⟩
          have : grantPositions c ([] ++ [res]) ++ seen = res.frm.Position :: seen := by
            simp [grantPositions_cons, hg, grantPositions]
          rw [this]
          exact hq1.1 hq
        · rw [if_neg hq]
          rw [ih w _ (res.frm.Position :: seen) hm1 hseen1 hfrm1 hlen1]
          constructor
          · rintro ⟨pre, x, post, h1, h2, h3⟩
            refine ⟨res :: pre, x, post, by rw [h1]; rfl, h2, ?_⟩
            refine (moreThanHalf_congr cfg _ _ ?_).1 h3
            intro p
            simp only [List.cons_append, grantPositions_cons, hg, if_true, List.mem_append,
              List.mem_cons]
            tauto
          · rintro ⟨pre, x, post, h1, h2, h3⟩
            cases pre with
            | nil =>
              simp only [List.nil_append, List.cons.injEq] at h1
              exfalso
              apply hq
              apply hq1.2
              rw [← h1.1] at h3
              have : grantPositions c ([] ++ [res]) ++ seen = res.frm.Position :: seen := by
                simp [grantPositions_cons, hg, grantPositions]
              rw [this] at h3
              exact h3
            | cons y pre =>
              simp only [List.cons_append, List.cons.injEq] at h1
              obtain ⟨h1a, h1b⟩ := h1
              subst h1a
              refine ⟨pre, x, post, h1b, h2, ?_⟩
              refine (moreThanHalf_congr cfg _ _ ?_).1 h3
              intro p
              simp only [List.cons_append, grantPositions_cons, hg, if_true, List.mem_append,
                List.mem_cons]
              tauto
      · rw [if_neg hg]
        refine Iff.trans (ih w _ seen ?_ hseen hfrm1 hlen1) ?_
        · exact hmask
        constructor
        · rintro ⟨pre, x, post, h1, h2, h3⟩
          refine ⟨res :: pre, x, post, by rw [h1]; rfl, h2, ?_⟩
          simpa only [List.cons_append, grantPositions_cons, hg, if_false] using h3
        · rintro ⟨pre, x, post, h1, h2, h3⟩
          cases pre with
          | nil =>
            simp only [List.nil_append, List.cons.injEq] at h1
            rw [← h1.1] at h2
            exact absurd h2 hg
          | cons y pre =>
            simp only [List.cons_append, List.cons.injEq] at h1
            obtain ⟨h1a, h1b⟩ := h1
            subst h1a
            refine ⟨pre, x, post, h1b, h2, ?_⟩
            simpa only [List.cons_append, grantPositions_cons, hg, if_false] using h3

theorem VoteOnce_of_member (c : LeaderId) (ls : LogStatus) (cfg : ClusterConfig)
    (me : ReplicaInfo) (l : List voteRes) (hme : cfg.member c.Id = some me) :
    VoteOnce c ls cfg l =
      .ok (voteOnceLoop c ls cfg (cfg.Members.length - 1)
            { received := positionBit me.Position, higherTerm := -1, logErr := none } l) := by
  unfold VoteOnce
  rw [hme]

/-- VoteOnce wins exactly when some reply completes a quorum of grants. -/
theorem VoteOnce_true_iff (c : LeaderId) (ls : LogStatus) (cfg : ClusterConfig)
    (me : ReplicaInfo) (l : List voteRes) (hme : cfg.member c.Id = some me)
    (hfit : cfg.PositionsFit) (hfrm : ∀ res ∈ l, res.frm ∈ cfg.Members)
    (hlen : l.length ≤ cfg.Members.length - 1) :
    VoteOnce c ls cfg l = .ok (true, none, -1) ↔ GrantQuorumAt c cfg me l := by
  have hp := hfit me (member_mem cfg c.Id me hme)
  have hseen : ∀ p ∈ [me.Position], 0 ≤ p ∧ p < 64 := by
    intro p hpm
    simp only [List.mem_singleton] at hpm
    rw [hpm]; exact hp
  have hiff := voteOnceLoop_wins_iff c ls cfg hfit l (cfg.Members.length - 1)
    { received := positionBit me.Position, higherTerm := -1, logErr := none } [me.Position]
    (maskOf_positionBit me.Position hp) hseen hfrm hlen
  rw [VoteOnce_of_member c ls cfg me l hme]
  unfold GrantQuorumAt
  constructor
  · intro h
    simp only [Except.ok.injEq] at h
    obtain ⟨pre, res, post, h1, h2, h3⟩ := hiff.1 (by rw [h])
    refine ⟨pre, res, post, h1, h2, (moreThanHalf_congr cfg _ _ ?_).1 h3⟩
    intro p
    simp only [List.mem_append, List.mem_singleton, List.mem_cons]
    tauto
  · rintro ⟨pre, res, post, h1, h2, h3⟩
    have h4 := hiff.2 ⟨pre, res, post, h1, h2, (moreThanHalf_congr cfg _ _ (by
      intro p
      simp only [List.mem_append, List.mem_singleton, List.mem_cons]
      tauto)).1 h3⟩
    rw [voteOnceLoop_true c ls cfg _ _ _ h4]

/-- The grants of a run that holds a grant are those up to its last grant. -/
theorem grantPositions_last (c : LeaderId) :
    ∀ p : List voteRes, (∃ res ∈ p, res.reply.VotedFor = c) →
      ∃ pre res post, p = pre ++ res :: post ∧ res.reply.VotedFor = c ∧
        grantPositions c p = grantPositions c (pre ++ [res]) := by
  intro p
  induction p using List.reverseRecOn with
  | nil => rintro ⟨res, h, _⟩; simp at h
  | append_singleton q a ih =>
    rintro ⟨res, hres, hg⟩
    by_cases ha : a.reply.VotedFor = c
    · exact ⟨q, a, [], rfl, ha, rfl⟩
    · have hq : ∃ res ∈ q, res.reply.VotedFor = c := by
        simp only [List.mem_append, List.mem_singleton] at hres
        rcases hres with h | h
        · exact ⟨res, h, hg⟩
        · rw [h] at hg; exact absurd hg ha
      obtain ⟨pre, r, post, h1, h2, h3⟩ := ih hq
      refine ⟨pre, r, post ++ [a], by rw [h1]; simp, h2, ?_⟩
      rw [← h3]
      unfold grantPositions
      simp [List.filter_append, List.filter_cons, ha]

/-- Some reply completes a quorum of grants exactly when some initial part of
the run holds granting replies from members whose positions, with the
candidate's own, number more than half of the members. -/
theorem grantQuorumAt_iff_initial (c : LeaderId) (cfg : ClusterConfig) (me : ReplicaInfo)
    (replies : List voteRes) :
    GrantQuorumAt c cfg me replies ↔
      ∃ p rest, replies = p ++ rest ∧ (∃ res ∈ p, res.reply.VotedFor = c) ∧
        MoreThanHalf cfg (me.Position :: grantPositions c p) := by
  constructor
  · rintro ⟨pre, res, post, h1, h2, h3⟩
    exact ⟨pre ++ [res], post, by rw [h1]; simp, ⟨res, by simp, h2⟩, h3⟩
  · rintro ⟨p, rest, h1, h2, h3⟩
    obtain ⟨pre, res, post, h4, h5, h6⟩ := grantPositions_last c p h2
    refine ⟨pre, res, post ++ rest, by rw [h1, h4]; simp, h5, ?_⟩
    rw [← h6]
    exact h3

/-- C14: VoteOnce wins exactly on a quorum of grants.  On the run in which the
replies of the other members arrive in the given order (at most N-1 of them,
from members whose positions fit the mask), VoteOnce returns (true, nil, -1) if
and only if some initial part of the run holds replies with VotedFor equal to
the candidate from members whose positions, with the candidate's own position,
number more than half of the N members, that is, if and only if some reply
grants the vote and completes such a quorum; a winning run returns exactly
(true, nil, -1), and it returns at the first reply completing such a quorum,
whatever arrives later. -/
theorem VoteOnce_wins_iff_quorum (c : LeaderId) (ls : LogStatus) (cfg : ClusterConfig)
    (me : ReplicaInfo) (replies : List voteRes) (hme : cfg.member c.Id = some me)
    (hfit : cfg.PositionsFit) (hfrm : ∀ res ∈ replies, res.frm ∈ cfg.Members)
    (hlen : replies.length ≤ cfg.Members.length - 1) :
    (VoteOnce c ls cfg replies = .ok (true, none, -1) ↔
      ∃ p rest, replies = p ++ rest ∧ (∃ res ∈ p, res.reply.VotedFor = c) ∧
        MoreThanHalf cfg (me.Position :: grantPositions c p)) ∧
    (VoteOnce c ls cfg replies = .ok (true, none, -1) ↔ GrantQuorumAt c cfg me replies) ∧
    (∀ out, VoteOnce c ls cfg replies = .ok out → out.1 = true → out = (true, none, -1)) ∧
    (∀ pre res post, replies = pre ++ res :: post → res.reply.VotedFor = c →
      MoreThanHalf cfg (me.Position :: grantPositions c (pre ++ [res])) →
      ∀ later, VoteOnce c ls cfg (pre ++ res :: later) = .ok (true, none, -1)) := by
  refine ⟨(VoteOnce_true_iff c ls cfg me replies hme hfit hfrm hlen).trans
      (grantQuorumAt_iff_initial c cfg me replies),
    VoteOnce_true_iff c ls cfg me replies hme hfit hfrm hlen, ?_, ?_⟩
  · intro out h hout
    rw [VoteOnce_of_member c ls cfg me replies hme] at h
    simp only [Except.ok.injEq] at h
    rw [← h] at hout ⊢
    exact voteOnceLoop_true c ls cfg _ _ _ hout
  · intro pre res post hl hg hq later
    have hfrm1 : ∀ x ∈ pre ++ [res], x.frm ∈ cfg.Members := by
      intro x hx
      apply hfrm x
      rw [hl]
      simp only [List.mem_append, List.mem_singleton, List.mem_cons] at hx ⊢
      tauto
    have hlen1 : (pre ++ [res]).length ≤ cfg.Members.length - 1 := by
      rw [hl] at hlen
      simp only [List.length_append, List.length_cons, List.length_singleton,
        List.length_nil] at hlen ⊢
      omega
    have h1 := (VoteOnce_true_iff c ls cfg me (pre ++ [res]) hme hfit hfrm1 hlen1).2
      ⟨pre, res, [], rfl, hg, hq⟩
    rw [VoteOnce_of_member c ls cfg me _ hme] at h1 ⊢
    simp only [Except.ok.injEq] at h1 ⊢
    have h2 := voteOnceLoop_append c ls cfg (pre ++ [res]) _ _ later (by rw [h1])
    have h3 : pre ++ res :: later = pre ++ [res] ++ later := by simp
    rw [h3, h2, h1]

theorem VoteOnce_wins_iff_quorum_witness :
    (VoteOnce ⟨1, 1⟩ (ExportLogStatus (freshReplica 1).Status) config3 (freshReplies ⟨1, 1⟩)
        = .ok (true, none, -1) ↔
      GrantQuorumAt ⟨1, 1⟩ config3 ⟨1, "a1", 0⟩ (freshReplies ⟨1, 1⟩)) ∧
    VoteOnce ⟨1, 1⟩ (ExportLogStatus (freshReplica 1).Status) config3 (freshReplies ⟨1, 1⟩)
        = .ok (true, none, -1) :=
  ⟨(VoteOnce_wins_iff_quorum ⟨1, 1⟩ (ExportLogStatus (freshReplica 1).Status) config3
      ⟨1, "a1", 0⟩ (freshReplies ⟨1, 1⟩) (by decide) (by decide) (by decide) (by decide)).2.1,
   by decide⟩

/-! ## VoteOnce: the failing run -/

theorem higherTermFold_spec (c : LeaderId) :
    ∀ (l : List voteRes) (h : Int),
      h ≤ higherTermFold c h l ∧ (∀ t ∈ higherTerms c l, t ≤ higherTermFold c h l) ∧
      (higherTermFold c h l = h ∨ higherTermFold c h l ∈ higherTerms c l) := by
  intro l
  induction l with
  | nil => intro h; simp [higherTermFold, higherTerms]
  | cons res rest ih =>
    intro h
    unfold higherTermFold
    by_cases hc : res.reply.VotedFor ≠ c ∧ res.reply.VotedFor.Term > c.Term
    · rw [if_pos hc]
      obtain ⟨h1, h2, h3⟩ := ih (max h res.reply.VotedFor.Term)
      have hT : higherTerms c (res :: rest) = res.reply.VotedFor.Term :: higherTerms c rest := by
        unfold higherTerms
        rw [List.filter_cons, if_pos (by simpa using hc)]
        rfl
      rw [hT]
      refine ⟨le_trans (le_max_left _ _) h1, ?_, ?_⟩
      · intro t ht
        simp only [List.mem_cons] at ht
        rcases ht with rfl | ht
        · exact le_trans (le_max_right _ _) h1
        · exact h2 t ht
      · rcases h3 with h3 | h3
        · rw [h3]
          rcases max_choice h res.reply.VotedFor.Term with h4 | h4
          · exact Or.inl h4
          · right; rw [h4]; simp
        · right; simp [h3]
    · rw [if_neg hc]
      have hT : higherTerms c (res :: rest) = higherTerms c rest := by
        unfold higherTerms
        rw [List.filter_cons, if_neg (by simpa using hc)]
      rw [hT]
      exact ih h

theorem voteOnceLoop_fail (c : LeaderId) (ls : LogStatus) (cfg : ClusterConfig) :
    ∀ (l : List voteRes) (w : Nat) (vars : VoteOnceVars),
      l.length = w → (voteOnceLoop c ls cfg w vars l).1 = false →
      ∃ e, voteOnceLoop c ls cfg w vars l = (false, some e, higherTermFold c vars.higherTerm l) ∧
        (SomeStaleLog c ls l → e = Err.ErrStaleLog) ∧
        (¬ SomeStaleLog c ls l → e = vars.logErr.getD Err.ErrStaleTerm) := by
  intro l
  induction l with
  | nil =>
    intro w vars hw _
    simp only [List.length_nil] at hw
    subst hw
    rw [voteOnceLoop_zero]
    refine ⟨_, rfl, ?_, fun _ => rfl⟩
    rintro ⟨res, hres, _⟩
    simp at hres
  | cons res rest ih =>
    intro w vars hw h
    cases w with
    | zero => simp at hw
    | succ w =>
      have hw1 : rest.length = w := by simpa using hw
      simp only [voteOnceLoop] at h ⊢
      by_cases hg : res.reply.VotedFor = c
      · simp only [if_pos hg] at h ⊢
        by_cases hq : cfg.IsQuorum (vars.received ||| positionBit res.frm.Position) = true
        · simp only [if_pos hq] at h
          simp at h
        · simp only [if_neg hq] at h ⊢
          obtain ⟨e, h1, h2, h3⟩ := ih w _ hw1 h
          have hst : SomeStaleLog c ls (res :: rest) ↔ SomeStaleLog c ls rest := by
            unfold SomeStaleLog
            simp only [List.mem_cons, exists_eq_or_imp]
            constructor
            · rintro (⟨hh, _⟩ | hh)
              · exact absurd hg hh
              · exact hh
            · intro hh; exact Or.inr hh
          refine ⟨e, ?_, ?_, ?_⟩
          · rw [h1]
            simp only [higherTermFold, ne_eq, hg, not_true_eq_false, false_and, if_false]
          · intro hs; exact h2 (hst.1 hs)
          · intro hs; exact h3 (fun hh => hs (hst.2 hh))
      · simp only [if_neg hg] at h ⊢
        obtain ⟨e, h1, h2, h3⟩ := ih w _ hw1 h
        refine ⟨e, ?_, ?_, ?_⟩
        · rw [h1]
          simp only [higherTermFold, ne_eq, hg, not_false_eq_true, true_and]
        · intro hs
          by_cases hrest : SomeStaleLog c ls rest
          · exact h2 hrest
          · rw [h3 hrest]
            unfold SomeStaleLog at hs hrest
            simp only [List.mem_cons, exists_eq_or_imp] at hs
            rcases hs with ⟨_, hh⟩ | hh
            · rw [if_pos ((CmpLogStatus_pos_iff _ _).2 hh)]
              rfl
            · exact absurd hh hrest
        · intro hs
          have hrest : ¬ SomeStaleLog c ls rest := by
            intro hh
            apply hs
            obtain ⟨x, hx, hx2⟩ := hh
            exact ⟨x, by simp [hx], hx2⟩
          rw [h3 hrest]
          have hres : ¬ LogStatus.lt ls res.reply.logStat := by
            intro hh
            apply hs
            exact ⟨res, by simp, hg, hh⟩
          rw [if_neg (fun hh => hres ((CmpLogStatus_pos_iff _ _).1 hh))]

/-- C15: VoteOnce failure result.  When all N-1 replies arrive and no reply
completes a quorum of grants, VoteOnce returns voted = false, with error
ErrStaleLog if some non-granting reply's log status (Committer, then
Accepted.Len()) is strictly greater than the candidate's and ErrStaleTerm
otherwise, and with higherTerm equal to the maximum VotedFor.Term over the
non-granting replies whose Term exceeds the candidate's Term, or -1 when there
is none (the candidate's Term being at least -1). -/
theorem VoteOnce_failure_result (c : LeaderId) (ls : LogStatus) (cfg : ClusterConfig)
    (me : ReplicaInfo) (replies : List voteRes) (hme : cfg.member c.Id = some me)
    (hfit : cfg.PositionsFit) (hfrm : ∀ res ∈ replies, res.frm ∈ cfg.Members)
    (hall : replies.length = cfg.Members.length - 1)
    (hnq : ¬ GrantQuorumAt c cfg me replies) (hterm : -1 ≤ c.Term) :
    ∃ e higherTerm, VoteOnce c ls cfg replies = .ok (false, some e, higherTerm) ∧
      (SomeStaleLog c ls replies → e = Err.ErrStaleLog) ∧
      (¬ SomeStaleLog c ls replies → e = Err.ErrStaleTerm) ∧
      (higherTerms c replies = [] → higherTerm = -1) ∧
      (higherTerms c replies ≠ [] →
        higherTerm ∈ higherTerms c replies ∧ ∀ t ∈ higherTerms c replies, t ≤ higherTerm) := by
  have hne : VoteOnce c ls cfg replies ≠ .ok (true, none, -1) := fun hh =>
    hnq ((VoteOnce_true_iff c ls cfg me replies hme hfit hfrm (le_of_eq hall)).1 hh)
  rw [VoteOnce_of_member c ls cfg me replies hme] at hne ⊢
  have hfalse : (voteOnceLoop c ls cfg (cfg.Members.length - 1)
      { received := positionBit me.Position, higherTerm := -1, logErr := none } replies).1
      = false := by
    by_contra hc
    apply hne
    rw [voteOnceLoop_true c ls cfg _ _ _ (by simpa using hc)]
  obtain ⟨e, h1, h2, h3⟩ := voteOnceLoop_fail c ls cfg replies _ _ hall hfalse
  obtain ⟨_, h5, h6⟩ := higherTermFold_spec c replies (-1)
  refine ⟨e, _, by rw [h1], h2, h3, ?_, ?_⟩
  · intro hT
    rcases h6 with h6 | h6
    · exact h6
    · rw [hT] at h6; simp at h6
  · intro hT
    refine ⟨?_, h5⟩
    rcases h6 with h6 | h6
    · exfalso
      obtain ⟨t, ht⟩ := List.exists_mem_of_ne_nil _ hT
      have h7 := h5 t ht
      rw [h6] at h7
      unfold higherTerms at ht
      simp only [List.mem_map, List.mem_filter, decide_eq_true_eq] at ht
      obtain ⟨res, ⟨_, _, h8⟩, h9⟩ := ht
      omega
    · exact h6

theorem VoteOnce_failure_result_witness :
    ∃ e higherTerm,
      VoteOnce ⟨1, 1⟩ (ExportLogStatus (freshReplica 1).Status) config3
          [⟨⟨2, "a2", 1⟩, { VotedFor := ⟨3, 2⟩, Committer := ⟨0, 0⟩,
                             Accepted := NewTailBitmap 0, Logs := [] }⟩,
           ⟨⟨3, "a3", 2⟩, { VotedFor := ⟨5, 3⟩, Committer := ⟨0, 0⟩,
                             Accepted := NewTailBitmap 0, Logs := [] }⟩]
        = .ok (false, some e, higherTerm) ∧
      (higherTerms ⟨1, 1⟩
          [⟨⟨2, "a2", 1⟩, { VotedFor := ⟨3, 2⟩, Committer := ⟨0, 0⟩,
                             Accepted := NewTailBitmap 0, Logs := [] }⟩,
           ⟨⟨3, "a3", 2⟩, { VotedFor := ⟨5, 3⟩, Committer := ⟨0, 0⟩,
                             Accepted := NewTailBitmap 0, Logs := [] }⟩] ≠ [] →
        higherTerm ∈ [3, 5] ∧ ∀ t ∈ [3, 5], t ≤ higherTerm) :=
  match VoteOnce_failure_result ⟨1, 1⟩ (ExportLogStatus (freshReplica 1).Status) config3
      ⟨1, "a1", 0⟩
      [⟨⟨2, "a2", 1⟩, { VotedFor := ⟨3, 2⟩, Committer := ⟨0, 0⟩,
                         Accepted := NewTailBitmap 0, Logs := [] }⟩,
       ⟨⟨3, "a3", 2⟩, { VotedFor := ⟨5, 3⟩, Committer := ⟨0, 0⟩,
                         Accepted := NewTailBitmap 0, Logs := [] }⟩]
      (by decide) (by decide) (by decide) (by decide) (by
        intro h
        have h1 := (VoteOnce_true_iff ⟨1, 1⟩ (ExportLogStatus (freshReplica 1).Status) config3
          ⟨1, "a1", 0⟩ _ (by decide) (by decide) (by decide) (by decide)).2 h
        revert h1
        decide) (by decide) with
  | ⟨e, ht, h1, _, _, _, h5⟩ => ⟨e, ht, h1, h5⟩

/-! ## VoteLoop -/

/-- C13 (the code at the failing input): the candidate 2#2 of replica 2 (committer
1#1, log 5) asks the voter of the first case of TestTRaft_Vote, which grants the
vote and ships the record at seq 6.  VoteOnce wins with this one reply, and after
VoteLoop has written the win back the replica has VotedFor 2#2 and a lease, while
its Committer is still 1#1, its Logs still hold the record 5 only and seq 6 is
not in Accepted. -/
theorem VoteLoop_win_absorbs_nothing :
    Vote voterA reqA =
      .ok ({ voterA with Status := { voterA.Status with VotedFor := ⟨2, 2⟩ } }, replyA) ∧
    reqA = { Candidate := candidateA.Status.VotedFor, Committer := candidateA.Status.Committer,
             Accepted := candidateA.Status.Accepted } ∧
    VoteOnce ⟨2, 2⟩ (ExportLogStatus candidateA.Status) config3 [⟨⟨1, "a1", 0⟩, replyA⟩]
      = .ok (true, none, -1) ∧
    voteLoopElect candidateA (ExportLeaderStatus candidateA.Status) config3
        [⟨⟨1, "a1", 0⟩, replyA⟩] 7000000
      = .ok ({ candidateA with
                Status := { candidateA.Status with VoteExpireAt := 7000000 + leaderLease } },
             ⟨⟨2, 2⟩, 7000000 + leaderLease⟩) ∧
    candidateA.Status.Committer = ⟨1, 1⟩ ∧
    candidateA.Logs = [pseudoRecord ⟨1, 1⟩ 5] ∧
    candidateA.Status.Accepted.Get 6 = 0 := by
  decide

/-- C16 (the code at the failing input): the run of
TestTRaft_VoteOnce/2emptyVoter/term-0.  The candidate 0#1 is rejected by the
voters that voted for 0#2 and 0#3; no reply has a Term above 0, so VoteOnce
returns ErrStaleTerm with higherTerm = -1 (the test expects 0), and the Term
higherTerm + 1 that VoteLoop adopts is 0 again. -/
theorem VoteOnce_stale_term_not_raised :
    freshReplies ⟨0, 1⟩ =
      [⟨⟨2, "a2", 1⟩, { VotedFor := ⟨0, 2⟩, Committer := ⟨0, 0⟩,
                         Accepted := NewTailBitmap 0, Logs := [] }⟩,
       ⟨⟨3, "a3", 2⟩, { VotedFor := ⟨0, 3⟩, Committer := ⟨0, 0⟩,
                         Accepted := NewTailBitmap 0, Logs := [] }⟩] ∧
    VoteOnce ⟨0, 1⟩ (ExportLogStatus (freshReplica 1).Status) config3 (freshReplies ⟨0, 1⟩)
      = .ok (false, some Err.ErrStaleTerm, -1) ∧
    voteLoopElect (freshReplica 1) ⟨⟨0, 1⟩, 0⟩ config3 (freshReplies ⟨0, 1⟩) 7000000
      = .ok (freshReplica 1, ⟨⟨0, 1⟩, 0⟩) := by
  decide

/-! ## forwardLog -/

theorem ackPositions_cons (res : forwardRes) (l : List forwardRes) :
    ackPositions (res :: l) =
      if res.acks = true then res.frm.Position :: ackPositions l else ackPositions l := by
  unfold ackPositions
  by_cases h : res.acks = true
  · simp [List.filter_cons, h]
  · simp [List.filter_cons, h]

/-- One pass of the loop: a result that acknowledges sets its bit and is checked
for a quorum, any other result leaves `received` as it is. -/
theorem forwardLoop_cons (cfg : ClusterConfig) (committer : LeaderId) (lsns : Int × Int)
    (ok : Bool) (w received : Nat) (res : forwardRes) (rest : List forwardRes) :
    forwardLoop cfg committer lsns ok (w + 1) received (res :: rest) =
      if res.acks = true then
        if cfg.IsQuorum (received ||| positionBit res.frm.Position) = true then
          { callbacks := [if ok then none else some Err.ErrLeaderLost]
            commits := [(committer, lsns)] }
        else forwardLoop cfg committer lsns ok w (received ||| positionBit res.frm.Position) rest
      else forwardLoop cfg committer lsns ok w received rest := by
  rw [forwardLoop]
  unfold forwardRes.acks
  cases h : res.reply with
  | none => simp
  | some reply =>
    by_cases h1 : reply.OK = true
    · simp [h1]
    · simp [h1]

theorem forwardLoop_nil (cfg : ClusterConfig) (committer : LeaderId) (lsns : Int × Int)
    (ok : Bool) (w received : Nat) :
    (forwardLoop cfg committer lsns ok w received []).commits = [] := by
  cases w <;> simp [forwardLoop]

theorem forwardLoop_zero (cfg : ClusterConfig) (committer : LeaderId) (lsns : Int × Int)
    (ok : Bool) (received : Nat) (l : List forwardRes) :
    forwardLoop cfg committer lsns ok 0 received l = { callbacks := [], commits := [] } := by
  simp [forwardLoop]

/-- The loop submits one commit, of `lsns` under `committer`, or none. -/
theorem forwardLoop_commits (cfg : ClusterConfig) (committer : LeaderId) (lsns : Int × Int)
    (ok : Bool) :
    ∀ (l : List forwardRes) (w received : Nat),
      (forwardLoop cfg committer lsns ok w received l).commits = [] ∨
      forwardLoop cfg committer lsns ok w received l =
        { callbacks := [if ok then none else some Err.ErrLeaderLost]
          commits := [(committer, lsns)] } := by
  intro l
  induction l with
  | nil => intro w received; exact Or.inl (forwardLoop_nil _ _ _ _ _ _)
  | cons res rest ih =>
    intro w received
    cases w with
    | zero => rw [forwardLoop_zero]; exact Or.inl rfl
    | succ w =>
      rw [forwardLoop_cons]
      by_cases hg : res.acks = true
      · rw [if_pos hg]
        by_cases hq : cfg.IsQuorum (received ||| positionBit res.frm.Position) = true
        · rw [if_pos hq]; exact Or.inr rfl
        · rw [if_neg hq]; exact ih _ _
      · rw [if_neg hg]; exact ih _ _

theorem forwardLoop_append (cfg : ClusterConfig) (committer : LeaderId) (lsns : Int × Int)
    (ok : Bool) :
    ∀ (l : List forwardRes) (w received : Nat) (later : List forwardRes),
      (forwardLoop cfg committer lsns ok w received l).commits ≠ [] →
      forwardLoop cfg committer lsns ok w received (l ++ later) =
        forwardLoop cfg committer lsns ok w received l := by
  intro l
  induction l with
  | nil =>
    intro w received later h
    exact absurd (forwardLoop_nil _ _ _ _ _ _) h
  | cons res rest ih =>
    intro w received later h
    cases w with
    | zero => rw [forwardLoop_zero] at h; simp at h
    | succ w =>
      simp only [List.cons_append, forwardLoop_cons] at h ⊢
      by_cases hg : res.acks = true
      · simp only [if_pos hg] at h ⊢
        by_cases hq : cfg.IsQuorum (received ||| positionBit res.frm.Position) = true
        · simp only [if_pos hq]
        · simp only [if_neg hq] at h ⊢
          exact ih _ _ later h
      · simp only [if_neg hg] at h ⊢
        exact ih _ _ later h

theorem forwardLoop_commits_iff (cfg : ClusterConfig) (committer : LeaderId)
    (lsns : Int × Int) (ok : Bool) (hfit : cfg.PositionsFit) :
    ∀ (l : List forwardRes) (w received : Nat) (seen : List Int),
      MaskOf received seen → (∀ p ∈ seen, 0 ≤ p ∧ p < 64) →
      (∀ res ∈ l, res.frm ∈ cfg.Members) → l.length ≤ w →
      ((forwardLoop cfg committer lsns ok w received l).commits ≠ [] ↔
        ∃ pre res post, l = pre ++ res :: post ∧ res.acks = true ∧
          MoreThanHalf cfg (ackPositions (pre ++ [res]) ++ seen)) := by
  intro l
  induction l with
  | nil =>
    intro w received seen _ _ _ _
    rw [forwardLoop_nil]
    simp
  | cons res rest ih =>
    intro w received seen hmask hseen hfrm hlen
    cases w with
    | zero => simp at hlen
    | succ w =>
      have hp : 0 ≤ res.frm.Position ∧ res.frm.Position < 64 :=
        hfit res.frm (hfrm res (by simp))
      have hfrm1 : ∀ x ∈ rest, x.frm ∈ cfg.Members := fun x hx => hfrm x (by simp [hx])
      have hlen1 : rest.length ≤ w := by simpa using hlen
      rw [forwardLoop_cons]
      by_cases hg : res.acks = true
      · rw [if_pos hg]
        have hm1 := maskOf_or _ _ _ hmask hp
        have hseen1 : ∀ p ∈ res.frm.Position :: seen, 0 ≤ p ∧ p < 64 := by
          intro p hpm
          simp only [List.mem_cons] at hpm
          rcases hpm with rfl | hpm
          · exact hp
          · exact hseen p hpm
        have hq1 := isQuorum_iff cfg _ _ hm1 hseen1
        have hone : ackPositions ([] ++ [res]) ++ seen = res.frm.Position :: seen := by
          simp [ackPositions_cons, hg, ackPositions]
        by_cases hq : cfg.IsQuorum (received ||| positionBit res.frm.Position) = true
        · rw [if_pos hq]
          simp only [ne_eq, List.cons_ne_self, not_false_eq_true, true_iff, reduceCtorEq]
          refine ⟨[], res, rest, rfl, hg, ?_⟩
          rw [hone]
          exact hq1.1 hq
        · rw [if_neg hq]
          refine Iff.trans (ih w _ (res.frm.Position :: seen) hm1 hseen1 hfrm1 hlen1) ?_
          constructor
          · rintro ⟨pre, x, post, h1, h2, h3⟩
            refine ⟨res :: pre, x, post, by rw [h1]; rfl, h2, ?_⟩
            refine (moreThanHalf_congr cfg _ _ ?_).1 h3
            intro p
            simp only [List.cons_append, ackPositions_cons, hg, if_true, List.mem_append,
              List.mem_cons]
            tauto
          · rintro ⟨pre, x, post, h1, h2, h3⟩
            cases pre with
            | nil =>
              simp only [List.nil_append, List.cons.injEq] at h1
              exfalso
              apply hq
              apply hq1.2
              rw [← h1.1, hone] at h3
              exact h3
            | cons y pre =>
              simp only [List.cons_append, List.cons.injEq] at h1
              obtain ⟨h1a, h1b⟩ := h1
              subst h1a
              refine ⟨pre, x, post, h1b, h2, ?_⟩
              refine (moreThanHalf_congr cfg _ _ ?_).1 h3
              intro p
              simp only [List.cons_append, ackPositions_cons, hg, if_true, List.mem_append,
                List.mem_cons]
              tauto
      · rw [if_neg hg]
        refine Iff.trans (ih w _ seen hmask hseen hfrm1 hlen1) ?_
        constructor
        · rintro ⟨pre, x, post, h1, h2, h3⟩
          refine ⟨res :: pre, x, post, by rw [h1]; rfl, h2, ?_⟩
          simpa only [List.cons_append, ackPositions_cons, hg, if_false] using h3
        · rintro ⟨pre, x, post, h1, h2, h3⟩
          cases pre with
          | nil =>
            simp only [List.nil_append, List.cons.injEq] at h1
            rw [← h1.1] at h2
            exact absurd h2 hg
          | cons y pre =>
            simp only [List.cons_append, List.cons.injEq] at h1
            obtain ⟨h1a, h1b⟩ := h1
            subst h1a
            refine ⟨pre, x, post, h1b, h2, ?_⟩
            simpa only [List.cons_append, ackPositions_cons, hg, if_false] using h3

theorem forwardLog_of_member (id : Int) (committer : LeaderId) (cfg : ClusterConfig)
    (logs : List Record) (first last : Record) (ok : Bool) (results : List forwardRes)
    (me : ReplicaInfo) (hfirst : logs.head? = some first) (hlast : logs.getLast? = some last)
    (hme : cfg.member id = some me) :
    forwardLog id committer cfg logs ok results =
      .ok (forwardLoop cfg committer (first.Seq, last.Seq + 1) ok (cfg.Members.length - 1)
            (positionBit me.Position) results) := by
  unfold forwardLog
  rw [hfirst, hlast]
  simp only
  rw [hme]

/-- What the callback gets when no quorum is reached: `ErrTimeout` when the
deadline passes with results outstanding, and nothing at all when every result
has arrived. -/
theorem forwardLoop_callbacks (cfg : ClusterConfig) (committer : LeaderId) (lsns : Int × Int)
    (ok : Bool) :
    ∀ (l : List forwardRes) (w received : Nat),
      (forwardLoop cfg committer lsns ok w received l).commits = [] →
      (l.length < w →
        (forwardLoop cfg committer lsns ok w received l).callbacks = [some Err.ErrTimeout]) ∧
      (w ≤ l.length → (forwardLoop cfg committer lsns ok w received l).callbacks = []) := by
  intro l
  induction l with
  | nil =>
    intro w received _
    cases w with
    | zero => simp [forwardLoop]
    | succ w => simp [forwardLoop]
  | cons res rest ih =>
    intro w received h
    cases w with
    | zero => rw [forwardLoop_zero]; simp
    | succ w =>
      rw [forwardLoop_cons] at h ⊢
      by_cases hg : res.acks = true
      · rw [if_pos hg] at h ⊢
        by_cases hq : cfg.IsQuorum (received ||| positionBit res.frm.Position) = true
        · rw [if_pos hq] at h; simp at h
        · rw [if_neg hq] at h ⊢
          obtain ⟨h1, h2⟩ := ih w _ h
          exact ⟨fun hl => h1 (by simpa using hl), fun hl => h2 (by simpa using hl)⟩
      · rw [if_neg hg] at h ⊢
        obtain ⟨h1, h2⟩ := ih w _ h
        exact ⟨fun hl => h1 (by simpa using hl), fun hl => h2 (by simpa using hl)⟩

/-- C17 (the code at the failing input): leader 1#1 of a 3-member cluster
forwards one record; follower 2, which has not voted for 1#1, answers OK=false
and the RPC to follower 3 fails, both before the deadline.  The loop ends with
`waiting = 0` and forwardLog returns without having invoked the callback. -/
theorem forwardLog_without_callback :
    hdlLogForward (freshReplica 2) 1000000 reqD =
      .ok (freshReplica 2, { OK := false, VotedFor := ⟨0, 2⟩,
                             Accepted := none, Committed := none }) ∧
    forwardLog 1 ⟨1, 1⟩ config3 [recordD] true
        [⟨⟨2, "a2", 1⟩, some { OK := false, VotedFor := ⟨0, 2⟩,
                               Accepted := none, Committed := none }⟩,
         ⟨⟨3, "a3", 2⟩, none⟩]
      = .ok { callbacks := [], commits := [] } := by
  decide

/-- C18: forwardLog commits exactly on a quorum of acknowledgements.  On a run
of at most N-1 results from members whose positions fit the mask, forwardLog
submits the commit of lsns = [logs[0].Seq, logs[last].Seq + 1) under committer,
once, if and only if some result answers OK=true and the positions of the
followers that answered OK=true up to it, with the leader's own position, number
more than half of the N members; it does so at the first such result, whatever
arrives later, and submits nothing on a run without one.  Results with an RPC
error or OK=false are not counted, and with three members one OK=true reply from
another position suffices. -/
theorem forwardLog_commits_on_quorum (id : Int) (committer : LeaderId) (cfg : ClusterConfig)
    (logs : List Record) (first last : Record) (ok : Bool) (results : List forwardRes)
    (me : ReplicaInfo) (hfirst : logs.head? = some first) (hlast : logs.getLast? = some last)
    (hme : cfg.member id = some me) (hfit : cfg.PositionsFit)
    (hfrm : ∀ res ∈ results, res.frm ∈ cfg.Members)
    (hlen : results.length ≤ cfg.Members.length - 1) :
    ∃ run, forwardLog id committer cfg logs ok results = .ok run ∧
      (run.commits = [(committer, first.Seq, last.Seq + 1)] ↔ AckQuorumAt cfg me results) ∧
      (¬ AckQuorumAt cfg me results → run.commits = []) ∧
      (∀ pre res post, results = pre ++ res :: post → res.acks = true →
        MoreThanHalf cfg (me.Position :: ackPositions (pre ++ [res])) →
        ∀ later, ∃ run1,
          forwardLog id committer cfg logs ok (pre ++ res :: later) = .ok run1 ∧
          run1.commits = [(committer, first.Seq, last.Seq + 1)]) ∧
      (cfg.Members.length = 3 → ∀ res later, results = res :: later → res.acks = true →
        res.frm.Position ≠ me.Position →
        run.commits = [(committer, first.Seq, last.Seq + 1)]) := by
  have hp := hfit me (member_mem cfg id me hme)
  have hseen : ∀ p ∈ [me.Position], 0 ≤ p ∧ p < 64 := by
    intro p hpm
    simp only [List.mem_singleton] at hpm
    rw [hpm]; exact hp
  have hkey : ∀ l : List forwardRes, (∀ res ∈ l, res.frm ∈ cfg.Members) →
      l.length ≤ cfg.Members.length - 1 →
      ((forwardLoop cfg committer (first.Seq, last.Seq + 1) ok (cfg.Members.length - 1)
          (positionBit me.Position) l).commits ≠ [] ↔ AckQuorumAt cfg me l) := by
    intro l hl1 hl2
    refine Iff.trans (forwardLoop_commits_iff cfg committer _ ok hfit l _ _ [me.Position]
      (maskOf_positionBit me.Position hp) hseen hl1 hl2) ?_
    unfold AckQuorumAt
    constructor
    · rintro ⟨pre, res, post, h1, h2, h3⟩
      refine ⟨pre, res, post, h1, h2, (moreThanHalf_congr cfg _ _ ?_).1 h3⟩
      intro p
      simp only [List.mem_append, List.mem_singleton, List.mem_cons]
      tauto
    · rintro ⟨pre, res, post, h1, h2, h3⟩
      refine ⟨pre, res, post, h1, h2, (moreThanHalf_congr cfg _ _ ?_).1 h3⟩
      intro p
      simp only [List.mem_append, List.mem_singleton, List.mem_cons]
      tauto
  have hval : ∀ l : List forwardRes,
      (forwardLoop cfg committer (first.Seq, last.Seq + 1) ok (cfg.Members.length - 1)
          (positionBit me.Position) l).commits ≠ [] →
      (forwardLoop cfg committer (first.Seq, last.Seq + 1) ok (cfg.Members.length - 1)
          (positionBit me.Position) l).commits = [(committer, first.Seq, last.Seq + 1)] := by
    intro l hl
    rcases forwardLoop_commits cfg committer (first.Seq, last.Seq + 1) ok l
      (cfg.Members.length - 1) (positionBit me.Position) with h1 | h1
    · exact absurd h1 hl
    · rw [h1]
  have hiff : (forwardLoop cfg committer (first.Seq, last.Seq + 1) ok (cfg.Members.length - 1)
          (positionBit me.Position) results).commits = [(committer, first.Seq, last.Seq + 1)]
        ↔ AckQuorumAt cfg me results := by
    constructor
    · intro h
      exact (hkey results hfrm hlen).1 (by rw [h]; simp)
    · intro h
      exact hval results ((hkey results hfrm hlen).2 h)
  refine ⟨_, forwardLog_of_member id committer cfg logs first last ok results me hfirst hlast hme,
    hiff, ?_, ?_, ?_⟩
  · intro hnq
    by_contra hc
    exact hnq ((hkey results hfrm hlen).1 hc)
  · intro pre res post hl hg hq later
    refine ⟨_, forwardLog_of_member id committer cfg logs first last ok _ me hfirst hlast hme, ?_⟩
    have hfrm1 : ∀ x ∈ pre ++ [res], x.frm ∈ cfg.Members := by
      intro x hx
      apply hfrm x
      rw [hl]
      simp only [List.mem_append, List.mem_singleton, List.mem_cons] at hx ⊢
      tauto
    have hlen1 : (pre ++ [res]).length ≤ cfg.Members.length - 1 := by
      rw [hl] at hlen
      simp only [List.length_append, List.length_cons, List.length_singleton,
        List.length_nil] at hlen ⊢
      omega
    have h1 := (hkey (pre ++ [res]) hfrm1 hlen1).2 ⟨pre, res, [], rfl, hg, hq⟩
    have h2 := forwardLoop_append cfg committer (first.Seq, last.Seq + 1) ok (pre ++ [res])
      (cfg.Members.length - 1) (positionBit me.Position) later h1
    have h3 : pre ++ res :: later = pre ++ [res] ++ later := by simp
    rw [h3, h2]
    exact hval _ h1
  · intro h3 res later hl hg hne
    apply hiff.2
    refine ⟨[], res, later, hl, hg, ?_⟩
    unfold MoreThanHalf
    rw [h3]
    have : ackPositions ([] ++ [res]) = [res.frm.Position] := by
      simp [ackPositions_cons, hg, ackPositions]
    rw [this]
    have hcard : ([me.Position, res.frm.Position] : List Int).toFinset.card = 2 := by
      rw [List.toFinset_card_of_nodup]
      · rfl
      · simp only [List.nodup_cons, List.mem_singleton, List.not_mem_nil, not_false_eq_true,
          List.nodup_nil, and_true]
        exact fun hh => hne hh.symm
    rw [hcard]
    omega

theorem forwardLog_commits_on_quorum_witness :
    ∃ run, forwardLog 1 ⟨1, 1⟩ config3 [recordD] true [⟨⟨2, "a2", 1⟩, some ackD⟩] = .ok run ∧
      run.commits = [(⟨1, 1⟩, recordD.Seq, recordD.Seq + 1)] :=
  match forwardLog_commits_on_quorum 1 ⟨1, 1⟩ config3 [recordD] recordD recordD true
      [⟨⟨2, "a2", 1⟩, some ackD⟩] ⟨1, "a1", 0⟩
      (by decide) (by decide) (by decide) (by decide) (by decide) (by decide) with
  | ⟨run, h1, _, _, _, h5⟩ => ⟨run, h1, h5 (by decide) _ _ rfl (by decide) (by decide)⟩

/-! ## hdlLogForward on records that are already stored -/

theorem set_of_getElem? (l : List Record) (j : Nat) (r : Record) (h : l[j]? = some r) :
    l.set j r = l := by
  apply List.ext_getElem?
  intro k
  by_cases hk : j = k
  · subst hk
    have hj : j < l.length := by
      by_contra hc
      rw [List.getElem?_eq_none (by omega)] at h
      simp at h
    rw [List.getElem?_set_self hj, h]
  · rw [List.getElem?_set_ne hk]

theorem extendLogs_of_lt (logs : List Record) (idx : Nat) (h : idx < logs.length) :
    extendLogs logs idx = logs := by
  unfold extendLogs
  have h1 : idx + 1 - logs.length = 0 := by omega
  rw [h1]
  simp

/-- Storing a record over itself changes no slot. -/
theorem forwardOne_of_stored (off : Int) (logs : List Record) (a : TailBitmap) (r : Record)
    (hseq : off ≤ r.Seq) (h : logs[(r.Seq - off).toNat]? = some r) :
    forwardOne off (logs, a) r = .ok (logs, a.Union r.Overrides) := by
  have hlt : (r.Seq - off).toNat < logs.length := by
    by_contra hc
    rw [List.getElem?_eq_none (by omega)] at h
    simp at h
  have hnc : ¬ Conflict logs off r := by
    rintro ⟨cur, h1, _, h3⟩
    rw [List.get?_eq_getElem?, h] at h1
    simp only [Option.some.injEq] at h1
    rw [← h1] at h3
    simp [Record.Equal] at h3
  rw [((forwardOne_eq off (logs, a) r hseq).2) hnc]
  simp only
  rw [extendLogs_of_lt logs _ hlt, set_of_getElem? logs _ r h]

theorem forwardAll_of_stored (off : Int) (logs : List Record) :
    ∀ (rs : List Record) (a : TailBitmap),
      (∀ r ∈ rs, off ≤ r.Seq ∧ logs[(r.Seq - off).toNat]? = some r) →
      ∃ a1, forwardAll off (logs, a) rs = .ok (logs, a1) := by
  intro rs
  induction rs with
  | nil => intro a _; exact ⟨a, rfl⟩
  | cons r rest ih =>
    intro a h
    obtain ⟨h1, h2⟩ := h r (List.mem_cons_self _ _)
    simp only [forwardAll]
    rw [forwardOne_of_stored off logs a r h1 h2]
    exact ih (a.Union r.Overrides) (fun x hx => h x (List.mem_cons_of_mem _ hx))

theorem trimTop_of_last (logs : List Record)
    (h : ∀ x, logs.getLast? = some x → x.Empty = false) : trimTop logs = logs := by
  unfold trimTop
  rw [List.rdropWhile_eq_self_iff]
  intro hl
  have h1 := h _ (List.getLast?_eq_getLast logs hl)
  simp [h1]

theorem trimTop_last (logs : List Record) :
    ∀ x, (trimTop logs).getLast? = some x → x.Empty = false := by
  intro x hx
  unfold trimTop at hx
  by_cases hl : List.rdropWhile Record.Empty logs = []
  · rw [hl] at hx; simp at hx
  · have h1 := List.rdropWhile_last_not Record.Empty logs hl
    rw [List.getLast?_eq_getLast _ hl] at hx
    simp only [Option.some.injEq] at hx
    rw [hx] at h1
    simpa using h1

theorem trimTop_idem (logs : List Record) : trimTop (trimTop logs) = trimTop logs :=
  trimTop_of_last _ (trimTop_last logs)

/-- The accepted set the loop leaves when every record is already stored. -/
theorem forwardAll_of_stored_acc (off : Int) (logs : List Record) :
    ∀ (rs : List Record) (a : TailBitmap),
      (∀ r ∈ rs, off ≤ r.Seq ∧ logs[(r.Seq - off).toNat]? = some r) →
      forwardAll off (logs, a) rs =
        .ok (logs, rs.foldl (fun b r => b.Union r.Overrides) a) := by
  intro rs
  induction rs with
  | nil => intro a _; rfl
  | cons r rest ih =>
    intro a h
    obtain ⟨h1, h2⟩ := h r (List.mem_cons_self _ _)
    simp only [forwardAll, List.foldl_cons]
    rw [forwardOne_of_stored off logs a r h1 h2]
    exact ih (a.Union r.Overrides) (fun x hx => h x (List.mem_cons_of_mem _ hx))

theorem foldl_union_absorbed :
    ∀ (rs : List Record) (a : TailBitmap), (∀ r ∈ rs, a.Union r.Overrides = a) →
      rs.foldl (fun b r => b.Union r.Overrides) a = a := by
  intro rs
  induction rs with
  | nil => intro a _; rfl
  | cons r rest ih =>
    intro a h
    rw [List.foldl_cons, h r (List.mem_cons_self _ _)]
    exact ih a (fun x hx => h x (List.mem_cons_of_mem _ hx))

/-! ## A union that is already contained changes nothing -/

theorem orWords_length (xs ys : List Nat) :
    (orWords xs ys).length = max xs.length ys.length := by
  induction xs generalizing ys with
  | nil => simp [orWords]
  | cons x xs ih =>
    cases ys with
    | nil => simp [orWords]
    | cons y ys =>
      simp only [orWords, List.length_cons, ih ys]
      omega

theorem orWords_of_covers (xs ys : List Nat) (h : CoversWords xs ys) : orWords xs ys = xs := by
  obtain ⟨h1, h2⟩ := h
  apply List.ext_getElem?
  intro j
  have hlen : (orWords xs ys).length = xs.length := by
    rw [orWords_length]; omega
  by_cases hj : j < xs.length
  · have h3 := orWords_getD xs ys j
    rw [h2 j, List.getD_eq_getElem?_getD, List.getD_eq_getElem?_getD,
      List.getElem?_eq_getElem (by omega : j < (orWords xs ys).length),
      List.getElem?_eq_getElem hj] at h3
    simp only [Option.getD_some] at h3
    rw [List.getElem?_eq_getElem (by omega : j < (orWords xs ys).length),
      List.getElem?_eq_getElem hj, h3]
  · rw [List.getElem?_eq_none (by omega), List.getElem?_eq_none (by omega)]

theorem coversWords_orWords_right (xs ys : List Nat) : CoversWords (orWords xs ys) ys := by
  constructor
  · rw [orWords_length]; omega
  · intro j
    rw [orWords_getD, Nat.lor_assoc, Nat.or_self]

theorem coversWords_orWords_left (xs ys zs : List Nat) (h : CoversWords xs ys) :
    CoversWords (orWords xs zs) ys := by
  obtain ⟨h1, h2⟩ := h
  constructor
  · rw [orWords_length]; omega
  · intro j
    rw [orWords_getD, Nat.lor_assoc, Nat.lor_comm (zs.getD j 0), ← Nat.lor_assoc, h2 j]

theorem coversWords_drop (xs ys : List Nat) (m : Nat) (h : CoversWords xs ys) :
    CoversWords (xs.drop m) (ys.drop m) := by
  obtain ⟨h1, h2⟩ := h
  constructor
  · simp only [List.length_drop]; omega
  · intro j
    rw [getD_drop, getD_drop, h2]

theorem TailBitmap.eq_of_fields (a b : TailBitmap) (h1 : a.Offset = b.Offset)
    (h2 : a.Words = b.Words) : a = b := by
  cases a
  cases b
  simp only at h1 h2
  subst h1
  subst h2
  rfl

theorem TailBitmap.union_of_absorbs (a b : TailBitmap) (h : a.Absorbs b) : a.Union b = a := by
  obtain ⟨h1, h2⟩ := h
  apply TailBitmap.eq_of_fields
  · unfold TailBitmap.Union
    rw [if_neg (by omega)]
  · unfold TailBitmap.Union
    rw [if_neg (by omega)]
    exact orWords_of_covers _ _ h2

theorem TailBitmap.absorbs_union_right (a b : TailBitmap) : (a.Union b).Absorbs b := by
  unfold TailBitmap.Absorbs TailBitmap.Union
  by_cases h : b.Offset > a.Offset
  · rw [if_pos h]
    simp only
    have e : ((b.Offset - b.Offset) / 64).toNat = 0 := by omega
    rw [e, List.drop_zero]
    exact ⟨le_refl _, coversWords_orWords_right _ _⟩
  · rw [if_neg h]
    simp only
    exact ⟨by omega, coversWords_orWords_right _ _⟩

theorem TailBitmap.absorbs_union_left (a b c : TailBitmap) (h : a.Absorbs b) :
    (a.Union c).Absorbs b := by
  have ha := a.aligned
  have hb := b.aligned
  have hc := c.aligned
  obtain ⟨h1, h2⟩ := h
  unfold TailBitmap.Absorbs TailBitmap.Union
  by_cases hlt : c.Offset > a.Offset
  · rw [if_pos hlt]
    simp only
    refine ⟨by omega, ?_⟩
    have e : ((c.Offset - b.Offset) / 64).toNat
        = ((a.Offset - b.Offset) / 64).toNat + ((c.Offset - a.Offset) / 64).toNat := by omega
    rw [e, ← List.drop_drop]
    exact coversWords_orWords_left _ _ _ (coversWords_drop _ _ _ h2)
  · rw [if_neg hlt]
    simp only
    exact ⟨h1, coversWords_orWords_left _ _ _ h2⟩

/-- After the loop `Accepted` absorbs the Overrides of every record of the
request. -/
theorem forwardAll_absorbs (off : Int) :
    ∀ (logs : List Record) (st st1 : List Record × TailBitmap),
      forwardAll off st logs = .ok st1 →
      (∀ b, st.2.Absorbs b → st1.2.Absorbs b) ∧ ∀ r ∈ logs, st1.2.Absorbs r.Overrides := by
  intro logs
  induction logs with
  | nil =>
    intro st st1 h
    simp only [forwardAll] at h
    injection h with h
    rw [← h]
    exact ⟨fun _ hb => hb, fun r hr => by simp at hr⟩
  | cons r rs ih =>
    intro st st1 h
    simp only [forwardAll] at h
    cases h1 : forwardOne off st r with
    | error e => rw [h1] at h; simp at h
    | ok st2 =>
      rw [h1] at h
      simp only at h
      obtain ⟨h3, h4⟩ := ih st2 st1 h
      have h5 := forwardOne_acc h1
      constructor
      · intro b hb
        apply h3
        rw [h5]
        exact TailBitmap.absorbs_union_left _ _ _ hb
      · intro x hx
        simp only [List.mem_cons] at hx
        rcases hx with rfl | hx
        · apply h3
          rw [h5]
          exact TailBitmap.absorbs_union_right _ _
        · exact h4 x hx

/-! ## hdlLogForward: the same request twice -/

/-- C21 (counterexample): the follower `followerD` accepts the request `reqZ`,
which carries the empty record of slot 0 before the record of seq 0, and replies
OK=true; the same request on the state it left, within the lease, finds the slot
holding the record, which is not Equal to the empty record, and panics. -/
theorem hdlLogForward_twice_panics :
    hdlLogForward followerD 1000000 reqZ = .ok (followerD1, ackD) ∧
    ackD.OK = true ∧
    1000000 ≤ followerD1.Status.VoteExpireAt ∧
    hdlLogForward followerD1 1000000 reqZ = .error Fatal.wtf := by
  decide

/-- C21 (amended): hdlLogForward is idempotent on requests whose records are
non-empty.  For every follower state, every such request and clock values within
the lease, if hdlLogForward returns OK=true leaving state s1, then the same
request on s1 returns the same reply and leaves the state equal to s1: Logs,
Accepted, Committed, Committer, VotedFor and every other field are the same,
Accepted with the same Offset and Words. -/
theorem hdlLogForward_idempotent (tr tr1 : TRaft) (now now1 : Int) (req : LogForwardReq)
    (repl : LogForwardReply) (hne : ∀ r ∈ req.Logs, r.Empty = false)
    (h : hdlLogForward tr now req = .ok (tr1, repl)) (hok : repl.OK = true)
    (hnow : now1 ≤ tr.Status.VoteExpireAt) :
    hdlLogForward tr1 now1 req = .ok (tr1, repl) := by
  rcases hdlLogForward_result tr tr1 now req repl h with ⟨_, hf⟩ | ⟨h1, _, st1, hf, htr1, hrepl⟩
  · rw [hok] at hf; simp at hf
  · subst htr1
    subst hrepl
    have hd : discardUncommitted
        { tr with
          Logs := trimTop st1.1
          Status := { tr.Status with Accepted := st1.2, Committer := req.Committer } } req
        = (trimTop st1.1, st1.2) := by
      unfold discardUncommitted
      have h0 : ¬ (req.Committer.Cmp req.Committer > 0) := by
        rw [LeaderId.Cmp_pos_iff]
        unfold LeaderId.lt
        omega
      simp only
      rw [if_neg h0]
    have hst : ∀ r ∈ req.Logs, tr.LogOffset ≤ r.Seq ∧
        (trimTop st1.1)[(r.Seq - tr.LogOffset).toNat]? = some r := by
      intro r hr
      obtain ⟨h3, h4⟩ := forwardAll_stores tr.LogOffset req.Logs _ st1 hf r hr (hne r hr)
      exact ⟨h3, trimTop_keeps st1.1 _ r h4 (hne r hr)⟩
    have hf2 := forwardAll_of_stored_acc tr.LogOffset (trimTop st1.1) req.Logs st1.2 hst
    have habs : ∀ r ∈ req.Logs, st1.2.Union r.Overrides = st1.2 := by
      intro r hr
      exact TailBitmap.union_of_absorbs _ _
        ((forwardAll_absorbs tr.LogOffset req.Logs _ st1 hf).2 r hr)
    rw [foldl_union_absorbed req.Logs st1.2 habs] at hf2
    have key := hdlLogForward_of_accepted
      { tr with
        Logs := trimTop st1.1
        Status := { tr.Status with Accepted := st1.2, Committer := req.Committer } }
      now1 req h1 hnow
    rw [hd] at key
    simp only at key
    rw [hf2] at key
    simp only at key
    rw [trimTop_idem] at key
    exact key

theorem hdlLogForward_idempotent_witness :
    hdlLogForward followerD 1000000 reqD = .ok (followerD1, ackD) ∧
    hdlLogForward followerD1 1000000 reqD = .ok (followerD1, ackD) :=
  ⟨by decide,
   hdlLogForward_idempotent followerD followerD1 1000000 1000000 reqD ackD
     (by decide) (by decide) (by decide) (by decide)⟩

/-! ## hdlLogForward: records that are already stored -/

/-- C22 (counterexample): two followers get a request that is not rejected, has
req.Committer equal to their Committer and carries one record that is already
stored at its slot.  For `followerG` the record overrides seq 1, which is not in
Accepted before the call and is afterwards; for `followerH`, whose Logs end with
an empty record, the handler trims that record. -/
theorem present_logs_change_state :
    (reqX.Committer = followerG.Status.VotedFor ∧ 0 ≤ followerG.Status.VoteExpireAt ∧
      reqX.Committer = followerG.Status.Committer ∧
      (∀ r ∈ reqX.Logs, followerG.LogOffset ≤ r.Seq ∧
        followerG.Logs[(r.Seq - followerG.LogOffset).toNat]? = some r) ∧
      hdlLogForward followerG 0 reqX =
        .ok (followerG1,
             { OK := true, VotedFor := ⟨3, 1⟩
               Accepted := some { Offset := 0, Words := [6], aligned := by decide }
               Committed := some { Offset := 0, Words := [4], aligned := by decide } }) ∧
      followerG.Status.Accepted.Get 1 = 0 ∧ followerG1.Status.Accepted.Get 1 = 1) ∧
    (reqD.Committer = followerH.Status.VotedFor ∧ 1000000 ≤ followerH.Status.VoteExpireAt ∧
      reqD.Committer = followerH.Status.Committer ∧
      (∀ r ∈ reqD.Logs, followerH.LogOffset ≤ r.Seq ∧
        followerH.Logs[(r.Seq - followerH.LogOffset).toNat]? = some r) ∧
      hdlLogForward followerH 1000000 reqD = .ok (followerD1, ackD) ∧
      followerH.Logs = [recordD, Record.zero] ∧ followerD1.Logs = [recordD]) := by
  decide

/-- C22 (amended): hdlLogForward of already-present logs is a no-op.  For every
follower state whose Logs do not end with an empty record and every non-rejected
request with req.Committer equal to the follower's Committer in which each
record is already stored at Logs[r.Seq - LogOffset] and overrides only seqs that
are in Accepted, the handler leaves Logs, Committed, Committer, VotedFor,
VoteExpireAt and LogOffset exactly as they were and Accepted the same set; the
whole state is exactly as it was when the union of Accepted with each record's
Overrides is Accepted itself. -/
theorem hdlLogForward_present_logs (tr : TRaft) (now : Int) (req : LogForwardReq)
    (h1 : req.Committer = tr.Status.VotedFor) (h2 : now ≤ tr.Status.VoteExpireAt)
    (hc : req.Committer = tr.Status.Committer)
    (hst : ∀ r ∈ req.Logs, tr.LogOffset ≤ r.Seq ∧
      tr.Logs[(r.Seq - tr.LogOffset).toNat]? = some r)
    (hov : ∀ r ∈ req.Logs, ∀ i, r.Overrides.Mem i → tr.Status.Accepted.Mem i)
    (hend : ∀ x, tr.Logs.getLast? = some x → x.Empty = false) :
    ∃ tr1 repl, hdlLogForward tr now req = .ok (tr1, repl) ∧ repl.OK = true ∧
      tr1.Logs = tr.Logs ∧
      (∀ i, tr1.Status.Accepted.Mem i ↔ tr.Status.Accepted.Mem i) ∧
      tr1.Status.Committed = tr.Status.Committed ∧
      tr1.Status.Committer = tr.Status.Committer ∧
      tr1.Status.VotedFor = tr.Status.VotedFor ∧
      tr1.Status.VoteExpireAt = tr.Status.VoteExpireAt ∧
      tr1.LogOffset = tr.LogOffset ∧
      ((∀ r ∈ req.Logs, tr.Status.Accepted.Union r.Overrides = tr.Status.Accepted) →
        tr1 = tr) := by
  have hd : discardUncommitted tr req = (tr.Logs, tr.Status.Accepted) := by
    unfold discardUncommitted
    have h0 : ¬ (req.Committer.Cmp tr.Status.Committer > 0) := by
      rw [hc, LeaderId.Cmp_pos_iff]
      unfold LeaderId.lt
      omega
    rw [if_neg h0]
  have hf := forwardAll_of_stored_acc tr.LogOffset tr.Logs req.Logs tr.Status.Accepted hst
  rw [hdlLogForward_of_accepted tr now req h1 h2, hd, hf]
  simp only
  rw [trimTop_of_last tr.Logs hend]
  refine ⟨_, _, rfl, rfl, rfl, ?_, rfl, hc, rfl, rfl, rfl, ?_⟩
  · intro i
    simp only
    rw [forwardAll_mem req.Logs _ _ hf i]
    simp only
    constructor
    · rintro (h5 | ⟨r, hr, h5⟩)
      · exact h5
      · exact hov r hr i h5
    · intro h5; exact Or.inl h5
  · intro habs
    rw [foldl_union_absorbed req.Logs tr.Status.Accepted habs, hc]

theorem hdlLogForward_present_logs_witness :
    ∃ tr1 repl, hdlLogForward followerD1 1000000 reqD = .ok (tr1, repl) ∧ repl.OK = true ∧
      tr1.Logs = followerD1.Logs ∧
      (∀ i, tr1.Status.Accepted.Mem i ↔ followerD1.Status.Accepted.Mem i) ∧
      tr1.Status.Committed = followerD1.Status.Committed ∧
      tr1.Status.Committer = followerD1.Status.Committer ∧
      tr1.Status.VotedFor = followerD1.Status.VotedFor ∧
      tr1.Status.VoteExpireAt = followerD1.Status.VoteExpireAt ∧
      tr1.LogOffset = followerD1.LogOffset ∧
      ((∀ r ∈ reqD.Logs,
          followerD1.Status.Accepted.Union r.Overrides = followerD1.Status.Accepted) →
        tr1 = followerD1) :=
  hdlLogForward_present_logs followerD1 1000000 reqD (by decide) (by decide) (by decide)
    (by decide)
    (by
      intro r hr i hi
      have hr1 : r = recordD := by simpa [reqD] using hr
      rw [hr1] at hi
      exact hi)
    (by decide)

/-! ## Voting again for the candidate already voted for -/

/-- C23 (counterexample): the voter `voterA1` has voted for 2#2 and gets the
request `reqA` of the candidate 2#2 again.  Vote grants and leaves the state as
it is, and the reply ships the record at seq 6, which the request has not
accepted: the returned Logs list is not empty. -/
theorem Vote_again_ships_logs :
    reqA.Candidate = voterA1.Status.VotedFor ∧
    Vote voterA1 reqA = .ok (voterA1, replyA) ∧
    replyA.VotedFor = reqA.Candidate ∧
    replyA.Logs = [pseudoRecord ⟨1, 1⟩ 6] ∧
    replyA.Logs ≠ [] := by
  decide

/-- C23 (amended): voting again for the current candidate.  For every replica
state and every VoteReq whose Candidate equals the voter's VotedFor, with every
seq to ship inside the Logs window when the request passes the log check, Vote
replies VotedFor = Candidate and leaves the replica state unchanged; the
returned Logs list is empty when the request's log status is below the voter's
or the request has accepted every seq the voter has, and otherwise it holds the
voter's records at the seqs the voter has accepted and the request has not. -/
theorem Vote_again_for_candidate (tr : TRaft) (req : VoteReq)
    (hc : req.Candidate = tr.Status.VotedFor)
    (hw : ¬ LogStatus.lt req.logStat tr.Status.logStat →
      ∀ i ∈ shippedSeqs tr req, InWindow tr i) :
    ∃ repl, Vote tr req = .ok (tr, repl) ∧ repl.VotedFor = req.Candidate ∧
      repl.Committer = tr.Status.Committer ∧ repl.Accepted = tr.Status.Accepted ∧
      (LogStatus.lt req.logStat tr.Status.logStat → repl.Logs = []) ∧
      (¬ LogStatus.lt req.logStat tr.Status.logStat →
        repl.Logs = (shippedSeqs tr req).map (recordAt tr)) ∧
      ((∀ i : Int, tr.Status.Accepted.Get i ≠ 0 → req.Accepted.Get i ≠ 0) →
        repl.Logs = []) := by
  have hnlt : ¬ LeaderId.lt req.Candidate tr.Status.VotedFor := by
    rw [hc]
    unfold LeaderId.lt
    omega
  have hnil : (∀ i : Int, tr.Status.Accepted.Get i ≠ 0 → req.Accepted.Get i ≠ 0) →
      shippedSeqs tr req = [] := by
    intro hall
    rw [List.eq_nil_iff_forall_not_mem]
    intro i hi
    obtain ⟨_, _, h3, h4⟩ := (mem_shippedSeqs tr req i).1 hi
    exact hall i h3 h4
  by_cases hl : LogStatus.lt req.logStat tr.Status.logStat
  · have hng : ¬ Granted tr req := fun hg => hg.1 hl
    rw [Vote_of_not_granted tr req hng]
    exact ⟨_, rfl, hc.symm, rfl, rfl, fun _ => rfl, fun h => absurd hl h, fun _ => rfl⟩
  · have hg : Granted tr req := ⟨hl, hnlt⟩
    rw [Vote_of_granted tr req hg, shipLoop_ok tr req _ _ [] (hw hl)]
    have hst : ({ tr with Status := { tr.Status with VotedFor := req.Candidate } } : TRaft)
        = tr := by
      rw [hc]
    simp only [List.nil_append]
    rw [hst]
    refine ⟨_, rfl, rfl, rfl, rfl, fun h => absurd h hl, fun _ => rfl, ?_⟩
    intro hall
    show (loopSeqs tr req _ _).map (recordAt tr) = []
    rw [← shippedSeqs_eq, hnil hall]
    rfl

theorem Vote_again_for_candidate_witness :
    ∃ repl, Vote voterA1 reqA = .ok (voterA1, repl) ∧ repl.VotedFor = reqA.Candidate ∧
      repl.Committer = voterA1.Status.Committer ∧ repl.Accepted = voterA1.Status.Accepted ∧
      (LogStatus.lt reqA.logStat voterA1.Status.logStat → repl.Logs = []) ∧
      (¬ LogStatus.lt reqA.logStat voterA1.Status.logStat →
        repl.Logs = (shippedSeqs voterA1 reqA).map (recordAt voterA1)) ∧
      ((∀ i : Int, voterA1.Status.Accepted.Get i ≠ 0 → reqA.Accepted.Get i ≠ 0) →
        repl.Logs = []) :=
  Vote_again_for_candidate voterA1 reqA (by decide) (fun _ => by decide)

/-! ## The lease -/

/-- C24 (the code at the failing input): the voter of the first case of
TestTRaft_Vote, whose VoteExpireAt is 0, grants the request of the candidate
2#2.  Its VoteExpireAt is 0 afterwards too, which differs from now + leaderLease
by more than 10^9 at every clock reading now > 0. -/
theorem Vote_grant_records_no_lease :
    Granted voterA reqA ∧
    voterA.Status.VoteExpireAt = 0 ∧
    Vote voterA reqA = .ok (voterA1, replyA) ∧
    replyA.VotedFor = reqA.Candidate ∧
    voterA1.Status.VoteExpireAt = 0 ∧
    (∀ now : Int, 0 < now →
      ¬ (|voterA1.Status.VoteExpireAt - (now + leaderLease)| ≤ 1000000000)) := by
  refine ⟨by decide, by decide, by decide, by decide, by decide, ?_⟩
  intro now hnow
  have h1 : voterA1.Status.VoteExpireAt = 0 := by decide
  have h2 : leaderLease = 1000000000 := rfl
  rw [h1, h2, abs_le]
  omega

/-- C25 (counterexample): the candidate 1#1 of replica 1 gets the votes of the
fresh voters 2 and 3 and VoteLoop writes the win back at the clock reading
7000000.  The VoteExpireAt written is 7000000 + 1000000000, the lease being
`int64(time.Second)`, and not 7000000 + 1000000. -/
theorem VoteLoop_win_lease :
    VoteOnce ⟨1, 1⟩ (ExportLogStatus (freshReplica 1).Status) config3 (freshReplies ⟨1, 1⟩)
      = .ok (true, none, -1) ∧
    voteLoopElect (freshReplica 1) ⟨⟨1, 1⟩, 0⟩ config3 (freshReplies ⟨1, 1⟩) 7000000
      = .ok (updateLeaderStat (freshReplica 1) ⟨⟨1, 1⟩, 1007000000⟩,
             ⟨⟨1, 1⟩, 1007000000⟩) ∧
    (updateLeaderStat (freshReplica 1) ⟨⟨1, 1⟩, 1007000000⟩).Status.VotedFor = ⟨1, 1⟩ ∧
    (updateLeaderStat (freshReplica 1) ⟨⟨1, 1⟩, 1007000000⟩).Status.VoteExpireAt
      = 7000000 + 1000000000 ∧
    (updateLeaderStat (freshReplica 1) ⟨⟨1, 1⟩, 1007000000⟩).Status.VoteExpireAt
      ≠ 7000000 + 1000000 := by
  decide

/-- An election win writes `now + leaderLease`, that is `now + 1000000000`, and
the winning candidate back; nothing else of the state changes. -/
theorem voteLoopElect_win (tr : TRaft) (leadst : LeaderStatus) (config : ClusterConfig)
    (replies : List voteRes) (now : Int) (e : Option Err) (higher : Int)
    (h : VoteOnce leadst.VotedFor (ExportLogStatus tr.Status) config replies
      = .ok (true, e, higher)) :
    voteLoopElect tr leadst config replies now =
      .ok ({ tr with Status := { tr.Status with VotedFor := leadst.VotedFor,
                                                VoteExpireAt := now + 1000000000 } },
           ⟨leadst.VotedFor, now + 1000000000⟩) := by
  unfold voteLoopElect
  rw [h]
  rfl

/-- C25 (amended): the leader lease is `int64(time.Second)`.  When VoteLoop wins
an election (VoteOnce returned voted = true) and reads the clock as t, the
VoteExpireAt it writes back through update-leaderStat equals t + 1,000,000,000,
together with VotedFor = the winning candidate; no other field of the replica
changes, and the loop keeps the same pair as its leader status. -/
theorem VoteLoop_win_writes_lease (tr : TRaft) (leadst : LeaderStatus)
    (config : ClusterConfig) (replies : List voteRes) (now : Int) (e : Option Err)
    (higher : Int)
    (h : VoteOnce leadst.VotedFor (ExportLogStatus tr.Status) config replies
      = .ok (true, e, higher)) :
    leaderLease = 1000000000 ∧
    ∃ tr1 leadst1, voteLoopElect tr leadst config replies now = .ok (tr1, leadst1) ∧
      tr1 = updateLeaderStat tr ⟨leadst.VotedFor, now + 1000000000⟩ ∧
      tr1.Status.VoteExpireAt = now + 1000000000 ∧
      tr1.Status.VotedFor = leadst.VotedFor ∧
      leadst1 = ⟨leadst.VotedFor, now + 1000000000⟩ ∧
      tr1.Status.Committer = tr.Status.Committer ∧
      tr1.Status.Accepted = tr.Status.Accepted ∧
      tr1.Status.Committed = tr.Status.Committed ∧
      tr1.Logs = tr.Logs ∧ tr1.LogOffset = tr.LogOffset ∧ tr1.Id = tr.Id :=
  ⟨rfl, _, _, voteLoopElect_win tr leadst config replies now e higher h,
    rfl, rfl, rfl, rfl, rfl, rfl, rfl, rfl, rfl, rfl⟩

theorem VoteLoop_win_writes_lease_witness :
    VoteOnce ⟨2, 2⟩ (ExportLogStatus candidateA.Status) config3 [⟨⟨1, "a1", 0⟩, replyA⟩]
      = .ok (true, none, -1) ∧
    ∃ tr1 leadst1,
      voteLoopElect candidateA ⟨⟨2, 2⟩, 0⟩ config3 [⟨⟨1, "a1", 0⟩, replyA⟩] 1700000000000000000
        = .ok (tr1, leadst1) ∧
      tr1.Status.VoteExpireAt = 1700000001000000000 ∧ tr1.Status.VotedFor = ⟨2, 2⟩ :=
  match VoteLoop_win_writes_lease candidateA ⟨⟨2, 2⟩, 0⟩ config3 [⟨⟨1, "a1", 0⟩, replyA⟩]
      1700000000000000000 none (-1) (by decide) with
  | ⟨_, tr1, leadst1, h1, _, h3, h4, _⟩ => ⟨by decide, tr1, leadst1, h1, h3, h4⟩

/-! ## hdlLogForward: the post-state of an accepted request -/

/-- Records with distinct seqs that meet no conflicting slot at the start meet
none during the loop. -/
theorem forwardAll_ok_of_distinct (off : Int) :
    ∀ (logs : List Record) (st : List Record × TailBitmap),
      (∀ r ∈ logs, off ≤ r.Seq) → logs.Pairwise (fun a b => a.Seq ≠ b.Seq) →
      (∀ r ∈ logs, ¬ Conflict st.1 off r) →
      ∃ st1, forwardAll off st logs = .ok st1 := by
  intro logs
  induction logs with
  | nil => intro st _ _ _; exact ⟨st, rfl⟩
  | cons r rest ih =>
    intro st hseq hd hnc
    have hr := (forwardOne_eq off st r (hseq r (List.mem_cons_self _ _))).2
      (hnc r (List.mem_cons_self _ _))
    simp only [forwardAll]
    rw [hr]
    simp only
    rw [List.pairwise_cons] at hd
    apply ih _ (fun x hx => hseq x (List.mem_cons_of_mem _ hx)) hd.2
    intro x hx hcon
    obtain ⟨cur, hcur, hne, hneq⟩ := hcon
    rw [List.get?_eq_getElem?] at hcur
    rcases forwardOne_origin hr _ cur hcur hne with h1 | ⟨_, h2⟩
    · apply hnc x (List.mem_cons_of_mem _ hx)
      exact ⟨cur, by rw [List.get?_eq_getElem?]; exact h1, hne, hneq⟩
    · have h3 := hseq r (List.mem_cons_self _ _)
      have h4 := hseq x (List.mem_cons_of_mem _ hx)
      have h5 := hd.1 x hx
      omega

theorem discardUncommitted_mem (tr : TRaft) (req : LogForwardReq) (i : Int) :
    (discardUncommitted tr req).2.Mem i ↔
      (if LeaderId.lt tr.Status.Committer req.Committer then tr.Status.Committed
        else tr.Status.Accepted).Mem i := by
  unfold discardUncommitted
  by_cases h : LeaderId.lt tr.Status.Committer req.Committer
  · rw [if_pos ((LeaderId.Cmp_pos_iff _ _).2 h), if_pos h]
  · rw [if_neg (fun hc => h ((LeaderId.Cmp_pos_iff _ _).1 hc)), if_neg h]

/-- C27: post-state of an accepted hdlLogForward.  For a request that passes the
guard and whose records are non-empty with distinct Seq >= LogOffset and no
conflicting slot (after the uncommitted records of an older committer are
discarded, the slot of each record is empty or holds an Equal record), the
handler returns, and afterwards Logs[r.Seq - LogOffset] is r for every r in
req.Logs, Logs does not end with an empty record, Committer equals
req.Committer, Accepted equals as a set B ∪ the union of r.Overrides over
req.Logs (B = the old Committed if req.Committer > the old Committer, else the
old Accepted), VotedFor, VoteExpireAt, Committed and LogOffset are unchanged,
and the reply is {OK=true, VotedFor, new Accepted, Committed}. -/
theorem hdlLogForward_post_state (tr : TRaft) (now : Int) (req : LogForwardReq)
    (h1 : req.Committer = tr.Status.VotedFor) (h2 : now ≤ tr.Status.VoteExpireAt)
    (hne : ∀ r ∈ req.Logs, r.Empty = false) (hseq : ∀ r ∈ req.Logs, tr.LogOffset ≤ r.Seq)
    (hd : req.Logs.Pairwise (fun a b => a.Seq ≠ b.Seq))
    (hnc : ∀ r ∈ req.Logs, ¬ Conflict (discardUncommitted tr req).1 tr.LogOffset r) :
    ∃ tr1 repl, hdlLogForward tr now req = .ok (tr1, repl) ∧
      (∀ r ∈ req.Logs, tr1.Logs[(r.Seq - tr1.LogOffset).toNat]? = some r) ∧
      (∀ x, tr1.Logs.getLast? = some x → x.Empty = false) ∧
      tr1.Status.Committer = req.Committer ∧
      (∀ i, tr1.Status.Accepted.Mem i ↔
        (if LeaderId.lt tr.Status.Committer req.Committer then tr.Status.Committed
          else tr.Status.Accepted).Mem i ∨ ∃ r ∈ req.Logs, r.Overrides.Mem i) ∧
      tr1.Status.VotedFor = tr.Status.VotedFor ∧
      tr1.Status.VoteExpireAt = tr.Status.VoteExpireAt ∧
      tr1.Status.Committed = tr.Status.Committed ∧
      tr1.LogOffset = tr.LogOffset ∧ tr1.Id = tr.Id ∧
      repl = { OK := true, VotedFor := tr.Status.VotedFor
               Accepted := some tr1.Status.Accepted
               Committed := some tr.Status.Committed } := by
  obtain ⟨st1, hf⟩ := forwardAll_ok_of_distinct tr.LogOffset req.Logs _ hseq hd hnc
  rw [hdlLogForward_of_accepted tr now req h1 h2, hf]
  refine ⟨_, _, rfl, ?_, trimTop_last st1.1, rfl, ?_, rfl, rfl, rfl, rfl, rfl, rfl⟩
  · intro r hr
    obtain ⟨_, h4⟩ := forwardAll_stores tr.LogOffset req.Logs _ st1 hf r hr (hne r hr)
    exact trimTop_keeps st1.1 _ r h4 (hne r hr)
  · intro i
    simp only
    rw [forwardAll_mem req.Logs _ st1 hf i, discardUncommitted_mem]

theorem hdlLogForward_post_state_witness :
    ∃ tr1 repl, hdlLogForward followerK 0 reqX = .ok (tr1, repl) ∧
      (∀ r ∈ reqX.Logs, tr1.Logs[(r.Seq - tr1.LogOffset).toNat]? = some r) ∧
      (∀ x, tr1.Logs.getLast? = some x → x.Empty = false) ∧
      tr1.Status.Committer = reqX.Committer ∧
      (∀ i, tr1.Status.Accepted.Mem i ↔
        (if LeaderId.lt followerK.Status.Committer reqX.Committer
          then followerK.Status.Committed else followerK.Status.Accepted).Mem i ∨
          ∃ r ∈ reqX.Logs, r.Overrides.Mem i) ∧
      tr1.Status.VotedFor = followerK.Status.VotedFor ∧
      tr1.Status.VoteExpireAt = followerK.Status.VoteExpireAt ∧
      tr1.Status.Committed = followerK.Status.Committed ∧
      tr1.LogOffset = followerK.LogOffset ∧ tr1.Id = followerK.Id ∧
      repl = { OK := true, VotedFor := followerK.Status.VotedFor
               Accepted := some tr1.Status.Accepted
               Committed := some followerK.Status.Committed } :=
  hdlLogForward_post_state followerK 0 reqX (by decide) (by decide) (by decide) (by decide)
    (by decide)
    (by
      intro r hr
      have hr1 : r = recordX2 := by simpa [reqX] using hr
      rw [hr1, conflict_iff]
      decide)

/-! ## hdlLogForward: what a newer committer discards -/

/-- C26: newer-committer truncation keeps exactly the committed records.  When
hdlLogForward accepts a request with req.Committer strictly greater than the
follower's Committer, every previously held non-empty record whose Seq is in
Committed is still at its slot afterwards, and every previously held non-empty
record whose Seq is not in Committed is gone afterwards (its slot is empty or
trimmed) unless req.Logs supplies a record for the seq of that slot, which is
the record's own Seq for a record held at Logs[Seq - LogOffset]; when
req.Committer is not greater, no held record is emptied. -/
theorem hdlLogForward_truncation (tr tr1 : TRaft) (now : Int) (req : LogForwardReq)
    (repl : LogForwardReply) (h : hdlLogForward tr now req = .ok (tr1, repl))
    (hok : repl.OK = true) :
    (LeaderId.lt tr.Status.Committer req.Committer →
      ∀ (j : Nat) (x : Record), tr.Logs[j]? = some x → x.Empty = false →
        (tr.Status.Committed.Get x.Seq ≠ 0 → tr1.Logs[j]? = some x) ∧
        (tr.Status.Committed.Get x.Seq = 0 →
          (∀ r ∈ req.Logs, r.Seq ≠ tr.LogOffset + (j : Int)) →
          tr1.Logs[j]? = none ∨ ∃ e, tr1.Logs[j]? = some e ∧ e.Empty = true) ∧
        (tr.Status.Committed.Get x.Seq = 0 → x.Seq = tr.LogOffset + (j : Int) →
          (∀ r ∈ req.Logs, r.Seq ≠ x.Seq) →
          tr1.Logs[j]? = none ∨ ∃ e, tr1.Logs[j]? = some e ∧ e.Empty = true)) ∧
    (¬ LeaderId.lt tr.Status.Committer req.Committer →
      ∀ (j : Nat) (x : Record), tr.Logs[j]? = some x → x.Empty = false →
        tr1.Logs[j]? = some x) := by
  rcases hdlLogForward_result tr tr1 now req repl h with ⟨_, hf⟩ | ⟨_, _, st1, hf, htr1, _⟩
  · rw [hok] at hf; simp at hf
  · have hlogs : tr1.Logs = trimTop st1.1 := by rw [htr1]
    rw [hlogs]
    constructor
    · intro hlt j x hx hne
      have hd : discardUncommitted tr req =
          (truncateLogs tr.Status.Committed tr.Logs, tr.Status.Committed) := by
        unfold discardUncommitted
        rw [if_pos ((LeaderId.Cmp_pos_iff _ _).2 hlt)]
      rw [hd] at hf
      have hgone : tr.Status.Committed.Get x.Seq = 0 →
          (∀ r ∈ req.Logs, r.Seq ≠ tr.LogOffset + (j : Int)) →
          (trimTop st1.1)[j]? = none ∨ ∃ e, (trimTop st1.1)[j]? = some e ∧ e.Empty = true := by
        intro hnc hsup
        cases he : (trimTop st1.1)[j]? with
        | none => exact Or.inl rfl
        | some e =>
          refine Or.inr ⟨e, rfl, ?_⟩
          by_contra hemp
          have hemp1 : e.Empty = false := by simpa using hemp
          have h3 := trimTop_origin st1.1 j e he
          rcases forwardAll_origin tr.LogOffset req.Logs _ st1 hf j e h3 hemp1 with
            h4 | ⟨r, hr, _, h6, h7⟩
          · obtain ⟨h8, h9⟩ := truncateLogs_origin _ _ j e h4 hemp1
            rw [hx] at h8
            simp only [Option.some.injEq] at h8
            rw [← h8] at h9
            exact h9 hnc
          · apply hsup r hr
            omega
      refine ⟨?_, hgone, ?_⟩
      · intro hc
        have h3 := truncateLogs_keeps tr.Status.Committed tr.Logs j x hx hc
        have h4 := forwardAll_keeps tr.LogOffset req.Logs _ st1 hf j x h3 hne
        exact trimTop_keeps st1.1 j x h4 hne
      · intro hnc hplace hsup
        apply hgone hnc
        intro r hr
        rw [← hplace]
        exact hsup r hr
    · intro hlt j x hx hne
      have hd : discardUncommitted tr req = (tr.Logs, tr.Status.Accepted) := by
        unfold discardUncommitted
        rw [if_neg (fun hc => hlt ((LeaderId.Cmp_pos_iff _ _).1 hc))]
      rw [hd] at hf
      have h4 := forwardAll_keeps tr.LogOffset req.Logs _ st1 hf j x hx hne
      exact trimTop_keeps st1.1 j x h4 hne

theorem hdlLogForward_truncation_witness :
    hdlLogForward followerK 0 reqX = .ok (followerK1, replyK) ∧
    LeaderId.lt followerK.Status.Committer reqX.Committer ∧
    followerK1.Logs[0]? = some recordD ∧
    (followerK1.Logs[1]? = none ∨ ∃ e, followerK1.Logs[1]? = some e ∧ e.Empty = true) :=
  ⟨by decide, by decide,
   (((hdlLogForward_truncation followerK followerK1 0 reqX replyK (by decide) (by decide)).1
      (by decide) 0 recordD (by decide) (by decide)).1) (by decide),
   (((hdlLogForward_truncation followerK followerK1 0 reqX replyK (by decide) (by decide)).1
      (by decide) 1 recordK (by decide) (by decide)).2.1) (by decide) (by decide)⟩

/-! ## The index of the shipping loop -/

/-- C28 (the code at the failing input): the voter `voterF` satisfies the three
state invariants (Committed ⊆ Accepted, VotedFor >= Committer, every accepted
seq inside the Logs window [5, 7) holds a non-empty record with that Seq) and
the request `reqA` passes both checks.  Seq 0 is accepted by the voter and not
by the request, so the loop fetches Logs[0 - 5]: Vote ends in an
index-out-of-range panic. -/
theorem Vote_index_out_of_range :
    CommittedSubAccepted voterF.Status ∧
    LeaderId.le voterF.Status.Committer voterF.Status.VotedFor ∧
    AcceptedHaveRecords voterF ∧
    Granted voterF reqA ∧
    (0 : Int) ∈ shippedSeqs voterF reqA ∧
    ¬ (0 ≤ 0 - voterF.LogOffset ∧ 0 - voterF.LogOffset < (voterF.Logs.length : Int)) ∧
    Vote voterF reqA = .error Fatal.indexOutOfRange := by
  refine ⟨?_, by decide, ?_, by decide, by decide, by decide, by decide⟩
  · intro i hi
    have h1 : voterF.Status.Committed = NewTailBitmap 0 := rfl
    have h2 : voterF.Status.Accepted = NewTailBitmap 7 := rfl
    rw [h1, mem_NewTailBitmap] at hi
    rw [h2, mem_NewTailBitmap]
    omega
  · intro i h1 h2 _
    have h3 : voterF.LogOffset = 5 := rfl
    have h4 : voterF.Logs.length = 2 := rfl
    rw [h3] at h1 h2 ⊢
    rw [h4] at h2
    have h5 : i = 5 ∨ i = 6 := by omega
    rcases h5 with rfl | rfl
    · exact ⟨pseudoRecord ⟨1, 1⟩ 5, by decide, by decide, by decide⟩
    · exact ⟨pseudoRecord ⟨1, 1⟩ 6, by decide, by decide, by decide⟩

/-! ## A granted vote without a reply -/

/-- C3 (the code at the failing input): the request `reqA` passes both checks
on the voter `voterF` (its log status 1#1 is above the voter's 0#1 and the
candidate 2#2 is above the voter's VotedFor 0#1), but Vote does not reply: the
shipping loop fetches Logs[0 - 5] and the handler ends in an index-out-of-range
panic, so no reply with VotedFor = Candidate is sent. -/
theorem Vote_granted_without_reply :
    ¬ LogStatus.lt reqA.logStat voterF.Status.logStat ∧
    ¬ LeaderId.lt reqA.Candidate voterF.Status.VotedFor ∧
    Vote voterF reqA = .error Fatal.indexOutOfRange ∧
    (∀ tr1 repl, Vote voterF reqA ≠ .ok (tr1, repl)) := by
  refine ⟨by decide, by decide, by decide, ?_⟩
  intro tr1 repl h
  have h1 : Vote voterF reqA = .error Fatal.indexOutOfRange := by decide
  rw [h1] at h
  simp at h

/-! ## hdlLogForward: what Accepted holds afterwards -/

/-- C7 (amended): after hdlLogForward replies OK=true, the follower's Accepted,
which is also the Accepted of the reply, is as a set the set the handler started
from (the old Committed when req.Committer is greater than the old Committer,
else the old Accepted) joined with the Overrides of every record in req.Logs.
So it contains the Seq of every record whose Overrides contains its own Seq, and
the Seq of any record of the request exactly when that Seq is in the start set
or in the Overrides of a record of the request. -/
theorem hdlLogForward_accepted_after (tr tr1 : TRaft) (now : Int) (req : LogForwardReq)
    (repl : LogForwardReply) (h : hdlLogForward tr now req = .ok (tr1, repl))
    (hok : repl.OK = true) :
    repl.Accepted = some tr1.Status.Accepted ∧
    (∀ i, tr1.Status.Accepted.Mem i ↔
      (if LeaderId.lt tr.Status.Committer req.Committer then tr.Status.Committed
        else tr.Status.Accepted).Mem i ∨ ∃ r ∈ req.Logs, r.Overrides.Mem i) ∧
    (∀ r ∈ req.Logs, r.Overrides.Mem r.Seq → tr1.Status.Accepted.Mem r.Seq) ∧
    (∀ r ∈ req.Logs, tr1.Status.Accepted.Mem r.Seq ↔
      (if LeaderId.lt tr.Status.Committer req.Committer then tr.Status.Committed
        else tr.Status.Accepted).Mem r.Seq ∨ ∃ x ∈ req.Logs, x.Overrides.Mem r.Seq) := by
  obtain ⟨h1, _, _, _, _, _, h7⟩ := hdlLogForward_accepted_mem tr tr1 now req repl h hok
  have hmem : ∀ i, tr1.Status.Accepted.Mem i ↔
      (if LeaderId.lt tr.Status.Committer req.Committer then tr.Status.Committed
        else tr.Status.Accepted).Mem i ∨ ∃ r ∈ req.Logs, r.Overrides.Mem i := by
    intro i
    rw [h7 i, discardUncommitted_mem]
  refine ⟨h1, hmem, ?_, fun r _ => hmem r.Seq⟩
  intro r hr hm
  exact (hmem r.Seq).2 (Or.inr ⟨r, hr, hm⟩)

theorem hdlLogForward_accepted_after_witness :
    hdlLogForward followerX 0 reqX = .ok (followerX1, replyX) ∧
    recordX2.Overrides.Mem recordX2.Seq ∧
    followerX1.Status.Accepted.Mem 2 ∧
    replyX.Accepted = some followerX1.Status.Accepted :=
  ⟨by decide, by decide,
   (hdlLogForward_accepted_after followerX followerX1 0 reqX replyX (by decide)
      (by decide)).2.2.1 recordX2 (by decide) (by decide),
   (hdlLogForward_accepted_after followerX followerX1 0 reqX replyX (by decide)
      (by decide)).1⟩

/-! ## hdlLogForward: which slots the loop writes -/

theorem extendLogs_getD_any (logs : List Record) (idx j : Nat) :
    (extendLogs logs idx).getD j Record.zero = logs.getD j Record.zero := by
  unfold extendLogs
  by_cases h : j < logs.length
  · simp [List.getD_eq_getElem?_getD, List.getElem?_append_left h]
  · have h1 : logs.length ≤ j := by omega
    rw [List.getD_eq_getElem?_getD, List.getD_eq_getElem?_getD,
      List.getElem?_append_right h1, List.getElem?_eq_none h1]
    by_cases h2 : j - logs.length < (List.replicate (idx + 1 - logs.length) Record.zero).length
    · rw [List.getElem?_eq_getElem h2]
      simp
    · rw [List.getElem?_eq_none (by omega)]

/-- One iteration writes the record to its slot and changes no other slot. -/
theorem forwardOne_getD {off : Int} {st st1 : List Record × TailBitmap} {p : Record}
    (h : forwardOne off st p = .ok st1) (seq : Int) (hseq : off ≤ seq) :
    st1.1.getD (seq - off).toNat Record.zero =
      if p.Seq = seq then p else st.1.getD (seq - off).toNat Record.zero := by
  have hp := forwardOne_seq_ge h
  have hnc : ¬ Conflict st.1 off p := by
    intro hc
    rw [(forwardOne_eq off st p hp).1 hc] at h
    simp at h
  rw [(forwardOne_eq off st p hp).2 hnc] at h
  simp only [Except.ok.injEq] at h
  rw [← h]
  simp only
  have hlen : (p.Seq - off).toNat < (extendLogs st.1 (p.Seq - off).toNat).length := by
    unfold extendLogs
    simp only [List.length_append, List.length_replicate]
    omega
  by_cases hs : p.Seq = seq
  · rw [if_pos hs, ← hs, List.getD_eq_getElem?_getD, List.getElem?_set_self hlen]
    rfl
  · rw [if_neg hs, List.getD_eq_getElem?_getD,
      List.getElem?_set_ne (by omega : (p.Seq - off).toNat ≠ (seq - off).toNat),
      ← List.getD_eq_getElem?_getD, extendLogs_getD_any]

/-- After the records `pre` were stored the slot of `seq` holds `heldWhen`. -/
theorem forwardAll_getD (off : Int) (seq : Int) (hseq : off ≤ seq) :
    ∀ (pre : List Record) (st st1 : List Record × TailBitmap),
      forwardAll off st pre = .ok st1 →
      st1.1.getD (seq - off).toNat Record.zero =
        heldWhen (st.1.getD (seq - off).toNat Record.zero) seq pre := by
  intro pre
  induction pre with
  | nil =>
    intro st st1 h
    simp only [forwardAll] at h
    injection h with h
    rw [h]
    rfl
  | cons p rest ih =>
    intro st st1 h
    simp only [forwardAll] at h
    cases h1 : forwardOne off st p with
    | error e => rw [h1] at h; simp at h
    | ok st2 =>
      rw [h1] at h
      simp only at h
      rw [ih st2 st1 h, forwardOne_getD h1 seq hseq]
      rfl

theorem conflict_iff_conflictAt (off : Int) (pre : List Record) (r : Record)
    (st st1 : List Record × TailBitmap) (hseq : off ≤ r.Seq)
    (h : forwardAll off st pre = .ok st1) :
    Conflict st1.1 off r ↔ ConflictAt st.1 off pre r := by
  rw [conflict_iff]
  unfold ConflictAt
  rw [forwardAll_getD off r.Seq hseq pre st st1 h]
  simp

/-- The loop panics exactly when some record finds its slot, as the spec
describes it, holding a different non-empty record. -/
theorem forwardAll_error_iff_conflictAt (off : Int) (logs : List Record)
    (st : List Record × TailBitmap) (hseq : ∀ r ∈ logs, off ≤ r.Seq) :
    (∃ e, forwardAll off st logs = .error e) ↔
      ∃ pre r post, logs = pre ++ r :: post ∧ ConflictAt st.1 off pre r := by
  have e1 := (forwardAll_error_iff off logs st hseq).1
  constructor
  · intro he
    obtain ⟨pre, r, post, st1, h1, h2, h3⟩ := e1.1 he
    have hr : off ≤ r.Seq := hseq r (by rw [h1]; simp)
    exact ⟨pre, r, post, h1, (conflict_iff_conflictAt off pre r st st1 hr h2).1 h3⟩
  · rintro ⟨pre, r, post, h1, h2⟩
    have hr : off ≤ r.Seq := hseq r (by rw [h1]; simp)
    cases hf : forwardAll off st pre with
    | ok st1 =>
      exact e1.2 ⟨pre, r, post, st1, h1, hf,
        (conflict_iff_conflictAt off pre r st st1 hr hf).2 h2⟩
    | error e =>
      have hpre : ∀ x ∈ pre, off ≤ x.Seq := fun x hx => hseq x (by rw [h1]; simp [hx])
      obtain ⟨pre1, r1, post1, st1, h3, h4, h5⟩ :=
        ((forwardAll_error_iff off pre st hpre).1).1 ⟨e, hf⟩
      exact e1.2 ⟨pre1, r1, post1 ++ r :: post, st1, by rw [h1, h3]; simp, h4, h5⟩

/-- C8: hdlLogForward never overwrites a held record with a different one.  For
an accepted request whose records have Seq >= LogOffset, the handler terminates
fatally (with the panic "wtf") if and only if, at the moment some request record
r is processed (after any newer-committer truncation and after the records
before it), the slot Logs[r.Seq - LogOffset] holds a non-empty record that is not
Equal to r: that slot holds the last earlier record of the request with the Seq
of r or, without one, what the truncated Logs held there.  Whenever it returns
normally, every slot it wrote was absent, empty or already Equal to the written
record, every non-empty record held after the truncation is still in its slot,
and every non-empty record held afterwards was held in that slot before or is a
record r of the request in the slot r.Seq - LogOffset. -/
theorem hdlLogForward_fatal_iff_conflict (tr : TRaft) (now : Int) (req : LogForwardReq)
    (h1 : req.Committer = tr.Status.VotedFor) (h2 : now ≤ tr.Status.VoteExpireAt)
    (hseq : ∀ r ∈ req.Logs, tr.LogOffset ≤ r.Seq) :
    ((∃ e, hdlLogForward tr now req = .error e) ↔
      ∃ pre r post, req.Logs = pre ++ r :: post ∧
        ConflictAt (discardUncommitted tr req).1 tr.LogOffset pre r) ∧
    ((∃ e, hdlLogForward tr now req = .error e) ↔
      ∃ pre r post st, req.Logs = pre ++ r :: post ∧
        forwardAll tr.LogOffset (discardUncommitted tr req) pre = .ok st ∧
        Conflict st.1 tr.LogOffset r) ∧
    (∀ e, hdlLogForward tr now req = .error e → e = Fatal.wtf) ∧
    (∀ tr1 repl, hdlLogForward tr now req = .ok (tr1, repl) →
      (∀ pre r post, req.Logs = pre ++ r :: post →
        (heldWhen ((discardUncommitted tr req).1.getD (r.Seq - tr.LogOffset).toNat Record.zero)
            r.Seq pre).Empty = true ∨
        (heldWhen ((discardUncommitted tr req).1.getD (r.Seq - tr.LogOffset).toNat Record.zero)
            r.Seq pre).Equal r = true) ∧
      (∀ pre r post, req.Logs = pre ++ r :: post →
        ∃ st, forwardAll tr.LogOffset (discardUncommitted tr req) pre = .ok st ∧
          ∀ cur, st.1.get? (r.Seq - tr.LogOffset).toNat = some cur →
            cur.Empty = true ∨ cur.Equal r = true) ∧
      (∀ (j : Nat) (x : Record), (discardUncommitted tr req).1[j]? = some x →
        x.Empty = false → tr1.Logs[j]? = some x) ∧
      (∀ (j : Nat) (x : Record), tr1.Logs[j]? = some x → x.Empty = false →
        (discardUncommitted tr req).1[j]? = some x ∨
        ∃ r ∈ req.Logs, x = r ∧ j = (r.Seq - tr.LogOffset).toNat)) := by
  obtain ⟨e1, e2⟩ :=
    forwardAll_error_iff tr.LogOffset req.Logs (discardUncommitted tr req) hseq
  have e3 := forwardAll_error_iff_conflictAt tr.LogOffset req.Logs
    (discardUncommitted tr req) hseq
  rw [hdlLogForward_of_accepted tr now req h1 h2]
  have herr : (∃ e, (match forwardAll tr.LogOffset (discardUncommitted tr req) req.Logs with
      | .error e => (.error e : Except Fatal (TRaft × LogForwardReply))
      | .ok st1 =>
        .ok ({ tr with
                Logs := trimTop st1.1
                Status := { tr.Status with Accepted := st1.2, Committer := req.Committer } },
             { OK := true, VotedFor := tr.Status.VotedFor
               Accepted := some st1.2, Committed := some tr.Status.Committed })) = .error e) ↔
      ∃ e, forwardAll tr.LogOffset (discardUncommitted tr req) req.Logs = .error e := by
    cases hf : forwardAll tr.LogOffset (discardUncommitted tr req) req.Logs with
    | error e => simp
    | ok st1 => simp
  refine ⟨herr.trans e3, herr.trans e1, ?_, ?_⟩
  · intro e he
    cases hf : forwardAll tr.LogOffset (discardUncommitted tr req) req.Logs with
    | error e0 =>
      rw [hf] at he
      simp only [Except.error.injEq] at he
      rw [← he]
      exact e2 e0 hf
    | ok st1 => rw [hf] at he; simp at he
  · intro tr1 repl h
    cases hf : forwardAll tr.LogOffset (discardUncommitted tr req) req.Logs with
    | error e0 => rw [hf] at h; simp at h
    | ok st1 =>
      rw [hf] at h
      simp only [Except.ok.injEq, Prod.mk.injEq] at h
      obtain ⟨htr1, _⟩ := h
      have hlogs : tr1.Logs = trimTop st1.1 := by rw [← htr1]
      have hsplit : ∀ pre r post, req.Logs = pre ++ r :: post →
          ∃ st2, forwardAll tr.LogOffset (discardUncommitted tr req) pre = .ok st2 ∧
            ¬ Conflict st2.1 tr.LogOffset r := by
        intro pre r post hl
        have hf1 := hf
        rw [hl] at hf1
        obtain ⟨st2, st3, h3, h4, _⟩ := forwardAll_ok_split tr.LogOffset pre r post _ _ hf1
        refine ⟨st2, h3, ?_⟩
        have hr : tr.LogOffset ≤ r.Seq := hseq r (by rw [hl]; simp)
        intro hc
        rw [(forwardOne_eq tr.LogOffset st2 r hr).1 hc] at h4
        simp at h4
      refine ⟨?_, ?_, ?_, ?_⟩
      · intro pre r post hl
        obtain ⟨st2, h3, hnc⟩ := hsplit pre r post hl
        have hr : tr.LogOffset ≤ r.Seq := hseq r (by rw [hl]; simp)
        rw [conflict_iff_conflictAt tr.LogOffset pre r _ st2 hr h3] at hnc
        unfold ConflictAt at hnc
        by_contra hcon
        push_neg at hcon
        apply hnc
        exact ⟨by simpa using hcon.1, by simpa using hcon.2⟩
      · intro pre r post hl
        obtain ⟨st2, h3, hnc⟩ := hsplit pre r post hl
        refine ⟨st2, h3, ?_⟩
        intro cur hcur
        unfold Conflict at hnc
        by_contra hcon
        push_neg at hcon
        apply hnc
        exact ⟨cur, hcur, by simpa using hcon.1, by simpa using hcon.2⟩
      · intro j x hx hne
        rw [hlogs]
        exact trimTop_keeps st1.1 j x
          (forwardAll_keeps tr.LogOffset req.Logs _ st1 hf j x hx hne) hne
      · intro j x hx hne
        rw [hlogs] at hx
        rcases forwardAll_origin tr.LogOffset req.Logs _ st1 hf j x
            (trimTop_origin st1.1 j x hx) hne with h5 | ⟨r, hr, h6, _, h8⟩
        · exact Or.inl h5
        · exact Or.inr ⟨r, hr, h6, h8⟩

theorem hdlLogForward_fatal_iff_conflict_witness :
    (hdlLogForward followerE 1000000 reqD = .error Fatal.wtf ∧
      ∃ pre r post, reqD.Logs = pre ++ r :: post ∧
        ConflictAt (discardUncommitted followerE reqD).1 followerE.LogOffset pre r) ∧
    (hdlLogForward followerD1 1000000 reqK = .ok (followerD2, ackD) ∧
      followerD1.Logs[0]? = some recordD ∧ followerD2.Logs[0]? = some recordD) :=
  ⟨⟨by decide,
    (hdlLogForward_fatal_iff_conflict followerE 1000000 reqD
      (by decide) (by decide) (by decide)).1.1 ⟨Fatal.wtf, by decide⟩⟩,
   ⟨by decide, by decide,
    ((hdlLogForward_fatal_iff_conflict followerD1 1000000 reqK
      (by decide) (by decide) (by decide)).2.2.2 followerD2 ackD (by decide)).2.2.1
        0 recordD (by decide) (by decide)⟩⟩

end Traft
